import Mathlib

/-!
# Feature selection with a leave-one-out nearest-neighbour oracle

A shallow embedding of `src/code.cpp`: the normaliser (`loadAndNormalize`, after
the file has been parsed), the evaluation oracle (`evaluateSubset`) and the two
greedy searches (`forwardSelection`, `backwardElimination`).

Conventions of the embedding.

* `double` values are elements of an arbitrary linearly ordered field `K`
  (exact arithmetic); the definitions are computable and run at `K = ℚ`.
  The square root used by the normaliser is a parameter.
* The oracle and the normaliser are embedded a second time with the rounding of
  binary64 after every operation (the definitions with the suffix `D`), for the
  properties that rounding decides.
* `numeric_limits<double>::max()` is the constant `DBL_MAX`, the same number
  as in IEEE binary64.
* `int` indices and counters are `Nat`; labels are `Int`.  The sentinel `-1`
  of `level_best_feature` / `levelRemoveFeature` is `none`.
* A read outside a vector is undefined in the source; the model reads a fixed
  default there (`0` for a feature).
* The search trace written to `cout` is kept as a list of `Event`s.
-/

namespace FeatureSelection

/-- The `struct Instance` of the source: a class label and a feature vector. -/
structure Instance (K : Type) where
  label : Int
  features : List K

variable {K : Type} [LinearOrderedField K]

/-- The value of `numeric_limits<double>::max()`, `(2 - 2^(-52)) * 2^1023`. -/
def DBL_MAX (K : Type) [LinearOrderedField K] : K := (2 ^ 53 - 1) * 2 ^ 971

/-- The element `instances[i]`. -/
def nth (instances : List (Instance K)) (i : Nat) : Instance K :=
  instances.getD i ⟨0, []⟩

/-- The element `features[fIdx]` of a feature vector. -/
def feat (inst : Instance K) (fIdx : Nat) : K :=
  inst.features.getD fIdx 0

/-- The loop `for (int fIdx : subset)` of `evaluateSubset` (source lines 83-87):
the squared Euclidean distance restricted to the coordinates of `subset`. -/
def sqDist (test_instance candidate : Instance K) (subset : List Nat) : K :=
  subset.foldl
    (fun d2 fIdx =>
      let diff := feat test_instance fIdx - feat candidate fIdx
      d2 + diff * diff)
    0

/-- The loop over `j` of `evaluateSubset` (source lines 78-92) for the query
`i`: the final pair `(best_distance, best_label)`. -/
def nearestNeighbor (instances : List (Instance K)) (subset : List Nat) (i : Nat) :
    K × Int :=
  (List.range instances.length).foldl
    (fun best j =>
      if j = i then best
      else
        let d2 := sqDist (nth instances i) (nth instances j) subset
        if d2 < best.1 then (d2, (nth instances j).label) else best)
    (DBL_MAX K, -1)

/-- The loop over `i` of `evaluateSubset` (source lines 75-94): the final value
of `correct`. -/
def countCorrect (instances : List (Instance K)) (subset : List Nat) : Nat :=
  (List.range instances.length).foldl
    (fun correct i =>
      if (nearestNeighbor instances subset i).2 = (nth instances i).label
      then correct + 1 else correct)
    0

/-- The function `evaluateSubset` of the source (lines 73-96). -/
def evaluateSubset (instances : List (Instance K)) (subset : List Nat) : K :=
  (countCorrect instances subset : K) / (instances.length : K)

/-! ## Console trace -/

/-- A line of the search trace written to `cout`: a trial subset with its
accuracy ("Using feature(s) ... accuracy is ..."), or the announcement of a new
best subset ("Feature set ... was best, accuracy is ..."). -/
inductive Event (K : Type) where
  | trial (subset : List Nat) (acc : K)
  | best (subset : List Nat) (acc : K)

/-- The accuracies announced by the "was best" lines of a trace, in order. -/
def acceptedAccs : List (Event K) → List K
  | [] => []
  | Event.trial _ _ :: rest => acceptedAccs rest
  | Event.best _ acc :: rest => acc :: acceptedAccs rest

/-- The subsets of the "Using feature(s)" lines of a trace, in order. -/
def trialSubsets : List (Event K) → List (List Nat)
  | [] => []
  | Event.trial subset _ :: rest => subset :: trialSubsets rest
  | Event.best _ _ :: rest => trialSubsets rest

/-! ## Forward selection -/

/-- The variables of one level of `forwardSelection` (lines 113-131), with the
trace lines written so far in the level. -/
structure ForwardLevel (K : Type) where
  level_best_accuracy : K
  level_best_feature : Option Nat
  out : List (Event K)

/-- The loop over `f` of `forwardSelection` (source lines 113-131). -/
def forwardLevel (instances : List (Instance K)) (num_features : Nat)
    (current_set : List Nat) (feature_used : List Bool) : ForwardLevel K :=
  (List.range num_features).foldl
    (fun lv f =>
      if feature_used.getD f false then lv
      else
        let trial_set := current_set ++ [f]
        let acc := evaluateSubset instances trial_set
        if acc > lv.level_best_accuracy then
          { level_best_accuracy := acc, level_best_feature := some f,
            out := lv.out ++ [Event.trial trial_set acc] }
        else { lv with out := lv.out ++ [Event.trial trial_set acc] })
    { level_best_accuracy := 0, level_best_feature := none, out := [] }

/-- The variables of `forwardSelection` that live across levels, with the trace
written so far. -/
structure ForwardState (K : Type) where
  current_set : List Nat
  best_accuracy : K
  feature_used : List Bool
  bestSubset : List Nat
  out : List (Event K)

/-- The loop over `level` of `forwardSelection` (source lines 112-145), with
the number of levels still to run as first argument. -/
def forwardLoop (instances : List (Instance K)) (num_features : Nat) :
    Nat → ForwardState K → ForwardState K
  | 0, st => st
  | remaining + 1, st =>
    let lv := forwardLevel instances num_features st.current_set st.feature_used
    match lv.level_best_feature with
    | none => { st with out := st.out ++ lv.out }
    | some f =>
      if lv.level_best_accuracy ≤ st.best_accuracy then
        { st with out := st.out ++ lv.out }
      else
        forwardLoop instances num_features remaining
          { current_set := st.current_set ++ [f]
            best_accuracy := lv.level_best_accuracy
            feature_used := st.feature_used.set f true
            bestSubset := st.current_set ++ [f]
            out := st.out ++ lv.out ++
              [Event.best (st.current_set ++ [f]) lv.level_best_accuracy] }

/-- The state of `forwardSelection` before its loop (source lines 99-110). -/
def forwardInit (instances : List (Instance K)) (num_features : Nat) : ForwardState K :=
  { current_set := []
    best_accuracy := evaluateSubset instances []
    feature_used := List.replicate num_features false
    bestSubset := []
    out := [] }

/-- The state of `forwardSelection` when its loop has ended. -/
def forwardSearch (instances : List (Instance K)) (num_features : Nat) : ForwardState K :=
  forwardLoop instances num_features num_features (forwardInit instances num_features)

/-- The function `forwardSelection` of the source (lines 98-154): the returned
`bestSubset`. -/
def forwardSelection (instances : List (Instance K)) (num_features : Nat) : List Nat :=
  (forwardSearch instances num_features).bestSubset

/-- The accuracy `forwardSelection` prints on its last line (source line 151). -/
def forwardSelectionAccuracy (instances : List (Instance K)) (num_features : Nat) : K :=
  (forwardSearch instances num_features).best_accuracy

/-! ## Backward elimination -/

/-- The variables of one level of `backwardElimination` (lines 166-188), with
the trace lines written so far in the level. -/
structure BackwardLevel (K : Type) where
  levelBestAcc : K
  levelRemoveFeature : Option Nat
  levelBestSet : List Nat
  out : List (Event K)

/-- The loop over `f` of `backwardElimination` (source lines 166-188). -/
def backwardLevel (data : List (Instance K)) (F : Nat)
    (currentSet : List Nat) (used : List Bool) : BackwardLevel K :=
  (List.range F).foldl
    (fun lv f =>
      if !(used.getD f false) then lv
      else
        let trialSet := currentSet.filter (fun x => x != f)
        let acc := evaluateSubset data trialSet
        if acc > lv.levelBestAcc then
          { levelBestAcc := acc, levelRemoveFeature := some f,
            levelBestSet := trialSet, out := lv.out ++ [Event.trial trialSet acc] }
        else { lv with out := lv.out ++ [Event.trial trialSet acc] })
    { levelBestAcc := 0, levelRemoveFeature := none, levelBestSet := [], out := [] }

/-- The variables of `backwardElimination` that live across levels, with the
trace written so far. -/
structure BackwardState (K : Type) where
  currentSet : List Nat
  bestSoFar : K
  used : List Bool
  bestSubset : List Nat
  out : List (Event K)

/-- The loop over `level` of `backwardElimination` (source lines 165-202), with
the number of levels still to run as first argument. -/
def backwardLoop (data : List (Instance K)) (F : Nat) :
    Nat → BackwardState K → BackwardState K
  | 0, st => st
  | remaining + 1, st =>
    let lv := backwardLevel data F st.currentSet st.used
    match lv.levelRemoveFeature with
    | none => { st with out := st.out ++ lv.out }
    | some f =>
      if lv.levelBestAcc ≤ st.bestSoFar then
        { st with out := st.out ++ lv.out }
      else
        backwardLoop data F remaining
          { currentSet := lv.levelBestSet
            bestSoFar := lv.levelBestAcc
            used := st.used.set f false
            bestSubset := lv.levelBestSet
            out := st.out ++ lv.out ++ [Event.best lv.levelBestSet lv.levelBestAcc] }

/-- The state of `backwardElimination` before its loop (source lines 157-163). -/
def backwardInit (data : List (Instance K)) (F : Nat) : BackwardState K :=
  { currentSet := List.range F
    bestSoFar := evaluateSubset data (List.range F)
    used := List.replicate F true
    bestSubset := List.range F
    out := [] }

/-- The state of `backwardElimination` when its loop has ended. -/
def backwardSearch (data : List (Instance K)) (F : Nat) : BackwardState K :=
  backwardLoop data F F (backwardInit data F)

/-- The function `backwardElimination` of the source (lines 156-211): the
returned `bestSubset`. -/
def backwardElimination (data : List (Instance K)) (F : Nat) : List Nat :=
  (backwardSearch data F).bestSubset

/-- The accuracy `backwardElimination` prints on its last line (source line 208). -/
def backwardEliminationAccuracy (data : List (Instance K)) (F : Nat) : K :=
  (backwardSearch data F).bestSoFar

/-! ## Normaliser -/

/-- The value `mean_features[j]` after source lines 50-53. -/
def columnMean (raw_data : List (List K)) (j : Nat) : K :=
  raw_data.foldl (fun s row => s + row.getD j 0) 0 / (raw_data.length : K)

/-- The value `std_features[j]` after source lines 54-59; `sqrt` is the square
root function. -/
def columnStd (sqrt : K → K) (raw_data : List (List K)) (j : Nat) : K :=
  let s := sqrt
    (raw_data.foldl
        (fun s row =>
          let diff := row.getD j 0 - columnMean raw_data j
          s + diff * diff)
        0 /
      ((raw_data.length - 1 : Nat) : K))
  if s = 0 then 1 else s

/-- The function `loadAndNormalize` of the source from line 41 on, that is after
the file has been read into the parallel vectors `labels` and `raw_data`, given
here as the list of pairs `(labels[i], raw_data[i])`.  The result is `none` where
the source exits on an empty dataset, and otherwise `num_features` with the
returned instances. -/
def loadAndNormalize (sqrt : K → K) (rows : List (Int × List K)) :
    Option (Nat × List (Instance K)) :=
  let raw_data := rows.map Prod.snd
  match raw_data with
  | [] => none
  | first :: _ =>
    let num_features := first.length
    some (num_features,
      rows.map (fun r =>
        { label := r.1
          features := (List.range num_features).map (fun j =>
            (r.2.getD j 0 - columnMean raw_data j) / columnStd sqrt raw_data j) }))

/-! ## Scanning loops (proof devices) -/

/-- A loop that keeps the first strictly smaller value, with a payload. -/
def scanMin {α β : Type} [LinearOrder α] (skip : Nat → Bool) (v : Nat → α) (pay : Nat → β)
    (l : List Nat) (init : α × β) : α × β :=
  l.foldl (fun b f => if skip f then b else if v f < b.1 then (v f, pay f) else b) init

/-- A loop that keeps the first strictly larger value, with a payload. -/
def scanMax {α β : Type} [LinearOrder α] (skip : Nat → Bool) (v : Nat → α) (pay : Nat → β)
    (l : List Nat) (init : α × β) : α × β :=
  l.foldl (fun b f => if skip f then b else if v f > b.1 then (v f, pay f) else b) init

/-! ## Loop invariants (proof devices) -/

/-- The invariant of the level loop of `forwardSelection`; `base` is the accuracy
the search started from. -/
structure ForwardInv (instances : List (Instance K)) (F : Nat) (base : K)
    (st : ForwardState K) : Prop where
  best_eq : st.bestSubset = st.current_set
  acc_eq : st.best_accuracy = evaluateSubset instances st.current_set
  used_len : st.feature_used.length = F
  used_iff : ∀ f, f < F → (st.feature_used.getD f false = true ↔ f ∈ st.current_set)
  nodup : st.current_set.Nodup
  bound : ∀ f, f ∈ st.current_set → f < F
  chain : List.Chain' (fun a b => a < b) (base :: acceptedAccs st.out)
  last : (base :: acceptedAccs st.out).getLast? = some st.best_accuracy
  mono : base ≤ st.best_accuracy

/-- The invariant of the level loop of `backwardElimination`; `base` is the
accuracy the search started from. -/
structure BackwardInv (data : List (Instance K)) (F : Nat) (base : K)
    (st : BackwardState K) : Prop where
  best_eq : st.bestSubset = st.currentSet
  acc_eq : st.bestSoFar = evaluateSubset data st.currentSet
  used_len : st.used.length = F
  used_iff : ∀ f, f < F → (st.used.getD f false = true ↔ f ∈ st.currentSet)
  sublist : st.currentSet.Sublist (List.range F)
  removed : st.currentSet.length + (acceptedAccs st.out).length = F
  chain : List.Chain' (fun a b => a < b) (base :: acceptedAccs st.out)
  last : (base :: acceptedAccs st.out).getLast? = some st.bestSoFar
  mono : base ≤ st.bestSoFar

/-! ## Specification-side definitions -/

/-- The nearest neighbour of query `i` in the words of the specification: `j` is
the lowest index different from `i` that minimises the squared distance to
instance `i` restricted to `subset`. -/
def IsNearest (instances : List (Instance K)) (subset : List Nat) (i j : Nat) : Prop :=
  j < instances.length ∧ j ≠ i ∧
  (∀ k, k < instances.length → k ≠ i →
    sqDist (nth instances i) (nth instances j) subset ≤
      sqDist (nth instances i) (nth instances k) subset) ∧
  (∀ k, k < j → k ≠ i →
    sqDist (nth instances i) (nth instances j) subset <
      sqDist (nth instances i) (nth instances k) subset)

/-- The leave-one-out accuracy in the words of the specification, for a given
nearest-neighbour assignment `nn`: the number of queries whose neighbour has
the query's label, over `N`. -/
def looAccuracy (instances : List (Instance K)) (nn : Nat → Nat) : K :=
  (((List.range instances.length).countP
      (fun i => decide ((nth instances (nn i)).label = (nth instances i).label)) : Nat) : K) /
    (instances.length : K)

/-- Every instance of the dataset has exactly `F` features. -/
def WellFormed (instances : List (Instance K)) (F : Nat) : Prop :=
  ∀ inst, inst ∈ instances → inst.features.length = F

/-- Every index of the subset is a valid feature index of every instance. -/
def ValidSubset (instances : List (Instance K)) (subset : List Nat) : Prop :=
  ∀ f, f ∈ subset → ∀ inst, inst ∈ instances → f < inst.features.length

/-! ## Concrete datasets -/

/-- Two instances of class 5 whose single features are `0` and `2^600`. -/
def farApart : List (Instance ℚ) := [⟨5, [0]⟩, ⟨5, [2 ^ 600]⟩]

/-- Four instances with one feature, where each nearest neighbour along the
feature belongs to the other class. -/
def misleading : List (Instance ℚ) := [⟨1, [0]⟩, ⟨1, [10]⟩, ⟨2, [1]⟩, ⟨2, [11]⟩]

/-- Four instances with two features, two per class. -/
def sample : List (Instance ℚ) := [⟨1, [0, 0]⟩, ⟨1, [0, 1]⟩, ⟨2, [5, 5]⟩, ⟨2, [5, 6]⟩]

/-- Three instances whose feature `0` is the same in every instance. -/
def constantColumn : List (Instance ℚ) := [⟨1, [0, 3]⟩, ⟨2, [0, 5]⟩, ⟨1, [0, 4]⟩]

/-- The parsed rows of the end-to-end scenario of the specification: labels
`[1,1,2,2]` and raw features `[[0,0],[0,1],[5,5],[5,6]]`. -/
def scenarioRows (K : Type) [LinearOrderedField K] : List (Int × List K) :=
  [(1, [0, 0]), (1, [0, 1]), (2, [5, 5]), (2, [5, 6])]


/-- Four instances with labels `[1,1,2,2]` and two features, the first feature
taking the value `a` in class 1 and `c` in class 2 (the shape of the normalised
scenario). -/
def scenarioShape (a c b0 b1 b2 b3 : K) : List (Instance K) :=
  [⟨1, [a, b0]⟩, ⟨1, [a, b1]⟩, ⟨2, [c, b2]⟩, ⟨2, [c, b3]⟩]

/-! ## Default rate -/

/-- The value `defaultRate` that `forwardSelection` computes and prints as
"Default rate (no features)" (source lines 101-106). -/
def defaultRate (instances : List (Instance K)) : K :=
  let count_class1 :=
    instances.foldl (fun count inst => if inst.label = 1 then count + 1 else count) 0
  let num_instances := instances.length
  let majorityCount := max count_class1 (num_instances - count_class1)
  (majorityCount : K) / (num_instances : K)

/-! ## Specification-side definitions for the searches -/

/-- The number of instances of class `l`. -/
def classCount (instances : List (Instance K)) (l : Int) : Nat :=
  instances.countP (fun inst => decide (inst.label = l))

/-- The size of the most frequent label class of the dataset. -/
def majorityClassCount (instances : List (Instance K)) : Nat :=
  (instances.map (fun inst => classCount instances inst.label)).foldr max 0

/-- The empirical majority-class rate in the words of the specification: the
size of the most frequent label class over `N`. -/
def majorityRate (instances : List (Instance K)) : K :=
  (majorityClassCount instances : K) / (instances.length : K)

/-- What every line of the trace of `forwardSelection` satisfies.  A trial line
shows a duplicate-free subset of `[0,F)` with its oracle accuracy.  A "was best"
line shows `cur ++ [f]` where `cur` is the subset before the level, `f` is an
unused feature whose trial accuracy is maximal among the unused features and
strictly above that of every unused feature of lower index, and that accuracy
strictly exceeds the accuracy of `cur`. -/
def ForwardEventOk (instances : List (Instance K)) (F : Nat) : Event K → Prop
  | Event.trial s acc =>
    s.Nodup ∧ (∀ f, f ∈ s → f < F) ∧ acc = evaluateSubset instances s
  | Event.best s acc =>
    ∃ cur f, s = cur ++ [f] ∧ cur.Nodup ∧ (∀ g, g ∈ cur → g < F) ∧ f < F ∧ f ∉ cur ∧
      acc = evaluateSubset instances s ∧
      evaluateSubset instances cur < acc ∧
      (∀ g, g < F → g ∉ cur → evaluateSubset instances (cur ++ [g]) ≤ acc) ∧
      (∀ g, g < f → g ∉ cur → evaluateSubset instances (cur ++ [g]) < acc)

/-- What every line of the trace of `backwardElimination` satisfies: the subset
shown is a sub-list of `[0, ..., F-1]` and the accuracy shown is its oracle
accuracy. -/
def BackwardEventOk (data : List (Instance K)) (F : Nat) : Event K → Prop
  | Event.trial s acc => s.Sublist (List.range F) ∧ acc = evaluateSubset data s
  | Event.best s acc => s.Sublist (List.range F) ∧ acc = evaluateSubset data s

/-- Three instances of three different classes. -/
def threeClasses : List (Instance ℚ) := [⟨1, [0]⟩, ⟨2, [1]⟩, ⟨3, [2]⟩]

/-! ## Definitions for the normaliser claims -/

/-- The value of `std_features[j]` after source line 58, before the test for
zero of line 59. -/
def columnStdComputed (sqrt : K → K) (raw_data : List (List K)) (j : Nat) : K :=
  sqrt
    (raw_data.foldl
        (fun s row =>
          let diff := row.getD j 0 - columnMean raw_data j
          s + diff * diff)
        0 /
      ((raw_data.length - 1 : Nat) : K))

/-- The sample mean of a column of values, in the words of the specification. -/
def sampleMean (col : List K) : K :=
  col.sum / (col.length : K)

/-- The sample variance of a column of values with the `N - 1` denominator; the
sample standard deviation of the specification is its square root. -/
def sampleVariance (col : List K) : K :=
  (col.map (fun x => (x - sampleMean col) * (x - sampleMean col))).sum /
    ((col.length : K) - 1)

/-- Column `j` of the parsed rows. -/
def rawColumn (rows : List (Int × List K)) (j : Nat) : List K :=
  rows.map (fun r => r.2.getD j 0)

/-- Column `j` of a dataset. -/
def dataColumn (instances : List (Instance K)) (j : Nat) : List K :=
  instances.map (fun inst => feat inst j)

/-- Column `j` of the parsed rows holds one value only. -/
def ColumnConstant (rows : List (Int × List K)) (j : Nat) : Prop :=
  ∀ r, r ∈ rows → ∀ r', r' ∈ rows → r.2.getD j 0 = r'.2.getD j 0

/-- A dataset seen as parsed rows again, to pass it through the normaliser a
second time. -/
def toRows (instances : List (Instance K)) : List (Int × List K) :=
  instances.map (fun inst => (inst.label, inst.features))

/-- The instances built by source lines 62-69 of `loadAndNormalize` from the
parsed rows, for `num_features = F`. -/
def normalizedData (sqrt : K → K) (rows : List (Int × List K)) (F : Nat) :
    List (Instance K) :=
  rows.map (fun r =>
    { label := r.1
      features := (List.range F).map (fun j =>
        (r.2.getD j 0 - columnMean (rows.map Prod.snd) j) /
          columnStd sqrt (rows.map Prod.snd) j) })

/-- Three parsed rows with two features whose column `0` is constant. -/
def constantRows (K : Type) [LinearOrderedField K] : List (Int × List K) :=
  [(1, [7, 0]), (2, [7, 1]), (1, [7, 3])]

/-! ## Double arithmetic

The oracle and the normaliser once more, with the rounding of `double`.  A finite
`double` is the rational number it stands for.  Every arithmetic operation of
the source is the exact operation followed by `roundToDouble`, rounding to the
nearest binary64 value with ties to even, one rounding per operation (no fused
multiply-add); `sqrt` is correctly rounded.  Infinities and NaN are not
represented: where the hardware overflows, the model keeps the finite rounding.
A conversion of an `int` to `double` is exact. -/

/-- The nearest integer, ties to the even one. -/
def roundHalfEven (q : ℚ) : ℤ :=
  let f := ⌊q⌋
  if q - f < 1 / 2 then f
  else if 1 / 2 < q - f then f + 1
  else if f % 2 = 0 then f else f + 1

/-- The spacing of the binary64 values around `x`: 53 significant bits, and the
exponent of the subnormal range below `2^(-1022)`. -/
def ulpOf (x : ℚ) : ℚ :=
  2 ^ (max (Int.log 2 |x|) (-1022) - 52)

/-- The binary64 value nearest to `x`, ties to even. -/
def roundToDouble (x : ℚ) : ℚ :=
  roundHalfEven (x / ulpOf x) * ulpOf x

/-- The `double` sum `a + b`. -/
@[irreducible] def dadd (a b : ℚ) : ℚ := roundToDouble (a + b)

/-- The `double` difference `a - b`. -/
@[irreducible] def dsub (a b : ℚ) : ℚ := roundToDouble (a - b)

/-- The `double` product `a * b`. -/
@[irreducible] def dmul (a b : ℚ) : ℚ := roundToDouble (a * b)

/-- The `double` quotient `a / b`, for `b ≠ 0`. -/
@[irreducible] def ddiv (a b : ℚ) : ℚ := roundToDouble (a / b)

/-- The `double` square root `sqrt(x)` for `x ≥ 0`: the binary64 value nearest to
the real square root, ties to even. -/
@[irreducible] def dsqrt (x : ℚ) : ℚ :=
  if x ≤ 0 then 0
  else
    let ulp : ℚ := 2 ^ (Int.log 2 x / 2 - 52)
    let w : ℚ := x / (ulp * ulp)
    let f : ℕ := Nat.sqrt ⌊w⌋₊
    let r : ℕ :=
      if w < ((f : ℚ) + 1 / 2) ^ 2 then f
      else if ((f : ℚ) + 1 / 2) ^ 2 < w then f + 1
      else if f % 2 = 0 then f else f + 1
    (r : ℚ) * ulp

/-- The loop `for (int fIdx : subset)` of `evaluateSubset` (source lines 83-87)
in `double` arithmetic. -/
def sqDistD (test_instance candidate : Instance ℚ) (subset : List Nat) : ℚ :=
  subset.foldl
    (fun d2 fIdx =>
      let diff := dsub (feat test_instance fIdx) (feat candidate fIdx)
      dadd d2 (dmul diff diff))
    0

/-- The loop over `j` of `evaluateSubset` (source lines 78-92) in `double`
arithmetic. -/
def nearestNeighborD (instances : List (Instance ℚ)) (subset : List Nat) (i : Nat) :
    ℚ × Int :=
  (List.range instances.length).foldl
    (fun best j =>
      if j = i then best
      else
        let d2 := sqDistD (nth instances i) (nth instances j) subset
        if d2 < best.1 then (d2, (nth instances j).label) else best)
    (DBL_MAX ℚ, -1)

/-- The loop over `i` of `evaluateSubset` (source lines 75-94) in `double`
arithmetic: the final value of `correct`. -/
def countCorrectD (instances : List (Instance ℚ)) (subset : List Nat) : Nat :=
  (List.range instances.length).foldl
    (fun correct i =>
      if (nearestNeighborD instances subset i).2 = (nth instances i).label
      then correct + 1 else correct)
    0

/-- The function `evaluateSubset` of the source (lines 73-96) in `double`
arithmetic: the `double` it returns. -/
def evaluateSubsetD (instances : List (Instance ℚ)) (subset : List Nat) : ℚ :=
  ddiv (countCorrectD instances subset : ℚ) (instances.length : ℚ)

/-- The value `mean_features[j]` after source lines 50-53, in `double`
arithmetic. -/
def columnMeanD (raw_data : List (List ℚ)) (j : Nat) : ℚ :=
  ddiv (raw_data.foldl (fun s row => dadd s (row.getD j 0)) 0) (raw_data.length : ℚ)

/-- The value `std_features[j]` after source lines 54-59, in `double`
arithmetic. -/
def columnStdD (raw_data : List (List ℚ)) (j : Nat) : ℚ :=
  let s := dsqrt
    (ddiv
      (raw_data.foldl
        (fun s row =>
          let diff := dsub (row.getD j 0) (columnMeanD raw_data j)
          dadd s (dmul diff diff))
        0)
      ((raw_data.length - 1 : Nat) : ℚ))
  if s = 0 then 1 else s

/-- The function `loadAndNormalize` of the source from line 41 on, in `double`
arithmetic. -/
def loadAndNormalizeD (rows : List (Int × List ℚ)) : Option (Nat × List (Instance ℚ)) :=
  let raw_data := rows.map Prod.snd
  match raw_data with
  | [] => none
  | first :: _ =>
    let num_features := first.length
    some (num_features,
      rows.map (fun r =>
        { label := r.1
          features := (List.range num_features).map (fun j =>
            ddiv (dsub (r.2.getD j 0) (columnMeanD raw_data j)) (columnStdD raw_data j)) }))

/-- The `double` values that the normaliser makes of `roundingRows`. -/
def roundingData : List (Instance ℚ) :=
  [⟨1, [(-1763946149615123 / 2251799813685248)]⟩,
    ⟨1, [(-1763946149615123 / 2251799813685248)]⟩,
    ⟨2, [(4703856398973661 / 18014398509481984)]⟩,
    ⟨2, [(1469955124679269 / 1125899906842624)]⟩]

/-- The parsed rows of a file of 22 lines with the feature `0`: 15 lines of
class 1, then 7 lines of class 2. -/
def zeroRows : List (Int × List ℚ) :=
  [(1, [0]), (1, [0]), (1, [0]), (1, [0]), (1, [0]), (1, [0]), (1, [0]), (1, [0]), (1, [0]),
    (1, [0]), (1, [0]), (1, [0]), (1, [0]), (1, [0]), (1, [0]), (2, [0]), (2, [0]), (2, [0]),
    (2, [0]), (2, [0]), (2, [0]), (2, [0])]

/-- The `double` values that the normaliser makes of `zeroRows`. -/
def zeroData : List (Instance ℚ) :=
  [⟨1, [0]⟩, ⟨1, [0]⟩, ⟨1, [0]⟩, ⟨1, [0]⟩, ⟨1, [0]⟩, ⟨1, [0]⟩, ⟨1, [0]⟩, ⟨1, [0]⟩, ⟨1, [0]⟩,
    ⟨1, [0]⟩, ⟨1, [0]⟩, ⟨1, [0]⟩, ⟨1, [0]⟩, ⟨1, [0]⟩, ⟨1, [0]⟩, ⟨2, [0]⟩, ⟨2, [0]⟩, ⟨2, [0]⟩,
    ⟨2, [0]⟩, ⟨2, [0]⟩, ⟨2, [0]⟩, ⟨2, [0]⟩]

/-! ## The scanning loops -/

theorem scanMin_range {α β : Type} [LinearOrder α] (skip : Nat → Bool) (v : Nat → α)
    (pay : Nat → β) (c : α) (p0 : β) (m : Nat) :
    (scanMin skip v pay (List.range m) (c, p0) = (c, p0) ∧
        ∀ k, k < m → skip k = false → c ≤ v k) ∨
    ∃ f, f < m ∧ skip f = false ∧ scanMin skip v pay (List.range m) (c, p0) = (v f, pay f) ∧
      v f < c ∧ (∀ k, k < m → skip k = false → v f ≤ v k) ∧
      ∀ k, k < f → skip k = false → v f < v k := by
  induction m with
  | zero => left; simp [scanMin]
  | succ m ih =>
    have hstep : scanMin skip v pay (List.range (m + 1)) (c, p0) =
        (if skip m then scanMin skip v pay (List.range m) (c, p0)
         else if v m < (scanMin skip v pay (List.range m) (c, p0)).1 then (v m, pay m)
         else scanMin skip v pay (List.range m) (c, p0)) := by
      simp [scanMin, List.range_succ, List.foldl_append]
    rw [hstep]
    cases hs : skip m with
    | true =>
      simp only [if_true]
      rcases ih with ⟨h1, h2⟩ | ⟨f, hf, hsf, h1, h2, h3, h4⟩
      · left
        refine ⟨h1, fun k hk hsk => ?_⟩
        rcases Nat.lt_succ_iff_lt_or_eq.mp hk with hk | hk
        · exact h2 k hk hsk
        · subst hk; rw [hs] at hsk; cases hsk
      · right
        refine ⟨f, Nat.lt_succ_of_lt hf, hsf, h1, h2, fun k hk hsk => ?_, h4⟩
        rcases Nat.lt_succ_iff_lt_or_eq.mp hk with hk | hk
        · exact h3 k hk hsk
        · subst hk; rw [hs] at hsk; cases hsk
    | false =>
      simp only [Bool.false_eq_true, if_false]
      rcases ih with ⟨h1, h2⟩ | ⟨f, hf, hsf, h1, h2, h3, h4⟩
      · rw [h1]
        by_cases hlt : v m < c
        · right
          rw [if_pos hlt]
          refine ⟨m, Nat.lt_succ_self m, hs, rfl, hlt, fun k hk hsk => ?_, fun k hk hsk => ?_⟩
          · rcases Nat.lt_succ_iff_lt_or_eq.mp hk with hk | hk
            · exact le_trans (le_of_lt hlt) (h2 k hk hsk)
            · subst hk; exact le_refl _
          · exact lt_of_lt_of_le hlt (h2 k hk hsk)
        · left
          rw [if_neg hlt]
          refine ⟨rfl, fun k hk hsk => ?_⟩
          rcases Nat.lt_succ_iff_lt_or_eq.mp hk with hk | hk
          · exact h2 k hk hsk
          · subst hk; exact not_lt.mp hlt
      · rw [h1]
        by_cases hlt : v m < v f
        · right
          rw [if_pos hlt]
          refine ⟨m, Nat.lt_succ_self m, hs, rfl, lt_trans hlt h2, fun k hk hsk => ?_,
            fun k hk hsk => ?_⟩
          · rcases Nat.lt_succ_iff_lt_or_eq.mp hk with hk | hk
            · exact le_trans (le_of_lt hlt) (h3 k hk hsk)
            · subst hk; exact le_refl _
          · exact lt_of_lt_of_le hlt (h3 k hk hsk)
        · right
          rw [if_neg hlt]
          refine ⟨f, Nat.lt_succ_of_lt hf, hsf, rfl, h2, fun k hk hsk => ?_, h4⟩
          rcases Nat.lt_succ_iff_lt_or_eq.mp hk with hk | hk
          · exact h3 k hk hsk
          · subst hk; exact not_lt.mp hlt

theorem scanMax_range {α β : Type} [LinearOrder α] (skip : Nat → Bool) (v : Nat → α)
    (pay : Nat → β) (c : α) (p0 : β) (m : Nat) :
    (scanMax skip v pay (List.range m) (c, p0) = (c, p0) ∧
        ∀ k, k < m → skip k = false → v k ≤ c) ∨
    ∃ f, f < m ∧ skip f = false ∧ scanMax skip v pay (List.range m) (c, p0) = (v f, pay f) ∧
      c < v f ∧ (∀ k, k < m → skip k = false → v k ≤ v f) ∧
      ∀ k, k < f → skip k = false → v k < v f :=
  @scanMin_range αᵒᵈ β _ skip v pay c p0 m

theorem nearestNeighbor_eq_scanMin (instances : List (Instance K)) (subset : List Nat)
    (i : Nat) :
    nearestNeighbor instances subset i =
      scanMin (fun j => decide (j = i))
        (fun j => sqDist (nth instances i) (nth instances j) subset)
        (fun j => (nth instances j).label) (List.range instances.length) (DBL_MAX K, -1) := by
  simp [nearestNeighbor, scanMin]

theorem count_foldl (p : Nat → Prop) [DecidablePred p] (l : List Nat) (c : Nat) :
    l.foldl (fun correct i => if p i then correct + 1 else correct) c =
      c + l.countP (fun i => decide (p i)) := by
  induction l generalizing c with
  | nil => simp
  | cons x xs ih =>
    simp only [List.foldl_cons, List.countP_cons, ih]
    by_cases hx : p x
    · simp [hx]; omega
    · simp [hx]

theorem countCorrect_eq_countP (instances : List (Instance K)) (subset : List Nat) :
    countCorrect instances subset =
      (List.range instances.length).countP
        (fun i => decide ((nearestNeighbor instances subset i).2 = (nth instances i).label)) := by
  unfold countCorrect
  rw [count_foldl (fun i => (nearestNeighbor instances subset i).2 = (nth instances i).label)]
  simp

/-! ## The evaluation oracle -/

/-- The result of the neighbour loop: either no candidate was below the initial
`best_distance` and the sentinel label `-1` is left, or the loop holds the
distance and label of the nearest neighbour of the specification. -/
theorem nearestNeighbor_spec (instances : List (Instance K)) (subset : List Nat) (i : Nat) :
    (nearestNeighbor instances subset i = (DBL_MAX K, -1) ∧
      ∀ k, k < instances.length → k ≠ i →
        DBL_MAX K ≤ sqDist (nth instances i) (nth instances k) subset) ∨
    ∃ j, IsNearest instances subset i j ∧
      sqDist (nth instances i) (nth instances j) subset < DBL_MAX K ∧
      nearestNeighbor instances subset i =
        (sqDist (nth instances i) (nth instances j) subset, (nth instances j).label) := by
  rw [nearestNeighbor_eq_scanMin]
  rcases scanMin_range (fun j => decide (j = i))
      (fun j => sqDist (nth instances i) (nth instances j) subset)
      (fun j => (nth instances j).label) (DBL_MAX K) (-1) instances.length with
    ⟨h1, h2⟩ | ⟨f, hf, hsf, h1, h2, h3, h4⟩
  · left
    exact ⟨h1, fun k hk hki => h2 k hk (by simpa using hki)⟩
  · right
    have hfi : f ≠ i := by simpa using hsf
    exact ⟨f, ⟨hf, hfi, fun k hk hki => h3 k hk (by simpa using hki),
      fun k hk hki => h4 k hk (by simpa using hki)⟩, h2, h1⟩

theorem IsNearest_unique (instances : List (Instance K)) (subset : List Nat) (i j j' : Nat)
    (h : IsNearest instances subset i j) (h' : IsNearest instances subset i j') : j = j' := by
  obtain ⟨hj, hji, hmin, hfirst⟩ := h
  obtain ⟨hj', hji', hmin', hfirst'⟩ := h'
  rcases Nat.lt_trichotomy j j' with hlt | heq | hgt
  · exact absurd (hfirst' j hlt hji) (not_lt.mpr (hmin j' hj' hji'))
  · exact heq
  · exact absurd (hfirst j' hgt hji') (not_lt.mpr (hmin' j hj hji))

/-- When a candidate lies below the initial `best_distance`, the label left by
the neighbour loop is the label of the nearest neighbour. -/
theorem nearestNeighbor_label (instances : List (Instance K)) (subset : List Nat) (i j : Nat)
    (hnear : IsNearest instances subset i j)
    (hfin : sqDist (nth instances i) (nth instances j) subset < DBL_MAX K) :
    (nearestNeighbor instances subset i).2 = (nth instances j).label := by
  rcases nearestNeighbor_spec instances subset i with ⟨_, h2⟩ | ⟨j', hj', _, h2⟩
  · exact absurd hfin (not_lt.mpr (h2 j hnear.1 hnear.2.1))
  · rw [h2, IsNearest_unique instances subset i j j' hnear hj']

theorem exists_other (n i : Nat) (hn : 2 ≤ n) : ∃ k, k < n ∧ k ≠ i := by
  by_cases h : i = 0
  · exact ⟨1, by omega, by omega⟩
  · exact ⟨0, by omega, fun h0 => h h0.symm⟩

/-- The sentinel of the neighbour loop in the exact model: the two instances of
`farApart` are each other's nearest neighbour and carry the same label, while
`evaluateSubset` returns `0`, since the squared distance `2^1200` is not below
the initial `best_distance` and the label `-1` is left in `best_label`. -/
theorem evaluateSubset_farApart :
    2 ≤ farApart.length ∧ ValidSubset farApart [0] ∧
    ∃ nn : Nat → Nat, (∀ i, i < farApart.length → IsNearest farApart [0] i (nn i)) ∧
      looAccuracy farApart nn = 1 ∧ evaluateSubset farApart [0] = 0 ∧
      evaluateSubset farApart [0] ≠ looAccuracy farApart nn := by
  have hev : evaluateSubset farApart [0] = 0 := by
    simp [evaluateSubset, countCorrect, nearestNeighbor, sqDist, nth, feat, List.range_succ,
      DBL_MAX, farApart]
    norm_num
  have hloo : looAccuracy farApart (fun i => 1 - i) = 1 := by
    simp [looAccuracy, nth, List.range_succ, farApart]
  refine ⟨by decide, by simp [ValidSubset, farApart], fun i => 1 - i, ?_, hloo, hev, ?_⟩
  · intro i hi
    simp only [farApart, List.length_cons, List.length_nil] at hi
    interval_cases i
    · show IsNearest farApart [0] 0 1
      refine ⟨by decide, by decide, ?_, ?_⟩
      · intro k hk hki
        simp only [farApart, List.length_cons, List.length_nil] at hk
        interval_cases k
        · exact absurd rfl hki
        · exact le_refl _
      · intro k hk hki
        have : k = 0 := by omega
        exact absurd this hki
    · show IsNearest farApart [0] 1 0
      refine ⟨by decide, by decide, ?_, ?_⟩
      · intro k hk hki
        simp only [farApart, List.length_cons, List.length_nil] at hk
        interval_cases k
        · exact le_refl _
        · exact absurd rfl hki
      · intro k hk _
        exact absurd hk (by omega)
  · rw [hev, hloo]; norm_num

theorem DBL_MAX_pos : (0 : K) < DBL_MAX K := by
  unfold DBL_MAX
  have h1 : (1 : K) < 2 ^ 53 := one_lt_pow₀ one_lt_two (by norm_num)
  have h2 : (0 : K) < 2 ^ 971 := by positivity
  exact mul_pos (by linarith) h2

theorem nth_mem (instances : List (Instance K)) (i : Nat) (hi : i < instances.length) :
    nth instances i ∈ instances := by
  unfold nth
  rw [List.getD_eq_getElem _ _ hi]
  exact List.getElem_mem hi

theorem sqDist_eq_zero (a b : Instance K) (subset : List Nat)
    (h : ∀ f, f ∈ subset → feat a f = feat b f) : sqDist a b subset = 0 := by
  unfold sqDist
  induction subset with
  | nil => rfl
  | cons x xs ih =>
    have hx : feat a x = feat b x := h x (List.mem_cons_self x xs)
    simp only [List.foldl_cons, hx, sub_self, mul_zero, add_zero]
    exact ih (fun f hf => h f (List.mem_cons_of_mem x hf))

theorem countCorrect_le (instances : List (Instance K)) (subset : List Nat) :
    countCorrect instances subset ≤ instances.length := by
  rw [countCorrect_eq_countP]
  exact le_trans (List.countP_le_length _) (by simp)

theorem countP_range_split (p : Nat → Bool) (n : Nat) (hn : 1 ≤ n) :
    (List.range n).countP p =
      (if p 0 then 1 else 0) + (List.range n).countP (fun i => decide (1 ≤ i) && p i) := by
  obtain ⟨m, rfl⟩ : ∃ m, n = m + 1 := ⟨n - 1, by omega⟩
  rw [List.range_succ_eq_map, List.countP_cons, List.countP_cons, List.countP_map,
    List.countP_map]
  have hcongr : (List.range m).countP (p ∘ Nat.succ) =
      (List.range m).countP ((fun i => decide (1 ≤ i) && p i) ∘ Nat.succ) := by
    apply List.countP_congr
    intro i _
    simp
  rw [hcongr]
  simp
  omega

/-- In the exact model, for every non-empty dataset and every subset of valid feature indices,
`evaluateSubset` returns an accuracy in `[0,1]`, and `N` times the result is an
integer between `0` and `N` (the number of correctly classified queries). -/
theorem evaluateSubset_mem_unit (instances : List (Instance K)) (subset : List Nat)
    (hN : 1 ≤ instances.length) (_hvalid : ValidSubset instances subset) :
    0 ≤ evaluateSubset instances subset ∧ evaluateSubset instances subset ≤ 1 ∧
    ∃ c : Nat, c ≤ instances.length ∧
      (instances.length : K) * evaluateSubset instances subset = (c : K) := by
  have hpos : (0 : K) < (instances.length : K) := by exact_mod_cast hN
  have hle : (countCorrect instances subset : K) ≤ (instances.length : K) := by
    exact_mod_cast countCorrect_le instances subset
  refine ⟨?_, ?_, countCorrect instances subset, countCorrect_le instances subset, ?_⟩
  · exact div_nonneg (Nat.cast_nonneg _) (le_of_lt hpos)
  · exact (div_le_one hpos).mpr hle
  · unfold evaluateSubset
    field_simp

theorem evaluateSubset_nonneg (instances : List (Instance K)) (subset : List Nat) :
    0 ≤ evaluateSubset instances subset :=
  div_nonneg (Nat.cast_nonneg _) (Nat.cast_nonneg _)

/-- C7: for every dataset with `N ≥ 2` instances, on the empty subset the nearest
neighbour of instance `0` is instance `1` and the nearest neighbour of every
instance `i ≥ 1` is instance `0` (the first other instance in enumeration
order), the neighbour loop returns their labels, and `evaluateSubset` returns
`([label_0 = label_1] + #{i ≥ 1 : label_i = label_0}) / N`. -/
theorem evaluateSubset_nil (instances : List (Instance K)) (hN : 2 ≤ instances.length) :
    IsNearest instances [] 0 1 ∧
    (∀ i, 1 ≤ i → i < instances.length → IsNearest instances [] i 0) ∧
    (nearestNeighbor instances [] 0).2 = (nth instances 1).label ∧
    (∀ i, 1 ≤ i → i < instances.length →
      (nearestNeighbor instances [] i).2 = (nth instances 0).label) ∧
    evaluateSubset instances [] =
      (((if (nth instances 0).label = (nth instances 1).label then 1 else 0) +
        (List.range instances.length).countP
          (fun i => decide (1 ≤ i ∧ (nth instances i).label = (nth instances 0).label)) :
            Nat) : K) / (instances.length : K) := by
  have hd : ∀ a b : Instance K, sqDist a b [] = 0 := fun _ _ => rfl
  have h01 : IsNearest instances [] 0 1 :=
    ⟨by omega, by omega, fun k _ _ => by rw [hd, hd], fun k hk hk0 => absurd (by omega) hk0⟩
  have hi0 : ∀ i, 1 ≤ i → i < instances.length → IsNearest instances [] i 0 :=
    fun i hi _ => ⟨by omega, by omega, fun k _ _ => by rw [hd, hd],
      fun k hk _ => absurd hk (by omega)⟩
  have hl0 : (nearestNeighbor instances [] 0).2 = (nth instances 1).label :=
    nearestNeighbor_label instances [] 0 1 h01 (by rw [hd]; exact DBL_MAX_pos)
  have hli : ∀ i, 1 ≤ i → i < instances.length →
      (nearestNeighbor instances [] i).2 = (nth instances 0).label :=
    fun i hi hiN => nearestNeighbor_label instances [] i 0 (hi0 i hi hiN)
      (by rw [hd]; exact DBL_MAX_pos)
  refine ⟨h01, hi0, hl0, hli, ?_⟩
  unfold evaluateSubset
  rw [countCorrect_eq_countP, countP_range_split _ _ (by omega : 1 ≤ instances.length)]
  congr 3
  · simp only [hl0, decide_eq_true_eq]
    by_cases h : (nth instances 0).label = (nth instances 1).label
    · rw [if_pos h, if_pos h.symm]
    · rw [if_neg h, if_neg (fun h' => h h'.symm)]
  · apply List.countP_congr
    intro i hi
    have hiN : i < instances.length := List.mem_range.mp hi
    by_cases h1 : 1 ≤ i
    · simp only [hli i h1 hiN, h1, decide_True, Bool.true_and, decide_eq_true_eq, true_and]
      exact eq_comm
    · simp [h1]

/-- Witness of C7 at the dataset `sample`. -/
theorem evaluateSubset_nil_witness :
    2 ≤ sample.length ∧
    (IsNearest sample [] 0 1 ∧
    (∀ i, 1 ≤ i → i < sample.length → IsNearest sample [] i 0) ∧
    (nearestNeighbor sample [] 0).2 = (nth sample 1).label ∧
    (∀ i, 1 ≤ i → i < sample.length →
      (nearestNeighbor sample [] i).2 = (nth sample 0).label) ∧
    evaluateSubset sample [] =
      (((if (nth sample 0).label = (nth sample 1).label then 1 else 0) +
        (List.range sample.length).countP
          (fun i => decide (1 ≤ i ∧ (nth sample i).label = (nth sample 0).label)) :
            Nat) : ℚ) / (sample.length : ℚ)) :=
  ⟨by decide, evaluateSubset_nil sample (by decide)⟩

theorem nearestNeighbor_congr (instances : List (Instance K)) (s t : List Nat) (i : Nat)
    (h : ∀ j, j < instances.length →
      sqDist (nth instances i) (nth instances j) s =
        sqDist (nth instances i) (nth instances j) t) :
    nearestNeighbor instances s i = nearestNeighbor instances t i := by
  unfold nearestNeighbor
  apply List.foldl_ext
  intro best j hj
  rw [h j (List.mem_range.mp hj)]

theorem countCorrect_congr (instances : List (Instance K)) (s t : List Nat)
    (h : ∀ i j, i < instances.length → j < instances.length →
      sqDist (nth instances i) (nth instances j) s =
        sqDist (nth instances i) (nth instances j) t) :
    countCorrect instances s = countCorrect instances t := by
  unfold countCorrect
  apply List.foldl_ext
  intro c i hi
  rw [nearestNeighbor_congr instances s t i (fun j hj => h i j (List.mem_range.mp hi) hj)]

/-- C10: for every dataset with `N ≥ 2` instances and every subset of valid
indices all of whose features are constant across the instances,
`evaluateSubset` returns what it returns on the empty subset, every restricted
squared distance being `0`. -/
theorem evaluateSubset_constant (instances : List (Instance K)) (subset : List Nat)
    (_hN : 2 ≤ instances.length) (_hvalid : ValidSubset instances subset)
    (hconst : ∀ f, f ∈ subset → ∀ a, a ∈ instances → ∀ b, b ∈ instances →
      feat a f = feat b f) :
    (∀ a, a ∈ instances → ∀ b, b ∈ instances → sqDist a b subset = 0) ∧
    evaluateSubset instances subset = evaluateSubset instances [] := by
  have hzero : ∀ a, a ∈ instances → ∀ b, b ∈ instances → sqDist a b subset = 0 :=
    fun a ha b hb => sqDist_eq_zero a b subset (fun f hf => hconst f hf a ha b hb)
  refine ⟨hzero, ?_⟩
  unfold evaluateSubset
  rw [countCorrect_congr instances subset [] (fun i j hi hj => by
    rw [hzero _ (nth_mem instances i hi) _ (nth_mem instances j hj)]; rfl)]

/-- Witness of C10 at the dataset `constantColumn` and its constant feature. -/
theorem evaluateSubset_constant_witness :
    2 ≤ constantColumn.length ∧
    ((∀ a, a ∈ constantColumn → ∀ b, b ∈ constantColumn → sqDist a b [0] = 0) ∧
      evaluateSubset constantColumn [0] = evaluateSubset constantColumn []) :=
  ⟨by decide,
    evaluateSubset_constant constantColumn [0] (by decide)
      (by simp [ValidSubset, constantColumn])
      (by simp [feat, constantColumn])⟩

/-! ## Forward selection -/

theorem acceptedAccs_append (a b : List (Event K)) :
    acceptedAccs (a ++ b) = acceptedAccs a ++ acceptedAccs b := by
  induction a with
  | nil => rfl
  | cons e rest ih =>
    cases e with
    | trial s acc => simpa [acceptedAccs] using ih
    | best s acc => simpa [acceptedAccs] using ih

theorem getD_set_bool (l : List Bool) (f g : Nat) (b : Bool) (hf : f < l.length) :
    (l.set f b).getD g false = if f = g then b else l.getD g false := by
  rw [List.getD_eq_getElem?_getD, List.getElem?_set, List.getD_eq_getElem?_getD]
  by_cases h : f = g
  · subst h
    simp [hf]
  · simp [h]

theorem mem_of_nodup_of_length (l : List Nat) (F : Nat) (hnd : l.Nodup)
    (hb : ∀ f, f ∈ l → f < F) (hlen : l.length = F) (f : Nat) (hf : f < F) : f ∈ l := by
  have hsub : l.toFinset ⊆ Finset.range F := by
    intro x hx
    exact Finset.mem_range.mpr (hb x (List.mem_toFinset.mp hx))
  have hcard : (Finset.range F).card ≤ l.toFinset.card := by
    rw [List.toFinset_card_of_nodup hnd, Finset.card_range, hlen]
  have heq := Finset.eq_of_subset_of_card_le hsub hcard
  exact List.mem_toFinset.mp (heq ▸ Finset.mem_range.mpr hf)

theorem forwardLevel_proj (instances : List (Instance K)) (F : Nat) (cur : List Nat)
    (used : List Bool) :
    ((forwardLevel instances F cur used).level_best_accuracy,
      (forwardLevel instances F cur used).level_best_feature) =
    scanMax (fun f => used.getD f false) (fun f => evaluateSubset instances (cur ++ [f]))
      (fun f => some f) (List.range F) ((0 : K), none) := by
  unfold forwardLevel scanMax
  refine (List.foldl_hom
    (fun lv : ForwardLevel K => (lv.level_best_accuracy, lv.level_best_feature)) _ _ _ _ ?_).symm
  intro lv f
  dsimp only
  split_ifs <;> rfl

theorem forwardLevel_out (instances : List (Instance K)) (F : Nat) (cur : List Nat)
    (used : List Bool) : acceptedAccs (forwardLevel instances F cur used).out = [] := by
  unfold forwardLevel
  have h := List.foldl_hom (fun lv : ForwardLevel K => acceptedAccs lv.out)
    (fun lv f =>
      if used.getD f false then lv
      else
        let trial_set := cur ++ [f]
        let acc := evaluateSubset instances trial_set
        if acc > lv.level_best_accuracy then
          { level_best_accuracy := acc, level_best_feature := some f,
            out := lv.out ++ [Event.trial trial_set acc] }
        else { lv with out := lv.out ++ [Event.trial trial_set acc] })
    (fun a _ => a) (List.range F)
    ({ level_best_accuracy := 0, level_best_feature := none, out := [] } : ForwardLevel K)
    (by
      intro lv f
      dsimp only
      split_ifs <;> simp [acceptedAccs_append, acceptedAccs])
  have hc : ∀ (l : List Nat) (a : List K), l.foldl (fun a _ => a) a = a := by
    intro l
    induction l with
    | nil => intro a; rfl
    | cons x xs ih => intro a; exact ih a
  exact h.symm.trans (hc _ _)

/-- What one level of `forwardSelection` leaves in `level_best_accuracy` and
`level_best_feature`. -/
theorem forwardLevel_spec (instances : List (Instance K)) (F : Nat) (cur : List Nat)
    (used : List Bool) :
    ((forwardLevel instances F cur used).level_best_feature = none ∧
      ∀ k, k < F → used.getD k false = false → evaluateSubset instances (cur ++ [k]) ≤ 0) ∨
    ∃ f, f < F ∧ used.getD f false = false ∧
      (forwardLevel instances F cur used).level_best_feature = some f ∧
      (forwardLevel instances F cur used).level_best_accuracy =
        evaluateSubset instances (cur ++ [f]) ∧
      (∀ k, k < F → used.getD k false = false →
        evaluateSubset instances (cur ++ [k]) ≤ evaluateSubset instances (cur ++ [f])) ∧
      ∀ k, k < f → used.getD k false = false →
        evaluateSubset instances (cur ++ [k]) < evaluateSubset instances (cur ++ [f]) := by
  have hp := forwardLevel_proj instances F cur used
  rcases scanMax_range (fun f => used.getD f false)
      (fun f => evaluateSubset instances (cur ++ [f])) (fun f => some f) (0 : K) none F with
    ⟨h1, h2⟩ | ⟨f, hf, hsf, h1, _, h3, h4⟩
  · left
    rw [h1] at hp
    exact ⟨(Prod.mk.inj hp).2, h2⟩
  · right
    rw [h1] at hp
    exact ⟨f, hf, hsf, (Prod.mk.inj hp).2, (Prod.mk.inj hp).1, h3, h4⟩

theorem forwardLoop_stop_none (instances : List (Instance K)) (F rem : Nat)
    (st : ForwardState K)
    (h : (forwardLevel instances F st.current_set st.feature_used).level_best_feature = none) :
    forwardLoop instances F (rem + 1) st =
      { st with out := st.out ++ (forwardLevel instances F st.current_set st.feature_used).out } := by
  simp only [forwardLoop, h]

theorem forwardLoop_stop_le (instances : List (Instance K)) (F rem : Nat)
    (st : ForwardState K) (f : Nat)
    (h : (forwardLevel instances F st.current_set st.feature_used).level_best_feature = some f)
    (hle : (forwardLevel instances F st.current_set st.feature_used).level_best_accuracy ≤
      st.best_accuracy) :
    forwardLoop instances F (rem + 1) st =
      { st with out := st.out ++ (forwardLevel instances F st.current_set st.feature_used).out } := by
  simp only [forwardLoop, h, if_pos hle]

theorem forwardLoop_accept (instances : List (Instance K)) (F rem : Nat)
    (st : ForwardState K) (f : Nat)
    (h : (forwardLevel instances F st.current_set st.feature_used).level_best_feature = some f)
    (hlt : ¬ (forwardLevel instances F st.current_set st.feature_used).level_best_accuracy ≤
      st.best_accuracy) :
    forwardLoop instances F (rem + 1) st =
      forwardLoop instances F rem
        { current_set := st.current_set ++ [f]
          best_accuracy :=
            (forwardLevel instances F st.current_set st.feature_used).level_best_accuracy
          feature_used := st.feature_used.set f true
          bestSubset := st.current_set ++ [f]
          out := st.out ++ (forwardLevel instances F st.current_set st.feature_used).out ++
            [Event.best (st.current_set ++ [f])
              (forwardLevel instances F st.current_set st.feature_used).level_best_accuracy] } := by
  simp only [forwardLoop, h, if_neg hlt]

theorem forwardInv_append_trials (instances : List (Instance K)) (F : Nat) (base : K)
    (st : ForwardState K) (h : ForwardInv instances F base st) (out : List (Event K))
    (hout : acceptedAccs out = []) :
    ForwardInv instances F base { st with out := st.out ++ out } := by
  have hacc : acceptedAccs (st.out ++ out) = acceptedAccs st.out := by
    rw [acceptedAccs_append, hout, List.append_nil]
  exact ⟨h.best_eq, h.acc_eq, h.used_len, h.used_iff, h.nodup, h.bound,
    by rw [hacc]; exact h.chain, by rw [hacc]; exact h.last, h.mono⟩

theorem chain_extend (base best a : K) (accs : List K)
    (hchain : List.Chain' (fun a b => a < b) (base :: accs))
    (hlast : (base :: accs).getLast? = some best) (hlt : best < a) :
    List.Chain' (fun a b => a < b) (base :: (accs ++ [a])) ∧
      (base :: (accs ++ [a])).getLast? = some a := by
  constructor
  · rw [← List.cons_append]
    refine List.Chain'.append hchain (List.chain'_singleton a) ?_
    intro x hx y hy
    rw [hlast] at hx
    simp only [List.head?_cons, Option.mem_def, Option.some.injEq] at hx hy
    subst hx; subst hy
    exact hlt
  · rw [← List.cons_append, List.getLast?_concat]

theorem forwardInit_inv (instances : List (Instance K)) (F : Nat) :
    ForwardInv instances F (evaluateSubset instances []) (forwardInit instances F) := by
  refine ⟨rfl, rfl, by simp [forwardInit], ?_, List.nodup_nil, ?_, ?_, rfl, le_refl _⟩
  · intro f hf
    simp [forwardInit, List.getD_eq_getElem?_getD, List.getElem?_replicate, hf]
  · intro f hf
    simp [forwardInit] at hf
  · simp [forwardInit, acceptedAccs]

theorem forwardInv_unused (instances : List (Instance K)) (F : Nat) (base : K)
    (st : ForwardState K) (h : ForwardInv instances F base st) (f : Nat) (hf : f < F) :
    st.feature_used.getD f false = false ↔ f ∉ st.current_set := by
  rw [← h.used_iff f hf]
  simp

/-- The level loop of `forwardSelection` keeps its invariant, and the state it
ends in has no unused feature whose trial beats the best accuracy. -/
theorem forwardLoop_spec (instances : List (Instance K)) (F : Nat) (base : K) :
    ∀ (rem : Nat) (st : ForwardState K), ForwardInv instances F base st →
      st.current_set.length + rem = F →
      ForwardInv instances F base (forwardLoop instances F rem st) ∧
      ∀ f, f < F → f ∉ (forwardLoop instances F rem st).current_set →
        evaluateSubset instances ((forwardLoop instances F rem st).current_set ++ [f]) ≤
          (forwardLoop instances F rem st).best_accuracy := by
  intro rem
  induction rem with
  | zero =>
    intro st h hlen
    refine ⟨h, fun f hf hnot => ?_⟩
    exact absurd (mem_of_nodup_of_length st.current_set F h.nodup h.bound (by simpa using hlen)
      f hf) hnot
  | succ rem ih =>
    intro st h hlen
    have hout := forwardLevel_out instances F st.current_set st.feature_used
    rcases forwardLevel_spec instances F st.current_set st.feature_used with
      ⟨hnone, hall⟩ | ⟨f, hf, hfu, hsome, hacc, hmax, _⟩
    · rw [forwardLoop_stop_none instances F rem st hnone]
      refine ⟨forwardInv_append_trials instances F base st h _ hout, fun g hg hnot => ?_⟩
      have h0 := hall g hg ((forwardInv_unused instances F base st h g hg).mpr hnot)
      have hb : 0 ≤ st.best_accuracy := by
        rw [h.acc_eq]; exact evaluateSubset_nonneg instances _
      exact le_trans h0 hb
    · by_cases hle : (forwardLevel instances F st.current_set st.feature_used).level_best_accuracy ≤
          st.best_accuracy
      · rw [forwardLoop_stop_le instances F rem st f hsome hle]
        refine ⟨forwardInv_append_trials instances F base st h _ hout, fun g hg hnot => ?_⟩
        have h0 := hmax g hg ((forwardInv_unused instances F base st h g hg).mpr hnot)
        rw [← hacc] at h0
        exact le_trans h0 hle
      · rw [forwardLoop_accept instances F rem st f hsome hle]
        have hfnot : f ∉ st.current_set := (forwardInv_unused instances F base st h f hf).mp hfu
        have hlt : st.best_accuracy <
            (forwardLevel instances F st.current_set st.feature_used).level_best_accuracy :=
          not_le.mp hle
        have hch := chain_extend base st.best_accuracy
          (forwardLevel instances F st.current_set st.feature_used).level_best_accuracy
          (acceptedAccs st.out) h.chain h.last hlt
        have haccs : acceptedAccs (st.out ++
            (forwardLevel instances F st.current_set st.feature_used).out ++
            [Event.best (st.current_set ++ [f])
              (forwardLevel instances F st.current_set st.feature_used).level_best_accuracy]) =
            acceptedAccs st.out ++
              [(forwardLevel instances F st.current_set st.feature_used).level_best_accuracy] := by
          rw [acceptedAccs_append, acceptedAccs_append, hout, List.append_nil]
          rfl
        apply ih
        · refine ⟨rfl, hacc, ?_, ?_, ?_, ?_, ?_, ?_, ?_⟩
          · simp [h.used_len]
          · intro g hg
            show (st.feature_used.set f true).getD g false = true ↔ g ∈ st.current_set ++ [f]
            rw [getD_set_bool _ _ _ _ (by rw [h.used_len]; exact hf), List.mem_append,
              List.mem_singleton]
            by_cases hfg : f = g
            · simp [hfg]
            · rw [if_neg hfg, h.used_iff g hg]
              constructor
              · exact fun hm => Or.inl hm
              · rintro (hm | hm)
                · exact hm
                · exact absurd hm.symm hfg
          · show (st.current_set ++ [f]).Nodup
            rw [List.nodup_append]
            refine ⟨h.nodup, List.nodup_singleton f, ?_⟩
            intro x hx hx'
            rw [List.mem_singleton] at hx'
            exact hfnot (hx' ▸ hx)
          · intro g hg
            rcases List.mem_append.mp hg with hm | hm
            · exact h.bound g hm
            · rw [List.mem_singleton] at hm
              exact hm ▸ hf
          · show List.Chain' _ (base :: acceptedAccs _)
            rw [haccs]; exact hch.1
          · show (base :: acceptedAccs _).getLast? = _
            rw [haccs]; exact hch.2
          · exact le_trans h.mono (le_of_lt hlt)
        · show (st.current_set ++ [f]).length + rem = F
          rw [List.length_append, List.length_singleton]
          omega

theorem forwardSearch_spec (instances : List (Instance K)) (F : Nat) :
    ForwardInv instances F (evaluateSubset instances []) (forwardSearch instances F) ∧
    ∀ f, f < F → f ∉ (forwardSearch instances F).current_set →
      evaluateSubset instances ((forwardSearch instances F).current_set ++ [f]) ≤
        (forwardSearch instances F).best_accuracy :=
  forwardLoop_spec instances F _ F (forwardInit instances F) (forwardInit_inv instances F)
    (by simp [forwardInit])

/-- C2: for every dataset with `N ≥ 2` instances of `F` features, the subset `S`
returned by `forwardSelection` is a terminal state of the search: either `S`
contains all `F` features, or no feature `f` in `[0,F)` outside `S` improves,
that is `evaluateSubset(dataset, S ++ [f]) ≤ evaluateSubset(dataset, S)`. -/
theorem forwardSelection_terminal (instances : List (Instance K)) (F : Nat)
    (_hN : 2 ≤ instances.length) (_hwf : WellFormed instances F) :
    (∀ f, f < F → f ∈ forwardSelection instances F) ∨
    (∀ f, f < F → f ∉ forwardSelection instances F →
      evaluateSubset instances (forwardSelection instances F ++ [f]) ≤
        evaluateSubset instances (forwardSelection instances F)) := by
  right
  obtain ⟨hinv, hterm⟩ := forwardSearch_spec instances F
  intro f hf hnot
  unfold forwardSelection at hnot ⊢
  rw [hinv.best_eq] at hnot ⊢
  have h := hterm f hf hnot
  rw [hinv.acc_eq] at h
  exact h

/-- Witness of C2 at the dataset `sample` with two features. -/
theorem forwardSelection_terminal_witness :
    2 ≤ sample.length ∧ WellFormed sample 2 ∧
    ((∀ f, f < 2 → f ∈ forwardSelection sample 2) ∨
    (∀ f, f < 2 → f ∉ forwardSelection sample 2 →
      evaluateSubset sample (forwardSelection sample 2 ++ [f]) ≤
        evaluateSubset sample (forwardSelection sample 2))) :=
  ⟨by decide, by simp [WellFormed, sample],
    forwardSelection_terminal sample 2 (by decide) (by simp [WellFormed, sample])⟩

/-! ## Backward elimination -/

theorem not_eq_false_iff (b : Bool) : (!b) = false ↔ b = true := by
  cases b <;> decide

theorem backwardLevel_proj (data : List (Instance K)) (F : Nat) (cur : List Nat)
    (used : List Bool) :
    ((backwardLevel data F cur used).levelBestAcc,
      ((backwardLevel data F cur used).levelRemoveFeature,
        (backwardLevel data F cur used).levelBestSet)) =
    scanMax (fun f => !(used.getD f false))
      (fun f => evaluateSubset data (cur.filter (fun x => x != f)))
      (fun f => (some f, cur.filter (fun x => x != f))) (List.range F)
      ((0 : K), ((none : Option Nat), ([] : List Nat))) := by
  unfold backwardLevel scanMax
  refine (List.foldl_hom
    (fun lv : BackwardLevel K => (lv.levelBestAcc, (lv.levelRemoveFeature, lv.levelBestSet)))
    _ _ _ _ ?_).symm
  intro lv f
  dsimp only
  split_ifs <;> rfl

theorem backwardLevel_out (data : List (Instance K)) (F : Nat) (cur : List Nat)
    (used : List Bool) : acceptedAccs (backwardLevel data F cur used).out = [] := by
  unfold backwardLevel
  have h := List.foldl_hom (fun lv : BackwardLevel K => acceptedAccs lv.out)
    (fun lv f =>
      if !(used.getD f false) then lv
      else
        let trialSet := cur.filter (fun x => x != f)
        let acc := evaluateSubset data trialSet
        if acc > lv.levelBestAcc then
          { levelBestAcc := acc, levelRemoveFeature := some f,
            levelBestSet := trialSet, out := lv.out ++ [Event.trial trialSet acc] }
        else { lv with out := lv.out ++ [Event.trial trialSet acc] })
    (fun a _ => a) (List.range F)
    ({ levelBestAcc := 0, levelRemoveFeature := none, levelBestSet := [], out := [] } :
      BackwardLevel K)
    (by
      intro lv f
      dsimp only
      split_ifs <;> simp [acceptedAccs_append, acceptedAccs])
  have hc : ∀ (l : List Nat) (a : List K), l.foldl (fun a _ => a) a = a := by
    intro l
    induction l with
    | nil => intro a; rfl
    | cons x xs ih => intro a; exact ih a
  exact h.symm.trans (hc _ _)

/-- What one level of `backwardElimination` leaves in `levelBestAcc`,
`levelRemoveFeature` and `levelBestSet`. -/
theorem backwardLevel_spec (data : List (Instance K)) (F : Nat) (cur : List Nat)
    (used : List Bool) :
    ((backwardLevel data F cur used).levelRemoveFeature = none ∧
      ∀ k, k < F → used.getD k false = true →
        evaluateSubset data (cur.filter (fun x => x != k)) ≤ 0) ∨
    ∃ f, f < F ∧ used.getD f false = true ∧
      (backwardLevel data F cur used).levelRemoveFeature = some f ∧
      (backwardLevel data F cur used).levelBestSet = cur.filter (fun x => x != f) ∧
      (backwardLevel data F cur used).levelBestAcc =
        evaluateSubset data (cur.filter (fun x => x != f)) ∧
      (∀ k, k < F → used.getD k false = true →
        evaluateSubset data (cur.filter (fun x => x != k)) ≤
          evaluateSubset data (cur.filter (fun x => x != f))) ∧
      ∀ k, k < f → used.getD k false = true →
        evaluateSubset data (cur.filter (fun x => x != k)) <
          evaluateSubset data (cur.filter (fun x => x != f)) := by
  have hp := backwardLevel_proj data F cur used
  rcases scanMax_range (fun f => !(used.getD f false))
      (fun f => evaluateSubset data (cur.filter (fun x => x != f)))
      (fun f => (some f, cur.filter (fun x => x != f))) (0 : K)
      ((none : Option Nat), ([] : List Nat)) F with
    ⟨h1, h2⟩ | ⟨f, hf, hsf, h1, _, h3, h4⟩
  · left
    rw [h1] at hp
    exact ⟨(Prod.mk.inj (Prod.mk.inj hp).2).1, fun k hk hu => h2 k hk ((not_eq_false_iff _).mpr hu)⟩
  · right
    rw [h1] at hp
    exact ⟨f, hf, (not_eq_false_iff _).mp hsf, (Prod.mk.inj (Prod.mk.inj hp).2).1,
      (Prod.mk.inj (Prod.mk.inj hp).2).2, (Prod.mk.inj hp).1,
      fun k hk hu => h3 k hk ((not_eq_false_iff _).mpr hu),
      fun k hk hu => h4 k hk ((not_eq_false_iff _).mpr hu)⟩

theorem backwardLoop_stop_none (data : List (Instance K)) (F rem : Nat)
    (st : BackwardState K)
    (h : (backwardLevel data F st.currentSet st.used).levelRemoveFeature = none) :
    backwardLoop data F (rem + 1) st =
      { st with out := st.out ++ (backwardLevel data F st.currentSet st.used).out } := by
  simp only [backwardLoop, h]

theorem backwardLoop_stop_le (data : List (Instance K)) (F rem : Nat)
    (st : BackwardState K) (f : Nat)
    (h : (backwardLevel data F st.currentSet st.used).levelRemoveFeature = some f)
    (hle : (backwardLevel data F st.currentSet st.used).levelBestAcc ≤ st.bestSoFar) :
    backwardLoop data F (rem + 1) st =
      { st with out := st.out ++ (backwardLevel data F st.currentSet st.used).out } := by
  simp only [backwardLoop, h, if_pos hle]

theorem backwardLoop_accept (data : List (Instance K)) (F rem : Nat)
    (st : BackwardState K) (f : Nat)
    (h : (backwardLevel data F st.currentSet st.used).levelRemoveFeature = some f)
    (hlt : ¬ (backwardLevel data F st.currentSet st.used).levelBestAcc ≤ st.bestSoFar) :
    backwardLoop data F (rem + 1) st =
      backwardLoop data F rem
        { currentSet := (backwardLevel data F st.currentSet st.used).levelBestSet
          bestSoFar := (backwardLevel data F st.currentSet st.used).levelBestAcc
          used := st.used.set f false
          bestSubset := (backwardLevel data F st.currentSet st.used).levelBestSet
          out := st.out ++ (backwardLevel data F st.currentSet st.used).out ++
            [Event.best (backwardLevel data F st.currentSet st.used).levelBestSet
              (backwardLevel data F st.currentSet st.used).levelBestAcc] } := by
  simp only [backwardLoop, h, if_neg hlt]

theorem backwardInv_append_trials (data : List (Instance K)) (F : Nat) (base : K)
    (st : BackwardState K) (h : BackwardInv data F base st) (out : List (Event K))
    (hout : acceptedAccs out = []) :
    BackwardInv data F base { st with out := st.out ++ out } := by
  have hacc : acceptedAccs (st.out ++ out) = acceptedAccs st.out := by
    rw [acceptedAccs_append, hout, List.append_nil]
  exact ⟨h.best_eq, h.acc_eq, h.used_len, h.used_iff, h.sublist,
    by rw [hacc]; exact h.removed, by rw [hacc]; exact h.chain, by rw [hacc]; exact h.last,
    h.mono⟩

theorem backwardInit_inv (data : List (Instance K)) (F : Nat) :
    BackwardInv data F (evaluateSubset data (List.range F)) (backwardInit data F) := by
  refine ⟨rfl, rfl, by simp [backwardInit], ?_, List.Sublist.refl _, ?_, ?_, rfl, le_refl _⟩
  · intro f hf
    simp [backwardInit, List.getD_eq_getElem?_getD, List.getElem?_replicate, hf]
  · simp [backwardInit, acceptedAccs]
  · simp [backwardInit, acceptedAccs]

theorem length_filter_ne (l : List Nat) (a : Nat) (h : l.Nodup) (ha : a ∈ l) :
    (l.filter (fun x => x != a)).length + 1 = l.length := by
  rw [← List.Nodup.erase_eq_filter h, List.length_erase_of_mem ha]
  have := List.length_pos_of_mem ha
  omega

/-- The level loop of `backwardElimination` keeps its invariant, and the state
it ends in has no feature whose removal beats the best accuracy. -/
theorem backwardLoop_spec (data : List (Instance K)) (F : Nat) (base : K) :
    ∀ (rem : Nat) (st : BackwardState K), BackwardInv data F base st →
      st.currentSet.length = rem →
      BackwardInv data F base (backwardLoop data F rem st) ∧
      ∀ f, f ∈ (backwardLoop data F rem st).currentSet →
        evaluateSubset data
            ((backwardLoop data F rem st).currentSet.filter (fun x => x != f)) ≤
          (backwardLoop data F rem st).bestSoFar := by
  intro rem
  induction rem with
  | zero =>
    intro st h hlen
    refine ⟨h, fun f hf => ?_⟩
    have hf' : f ∈ st.currentSet := hf
    rw [List.length_eq_zero.mp hlen] at hf'
    exact absurd hf' (List.not_mem_nil f)
  | succ rem ih =>
    intro st h hlen
    have hout := backwardLevel_out data F st.currentSet st.used
    have hbound : ∀ g, g ∈ st.currentSet → g < F :=
      fun g hg => List.mem_range.mp (h.sublist.subset hg)
    have hnodup : st.currentSet.Nodup := (List.nodup_range F).sublist h.sublist
    rcases backwardLevel_spec data F st.currentSet st.used with
      ⟨hnone, hall⟩ | ⟨f, hf, hfu, hsome, hset, hacc, hmax, _⟩
    · rw [backwardLoop_stop_none data F rem st hnone]
      refine ⟨backwardInv_append_trials data F base st h _ hout, fun g hg => ?_⟩
      have h0 := hall g (hbound g hg) ((h.used_iff g (hbound g hg)).mpr hg)
      have hb : 0 ≤ st.bestSoFar := by
        rw [h.acc_eq]; exact evaluateSubset_nonneg data _
      exact le_trans h0 hb
    · by_cases hle : (backwardLevel data F st.currentSet st.used).levelBestAcc ≤ st.bestSoFar
      · rw [backwardLoop_stop_le data F rem st f hsome hle]
        refine ⟨backwardInv_append_trials data F base st h _ hout, fun g hg => ?_⟩
        have h0 := hmax g (hbound g hg) ((h.used_iff g (hbound g hg)).mpr hg)
        rw [← hacc] at h0
        exact le_trans h0 hle
      · rw [backwardLoop_accept data F rem st f hsome hle]
        have hfmem : f ∈ st.currentSet := (h.used_iff f hf).mp hfu
        have hlt : st.bestSoFar < (backwardLevel data F st.currentSet st.used).levelBestAcc :=
          not_le.mp hle
        have hch := chain_extend base st.bestSoFar
          (backwardLevel data F st.currentSet st.used).levelBestAcc
          (acceptedAccs st.out) h.chain h.last hlt
        have haccs : acceptedAccs (st.out ++ (backwardLevel data F st.currentSet st.used).out ++
            [Event.best (backwardLevel data F st.currentSet st.used).levelBestSet
              (backwardLevel data F st.currentSet st.used).levelBestAcc]) =
            acceptedAccs st.out ++
              [(backwardLevel data F st.currentSet st.used).levelBestAcc] := by
          rw [acceptedAccs_append, acceptedAccs_append, hout, List.append_nil]
          rfl
        have hlenf := length_filter_ne st.currentSet f hnodup hfmem
        apply ih
        · refine ⟨rfl, ?_, ?_, ?_, ?_, ?_, ?_, ?_, ?_⟩
          · show (backwardLevel data F st.currentSet st.used).levelBestAcc =
              evaluateSubset data (backwardLevel data F st.currentSet st.used).levelBestSet
            rw [hacc, hset]
          · simp [h.used_len]
          · intro g hg
            show (st.used.set f false).getD g false = true ↔
              g ∈ (backwardLevel data F st.currentSet st.used).levelBestSet
            rw [getD_set_bool _ _ _ _ (by rw [h.used_len]; exact hf), hset, List.mem_filter]
            by_cases hfg : f = g
            · simp [hfg]
            · rw [if_neg hfg, h.used_iff g hg]
              constructor
              · exact fun hm => ⟨hm, by simpa using fun h' : g = f => hfg h'.symm⟩
              · exact fun hm => hm.1
          · show (backwardLevel data F st.currentSet st.used).levelBestSet.Sublist _
            rw [hset]
            exact (List.filter_sublist _).trans h.sublist
          · show (backwardLevel data F st.currentSet st.used).levelBestSet.length +
              (acceptedAccs _).length = F
            rw [haccs, hset, List.length_append, List.length_singleton]
            have := h.removed
            omega
          · show List.Chain' _ (base :: acceptedAccs _)
            rw [haccs]; exact hch.1
          · show (base :: acceptedAccs _).getLast? = _
            rw [haccs]; exact hch.2
          · exact le_trans h.mono (le_of_lt hlt)
        · show (backwardLevel data F st.currentSet st.used).levelBestSet.length = rem
          rw [hset]
          omega

theorem backwardSearch_spec (data : List (Instance K)) (F : Nat) :
    BackwardInv data F (evaluateSubset data (List.range F)) (backwardSearch data F) ∧
    ∀ f, f ∈ (backwardSearch data F).currentSet →
      evaluateSubset data ((backwardSearch data F).currentSet.filter (fun x => x != f)) ≤
        (backwardSearch data F).bestSoFar :=
  backwardLoop_spec data F _ F (backwardInit data F) (backwardInit_inv data F)
    (by simp [backwardInit])

/-- C3: for every dataset with `N ≥ 2` instances of `F` features,
`backwardElimination` stops only when no removal improves: for the returned
subset `S` and every `f` in `S`, the accuracy of `S` without `f` is at most the
accuracy of `S`; and every removal it accepted strictly increased the accuracy
over the previous best (the announced accuracies, after the baseline, form a
strictly increasing chain). -/
theorem backwardElimination_terminal (data : List (Instance K)) (F : Nat)
    (_hN : 2 ≤ data.length) (_hwf : WellFormed data F) :
    (∀ f, f ∈ backwardElimination data F →
      evaluateSubset data ((backwardElimination data F).filter (fun x => x != f)) ≤
        evaluateSubset data (backwardElimination data F)) ∧
    List.Chain' (fun a b => a < b)
      (evaluateSubset data (List.range F) :: acceptedAccs (backwardSearch data F).out) := by
  obtain ⟨hinv, hterm⟩ := backwardSearch_spec data F
  refine ⟨fun f hf => ?_, hinv.chain⟩
  unfold backwardElimination at hf ⊢
  rw [hinv.best_eq] at hf ⊢
  have h := hterm f hf
  rw [hinv.acc_eq] at h
  exact h

/-- Witness of C3 at the dataset `sample` with two features. -/
theorem backwardElimination_terminal_witness :
    2 ≤ sample.length ∧ WellFormed sample 2 ∧
    ((∀ f, f ∈ backwardElimination sample 2 →
      evaluateSubset sample ((backwardElimination sample 2).filter (fun x => x != f)) ≤
        evaluateSubset sample (backwardElimination sample 2)) ∧
    List.Chain' (fun a b => a < b)
      (evaluateSubset sample (List.range 2) :: acceptedAccs (backwardSearch sample 2).out)) :=
  ⟨by decide, by simp [WellFormed, sample],
    backwardElimination_terminal sample 2 (by decide) (by simp [WellFormed, sample])⟩

/-- C4 (amended): for every dataset with `N ≥ 2` instances of `F ≥ 1` features,
every accepted level of `backwardElimination` removes exactly one feature: the
returned subset is a sub-list of `[0, ..., F-1]` whose length is `F` minus the
number of accepted removals, so it contains at least one feature exactly when
fewer than `F` removals were accepted, and it is empty when the loop bound is
reached with all `F` levels accepted. -/
theorem backwardElimination_length (data : List (Instance K)) (F : Nat)
    (_hN : 2 ≤ data.length) (_hF : 1 ≤ F) (_hwf : WellFormed data F) :
    (backwardElimination data F).Sublist (List.range F) ∧
    (backwardElimination data F).length + (acceptedAccs (backwardSearch data F).out).length = F ∧
    (backwardElimination data F ≠ [] ↔ (acceptedAccs (backwardSearch data F).out).length < F) ∧
    ((acceptedAccs (backwardSearch data F).out).length = F → backwardElimination data F = []) := by
  obtain ⟨hinv, _⟩ := backwardSearch_spec data F
  have hsub := hinv.sublist
  have hrem := hinv.removed
  unfold backwardElimination
  rw [hinv.best_eq]
  refine ⟨hsub, hrem, ?_, ?_⟩
  · rw [← List.length_pos]
    omega
  · intro h
    apply List.length_eq_zero.mp
    omega

/-- Witness of C4 (amended) at the dataset `sample` with two features. -/
theorem backwardElimination_length_witness :
    2 ≤ sample.length ∧ 1 ≤ 2 ∧ WellFormed sample 2 ∧
    ((backwardElimination sample 2).Sublist (List.range 2) ∧
    (backwardElimination sample 2).length +
      (acceptedAccs (backwardSearch sample 2).out).length = 2 ∧
    (backwardElimination sample 2 ≠ [] ↔
      (acceptedAccs (backwardSearch sample 2).out).length < 2) ∧
    ((acceptedAccs (backwardSearch sample 2).out).length = 2 →
      backwardElimination sample 2 = [])) :=
  ⟨by decide, by decide, by simp [WellFormed, sample],
    backwardElimination_length sample 2 (by decide) (by decide)
      (by simp [WellFormed, sample])⟩

/-- C4 (counterexample): on the dataset `misleading` (`N = 4`, `F = 1`) the only
feature gives accuracy `0` and the empty subset gives `1/2`, so
`backwardElimination` removes the last feature and returns the empty subset. -/
theorem backwardElimination_misleading :
    2 ≤ misleading.length ∧ 1 ≤ 1 ∧ WellFormed misleading 1 ∧
    evaluateSubset misleading [0] = 0 ∧ evaluateSubset misleading [] = 1 / 2 ∧
    backwardElimination misleading 1 = [] := by
  refine ⟨by decide, by decide, by simp [WellFormed, misleading], ?_, ?_, ?_⟩
  · simp [evaluateSubset, countCorrect, nearestNeighbor, sqDist, nth, feat, List.range_succ,
      DBL_MAX, misleading]
    norm_num
  · simp [evaluateSubset, countCorrect, nearestNeighbor, sqDist, nth, feat, List.range_succ,
      DBL_MAX, misleading]
    norm_num
  · simp [backwardElimination, backwardSearch, backwardLoop, backwardInit, backwardLevel,
      evaluateSubset, countCorrect, nearestNeighbor, sqDist, nth, feat, List.range_succ,
      DBL_MAX, misleading]
    norm_num

/-- C9: in `forwardSelection` and in `backwardElimination` the best accuracy never
decreases: the accuracies announced at the accepted levels, after the baseline,
form a strictly increasing chain that ends in the final best accuracy, which is
therefore at least the baseline, `evaluateSubset(dataset, [])` for forward
selection and `evaluateSubset(dataset, [0..F-1])` for backward elimination. -/
theorem best_accuracy_monotone (instances : List (Instance K)) (F : Nat) :
    (List.Chain' (fun a b => a < b)
        (evaluateSubset instances [] :: acceptedAccs (forwardSearch instances F).out) ∧
      (evaluateSubset instances [] :: acceptedAccs (forwardSearch instances F).out).getLast? =
        some (forwardSelectionAccuracy instances F) ∧
      evaluateSubset instances [] ≤ forwardSelectionAccuracy instances F) ∧
    (List.Chain' (fun a b => a < b)
        (evaluateSubset instances (List.range F) ::
          acceptedAccs (backwardSearch instances F).out) ∧
      (evaluateSubset instances (List.range F) ::
          acceptedAccs (backwardSearch instances F).out).getLast? =
        some (backwardEliminationAccuracy instances F) ∧
      evaluateSubset instances (List.range F) ≤ backwardEliminationAccuracy instances F) :=
  ⟨⟨(forwardSearch_spec instances F).1.chain, (forwardSearch_spec instances F).1.last,
      (forwardSearch_spec instances F).1.mono⟩,
    ⟨(backwardSearch_spec instances F).1.chain, (backwardSearch_spec instances F).1.last,
      (backwardSearch_spec instances F).1.mono⟩⟩


/-! ## The end-to-end scenario -/

theorem normal_diff_sq (x y m s : K) :
    ((x - m) / s - (y - m) / s) * ((x - m) / s - (y - m) / s) =
      (x - y) * (x - y) / (s * s) := by
  ring

theorem scenario_mean0 : columnMean ((scenarioRows ℝ).map Prod.snd) 0 = 5 / 2 := by
  simp [columnMean, scenarioRows]
  norm_num

theorem scenario_mean1 : columnMean ((scenarioRows ℝ).map Prod.snd) 1 = 3 := by
  simp [columnMean, scenarioRows]
  norm_num

theorem scenario_std0 :
    columnStd Real.sqrt ((scenarioRows ℝ).map Prod.snd) 0 *
      columnStd Real.sqrt ((scenarioRows ℝ).map Prod.snd) 0 = 25 / 3 := by
  have hv : (((scenarioRows ℝ).map Prod.snd).foldl
      (fun s row =>
        let diff := row.getD 0 0 - columnMean ((scenarioRows ℝ).map Prod.snd) 0
        s + diff * diff) 0 /
      (((((scenarioRows ℝ).map Prod.snd).length - 1 : Nat)) : ℝ)) = 25 / 3 := by
    rw [scenario_mean0]
    simp [scenarioRows]
    norm_num
  unfold columnStd
  rw [hv]
  have hne : Real.sqrt (25 / 3) ≠ 0 := by
    rw [Ne, Real.sqrt_eq_zero']
    norm_num
  simp only [if_neg hne]
  exact Real.mul_self_sqrt (by norm_num)

theorem scenario_std1 :
    columnStd Real.sqrt ((scenarioRows ℝ).map Prod.snd) 1 *
      columnStd Real.sqrt ((scenarioRows ℝ).map Prod.snd) 1 = 26 / 3 := by
  have hv : (((scenarioRows ℝ).map Prod.snd).foldl
      (fun s row =>
        let diff := row.getD 1 0 - columnMean ((scenarioRows ℝ).map Prod.snd) 1
        s + diff * diff) 0 /
      (((((scenarioRows ℝ).map Prod.snd).length - 1 : Nat)) : ℝ)) = 26 / 3 := by
    rw [scenario_mean1]
    simp [scenarioRows]
    norm_num
  unfold columnStd
  rw [hv]
  have hne : Real.sqrt (26 / 3) ≠ 0 := by
    rw [Ne, Real.sqrt_eq_zero']
    norm_num
  simp only [if_neg hne]
  exact Real.mul_self_sqrt (by norm_num)

/-- The accuracies of the four feature subsets on a dataset of the shape of the
normalised scenario, from the squared differences of its feature values. -/
theorem scenarioShape_eval (a c b0 b1 b2 b3 : K)
    (hac : (a - c) * (a - c) = 3) (hca : (c - a) * (c - a) = 3)
    (h01 : (b0 - b1) * (b0 - b1) = 3 / 26) (h10 : (b1 - b0) * (b1 - b0) = 3 / 26)
    (h02 : (b0 - b2) * (b0 - b2) = 75 / 26) (h20 : (b2 - b0) * (b2 - b0) = 75 / 26)
    (h03 : (b0 - b3) * (b0 - b3) = 108 / 26) (h30 : (b3 - b0) * (b3 - b0) = 108 / 26)
    (h12 : (b1 - b2) * (b1 - b2) = 48 / 26) (h21 : (b2 - b1) * (b2 - b1) = 48 / 26)
    (h13 : (b1 - b3) * (b1 - b3) = 75 / 26) (h31 : (b3 - b1) * (b3 - b1) = 75 / 26)
    (h23 : (b2 - b3) * (b2 - b3) = 3 / 26) (h32 : (b3 - b2) * (b3 - b2) = 3 / 26) :
    evaluateSubset (scenarioShape a c b0 b1 b2 b3) [] = 1 / 2 ∧
    evaluateSubset (scenarioShape a c b0 b1 b2 b3) [0] = 1 ∧
    evaluateSubset (scenarioShape a c b0 b1 b2 b3) [1] = 1 ∧
    evaluateSubset (scenarioShape a c b0 b1 b2 b3) [0, 1] = 1 := by
  refine ⟨?_, ?_, ?_, ?_⟩
  · simp [evaluateSubset, countCorrect, nearestNeighbor, sqDist, nth, feat, List.range_succ,
      DBL_MAX, scenarioShape]
    norm_num
  · simp [evaluateSubset, countCorrect, nearestNeighbor, sqDist, nth, feat, List.range_succ,
      DBL_MAX, scenarioShape, hac, hca]
    norm_num
  · simp [evaluateSubset, countCorrect, nearestNeighbor, sqDist, nth, feat, List.range_succ,
      DBL_MAX, scenarioShape, h01, h10, h02, h20, h03, h30, h12, h21, h13, h31, h23, h32]
    norm_num
  · simp [evaluateSubset, countCorrect, nearestNeighbor, sqDist, nth, feat, List.range_succ,
      DBL_MAX, scenarioShape, hac, hca, h01, h10, h02, h20, h03, h30, h12, h21, h13, h31,
      h23, h32]
    norm_num

theorem forward_of_evals (D : List (Instance K))
    (hE : evaluateSubset D [] = 1 / 2) (h0 : evaluateSubset D [0] = 1)
    (h1 : evaluateSubset D [1] = 1) (h01 : evaluateSubset D [0, 1] = 1) :
    forwardSelection D 2 = [0] ∧ forwardSelectionAccuracy D 2 = 1 := by
  constructor
  · simp [forwardSelection, forwardSearch, forwardLoop, forwardInit, forwardLevel,
      List.range_succ, hE, h0, h1, h01]
    norm_num
  · simp [forwardSelectionAccuracy, forwardSearch, forwardLoop, forwardInit, forwardLevel,
      List.range_succ, hE, h0, h1, h01]
    norm_num

theorem backward_of_evals (D : List (Instance K))
    (h0 : evaluateSubset D [0] = 1) (h1 : evaluateSubset D [1] = 1)
    (h01 : evaluateSubset D [0, 1] = 1) :
    backwardElimination D 2 = [0, 1] ∧ backwardEliminationAccuracy D 2 = 1 ∧
      acceptedAccs (backwardSearch D 2).out = [] := by
  refine ⟨?_, ?_, ?_⟩
  · simp [backwardElimination, backwardSearch, backwardLoop, backwardInit, backwardLevel,
      List.range_succ, h0, h1, h01]
  · simp [backwardEliminationAccuracy, backwardSearch, backwardLoop, backwardInit,
      backwardLevel, List.range_succ, h0, h1, h01]
  · simp [backwardSearch, backwardLoop, backwardInit, backwardLevel, List.range_succ, h0, h1,
      h01, acceptedAccs]

/-- The normalised dataset of the scenario. -/
theorem scenario_normalized :
    loadAndNormalize Real.sqrt (scenarioRows ℝ) =
      some (2, scenarioShape
        ((0 - columnMean ((scenarioRows ℝ).map Prod.snd) 0) /
          columnStd Real.sqrt ((scenarioRows ℝ).map Prod.snd) 0)
        ((5 - columnMean ((scenarioRows ℝ).map Prod.snd) 0) /
          columnStd Real.sqrt ((scenarioRows ℝ).map Prod.snd) 0)
        ((0 - columnMean ((scenarioRows ℝ).map Prod.snd) 1) /
          columnStd Real.sqrt ((scenarioRows ℝ).map Prod.snd) 1)
        ((1 - columnMean ((scenarioRows ℝ).map Prod.snd) 1) /
          columnStd Real.sqrt ((scenarioRows ℝ).map Prod.snd) 1)
        ((5 - columnMean ((scenarioRows ℝ).map Prod.snd) 1) /
          columnStd Real.sqrt ((scenarioRows ℝ).map Prod.snd) 1)
        ((6 - columnMean ((scenarioRows ℝ).map Prod.snd) 1) /
          columnStd Real.sqrt ((scenarioRows ℝ).map Prod.snd) 1)) := by
  rfl

/-- The accuracies of the four feature subsets on the normalised scenario. -/
theorem scenario_evals :
    ∃ data, loadAndNormalize Real.sqrt (scenarioRows ℝ) = some (2, data) ∧
      evaluateSubset data [] = 1 / 2 ∧ evaluateSubset data [0] = 1 ∧
      evaluateSubset data [1] = 1 ∧ evaluateSubset data [0, 1] = 1 := by
  refine ⟨_, scenario_normalized, ?_⟩
  apply scenarioShape_eval <;> rw [normal_diff_sq] <;>
    first
      | rw [scenario_std0]; norm_num
      | rw [scenario_std1]; norm_num

/-- C5 (amended): on the normalised scenario dataset (`N = 4`, `F = 2`, labels
`[1,1,2,2]`, raw features `[[0,0],[0,1],[5,5],[5,6]]`) `forwardSelection` selects
feature 0 only, the returned subset being `[0]`, and its final best accuracy
is `1`: feature 0 alone already reaches accuracy `1`, and the trial `[0,1]` does
not strictly exceed it. -/
theorem forwardSelection_scenario :
    (loadAndNormalize Real.sqrt (scenarioRows ℝ)).map
        (fun r => (forwardSelection r.2 r.1, forwardSelectionAccuracy r.2 r.1)) =
      some ([0], 1) := by
  obtain ⟨data, hdata, hE, h0, h1, h01⟩ := scenario_evals
  rw [hdata]
  have h := forward_of_evals data hE h0 h1 h01
  simp [h.1, h.2]

/-- C5 (counterexample): on the normalised scenario dataset the subset returned by
`forwardSelection` does not contain feature 1. -/
theorem scenario_forward_omits_feature :
    ∃ F data, loadAndNormalize Real.sqrt (scenarioRows ℝ) = some (F, data) ∧
      1 ∉ forwardSelection data F := by
  obtain ⟨data, hdata, hE, h0, h1, h01⟩ := scenario_evals
  refine ⟨2, data, hdata, ?_⟩
  rw [(forward_of_evals data hE h0 h1 h01).1]
  decide

/-- C6: on the normalised scenario dataset (`N = 4`, `F = 2`, labels `[1,1,2,2]`,
raw features `[[0,0],[0,1],[5,5],[5,6]]`) `backwardElimination`, started from
both features, accepts no removal and returns the full set `[0,1]` with best
accuracy `1`. -/
theorem backwardElimination_scenario :
    (loadAndNormalize Real.sqrt (scenarioRows ℝ)).map
        (fun r => (backwardElimination r.2 r.1, backwardEliminationAccuracy r.2 r.1,
          acceptedAccs (backwardSearch r.2 r.1).out)) =
      some ([0, 1], 1, []) := by
  obtain ⟨data, hdata, _, h0, h1, h01⟩ := scenario_evals
  rw [hdata]
  have h := backward_of_evals data h0 h1 h01
  simp [h.1, h.2.1, h.2.2]


/-! ## Traces of the searches -/

theorem forwardLevel_out_mem (instances : List (Instance K)) (F : Nat) (cur : List Nat)
    (used : List Bool) (e : Event K) (he : e ∈ (forwardLevel instances F cur used).out) :
    ∃ f, f < F ∧ used.getD f false = false ∧
      e = Event.trial (cur ++ [f]) (evaluateSubset instances (cur ++ [f])) := by
  have hgen : ∀ (l : List Nat) (lv : ForwardLevel K),
      (∀ f, f ∈ l → f < F) →
      (∀ e, e ∈ lv.out → ∃ f, f < F ∧ used.getD f false = false ∧
        e = Event.trial (cur ++ [f]) (evaluateSubset instances (cur ++ [f]))) →
      ∀ e, e ∈ (l.foldl
        (fun lv f =>
          if used.getD f false then lv
          else
            let trial_set := cur ++ [f]
            let acc := evaluateSubset instances trial_set
            if acc > lv.level_best_accuracy then
              { level_best_accuracy := acc, level_best_feature := some f,
                out := lv.out ++ [Event.trial trial_set acc] }
            else { lv with out := lv.out ++ [Event.trial trial_set acc] }) lv).out →
        ∃ f, f < F ∧ used.getD f false = false ∧
          e = Event.trial (cur ++ [f]) (evaluateSubset instances (cur ++ [f])) := by
    intro l
    induction l with
    | nil => intro lv _ h e he; exact h e he
    | cons x xs ih =>
      intro lv hl h
      rw [List.foldl_cons]
      apply ih _ (fun f hf => hl f (List.mem_cons_of_mem x hf))
      have hx : x < F := hl x (List.mem_cons_self x xs)
      intro e he
      by_cases hu : used.getD x false = true
      · rw [if_pos hu] at he
        exact h e he
      · rw [if_neg hu] at he
        have hu' : used.getD x false = false := by simpa using hu
        have hmem : e ∈ lv.out ++
            [Event.trial (cur ++ [x]) (evaluateSubset instances (cur ++ [x]))] := by
          dsimp only at he
          split_ifs at he <;> exact he
        rcases List.mem_append.mp hmem with h1 | h1
        · exact h e h1
        · exact ⟨x, hx, hu', List.mem_singleton.mp h1⟩
  exact hgen (List.range F) _ (fun f hf => List.mem_range.mp hf)
    (fun e he => absurd he (List.not_mem_nil e)) e he

theorem backwardLevel_out_mem (data : List (Instance K)) (F : Nat) (cur : List Nat)
    (used : List Bool) (e : Event K) (he : e ∈ (backwardLevel data F cur used).out) :
    ∃ f, f < F ∧ used.getD f false = true ∧
      e = Event.trial (cur.filter (fun x => x != f))
        (evaluateSubset data (cur.filter (fun x => x != f))) := by
  have hgen : ∀ (l : List Nat) (lv : BackwardLevel K),
      (∀ f, f ∈ l → f < F) →
      (∀ e, e ∈ lv.out → ∃ f, f < F ∧ used.getD f false = true ∧
        e = Event.trial (cur.filter (fun x => x != f))
          (evaluateSubset data (cur.filter (fun x => x != f)))) →
      ∀ e, e ∈ (l.foldl
        (fun lv f =>
          if !(used.getD f false) then lv
          else
            let trialSet := cur.filter (fun x => x != f)
            let acc := evaluateSubset data trialSet
            if acc > lv.levelBestAcc then
              { levelBestAcc := acc, levelRemoveFeature := some f,
                levelBestSet := trialSet, out := lv.out ++ [Event.trial trialSet acc] }
            else { lv with out := lv.out ++ [Event.trial trialSet acc] }) lv).out →
        ∃ f, f < F ∧ used.getD f false = true ∧
          e = Event.trial (cur.filter (fun x => x != f))
            (evaluateSubset data (cur.filter (fun x => x != f))) := by
    intro l
    induction l with
    | nil => intro lv _ h e he; exact h e he
    | cons x xs ih =>
      intro lv hl h
      rw [List.foldl_cons]
      apply ih _ (fun f hf => hl f (List.mem_cons_of_mem x hf))
      have hx : x < F := hl x (List.mem_cons_self x xs)
      intro e he
      cases hu : used.getD x false with
      | false =>
        rw [hu] at he
        exact h e he
      | true =>
        rw [hu] at he
        have hmem : e ∈ lv.out ++
            [Event.trial (cur.filter (fun y => y != x))
              (evaluateSubset data (cur.filter (fun y => y != x)))] := by
          simp only [Bool.not_true, Bool.false_eq_true, if_false] at he
          split_ifs at he <;> exact he
        rcases List.mem_append.mp hmem with h1 | h1
        · exact h e h1
        · exact ⟨x, hx, hu, List.mem_singleton.mp h1⟩
  exact hgen (List.range F) _ (fun f hf => List.mem_range.mp hf)
    (fun e he => absurd he (List.not_mem_nil e)) e he

/-- An accepted level of `forwardSelection` keeps the loop invariant. -/
theorem forwardInv_accept (instances : List (Instance K)) (F : Nat) (base : K)
    (st : ForwardState K) (h : ForwardInv instances F base st) (f : Nat) (hf : f < F)
    (hfnot : f ∉ st.current_set) (lvout : List (Event K)) (hout : acceptedAccs lvout = [])
    (hlt : st.best_accuracy < evaluateSubset instances (st.current_set ++ [f])) :
    ForwardInv instances F base
      { current_set := st.current_set ++ [f]
        best_accuracy := evaluateSubset instances (st.current_set ++ [f])
        feature_used := st.feature_used.set f true
        bestSubset := st.current_set ++ [f]
        out := st.out ++ lvout ++
          [Event.best (st.current_set ++ [f])
            (evaluateSubset instances (st.current_set ++ [f]))] } := by
  have hch := chain_extend base st.best_accuracy
    (evaluateSubset instances (st.current_set ++ [f])) (acceptedAccs st.out) h.chain h.last hlt
  have haccs : acceptedAccs (st.out ++ lvout ++
      [Event.best (st.current_set ++ [f])
        (evaluateSubset instances (st.current_set ++ [f]))]) =
      acceptedAccs st.out ++ [evaluateSubset instances (st.current_set ++ [f])] := by
    rw [acceptedAccs_append, acceptedAccs_append, hout, List.append_nil]
    rfl
  refine ⟨rfl, rfl, ?_, ?_, ?_, ?_, ?_, ?_, ?_⟩
  · simp [h.used_len]
  · intro g hg
    show (st.feature_used.set f true).getD g false = true ↔ g ∈ st.current_set ++ [f]
    rw [getD_set_bool _ _ _ _ (by rw [h.used_len]; exact hf), List.mem_append,
      List.mem_singleton]
    by_cases hfg : f = g
    · simp [hfg]
    · rw [if_neg hfg, h.used_iff g hg]
      constructor
      · exact fun hm => Or.inl hm
      · rintro (hm | hm)
        · exact hm
        · exact absurd hm.symm hfg
  · show (st.current_set ++ [f]).Nodup
    rw [List.nodup_append]
    refine ⟨h.nodup, List.nodup_singleton f, ?_⟩
    intro x hx hx'
    rw [List.mem_singleton] at hx'
    exact hfnot (hx' ▸ hx)
  · intro g hg
    rcases List.mem_append.mp hg with hm | hm
    · exact h.bound g hm
    · rw [List.mem_singleton] at hm
      exact hm ▸ hf
  · show List.Chain' _ (base :: acceptedAccs _)
    rw [haccs]; exact hch.1
  · show (base :: acceptedAccs _).getLast? = _
    rw [haccs]; exact hch.2
  · exact le_trans h.mono (le_of_lt hlt)

/-- Induction over the levels of `forwardSelection`: a property of the search
state that survives the trial lines of a level and every accepted level holds
when the loop has ended. -/
theorem forwardLoop_induct (instances : List (Instance K)) (F : Nat) (base : K)
    (P : ForwardState K → Prop)
    (hstop : ∀ st, ForwardInv instances F base st → P st →
      P { st with out := st.out ++ (forwardLevel instances F st.current_set st.feature_used).out })
    (hacc : ∀ st f, ForwardInv instances F base st → P st → f < F → f ∉ st.current_set →
      st.best_accuracy < evaluateSubset instances (st.current_set ++ [f]) →
      (∀ g, g < F → g ∉ st.current_set →
        evaluateSubset instances (st.current_set ++ [g]) ≤
          evaluateSubset instances (st.current_set ++ [f])) →
      (∀ g, g < f → g ∉ st.current_set →
        evaluateSubset instances (st.current_set ++ [g]) <
          evaluateSubset instances (st.current_set ++ [f])) →
      P { current_set := st.current_set ++ [f]
          best_accuracy := evaluateSubset instances (st.current_set ++ [f])
          feature_used := st.feature_used.set f true
          bestSubset := st.current_set ++ [f]
          out := st.out ++ (forwardLevel instances F st.current_set st.feature_used).out ++
            [Event.best (st.current_set ++ [f])
              (evaluateSubset instances (st.current_set ++ [f]))] }) :
    ∀ (rem : Nat) (st : ForwardState K), ForwardInv instances F base st → P st →
      P (forwardLoop instances F rem st) := by
  intro rem
  induction rem with
  | zero => intro st _ hP; exact hP
  | succ rem ih =>
    intro st h hP
    have hout := forwardLevel_out instances F st.current_set st.feature_used
    rcases forwardLevel_spec instances F st.current_set st.feature_used with
      ⟨hnone, _⟩ | ⟨f, hf, hfu, hsome, haccEq, hmax, hfirst⟩
    · rw [forwardLoop_stop_none instances F rem st hnone]
      exact hstop st h hP
    · by_cases hle : (forwardLevel instances F st.current_set st.feature_used).level_best_accuracy ≤
          st.best_accuracy
      · rw [forwardLoop_stop_le instances F rem st f hsome hle]
        exact hstop st h hP
      · rw [forwardLoop_accept instances F rem st f hsome hle, haccEq]
        have hfnot : f ∉ st.current_set := (forwardInv_unused instances F base st h f hf).mp hfu
        have hlt : st.best_accuracy < evaluateSubset instances (st.current_set ++ [f]) := by
          rw [← haccEq]; exact not_le.mp hle
        have hunused : ∀ g, g < F → g ∉ st.current_set → st.feature_used.getD g false = false :=
          fun g hg hgn => (forwardInv_unused instances F base st h g hg).mpr hgn
        apply ih
        · exact forwardInv_accept instances F base st h f hf hfnot _ hout hlt
        · exact hacc st f h hP hf hfnot hlt
            (fun g hg hgn => hmax g hg (hunused g hg hgn))
            (fun g hg hgn => hfirst g hg (hunused g (lt_trans hg hf) hgn))

/-- An accepted level of `backwardElimination` keeps the loop invariant. -/
theorem backwardInv_accept (data : List (Instance K)) (F : Nat) (base : K)
    (st : BackwardState K) (h : BackwardInv data F base st) (f : Nat) (hf : f < F)
    (hfmem : f ∈ st.currentSet) (lvout : List (Event K)) (hout : acceptedAccs lvout = [])
    (hlt : st.bestSoFar < evaluateSubset data (st.currentSet.filter (fun x => x != f))) :
    BackwardInv data F base
      { currentSet := st.currentSet.filter (fun x => x != f)
        bestSoFar := evaluateSubset data (st.currentSet.filter (fun x => x != f))
        used := st.used.set f false
        bestSubset := st.currentSet.filter (fun x => x != f)
        out := st.out ++ lvout ++
          [Event.best (st.currentSet.filter (fun x => x != f))
            (evaluateSubset data (st.currentSet.filter (fun x => x != f)))] } := by
  have hnodup : st.currentSet.Nodup := (List.nodup_range F).sublist h.sublist
  have hch := chain_extend base st.bestSoFar
    (evaluateSubset data (st.currentSet.filter (fun x => x != f))) (acceptedAccs st.out)
    h.chain h.last hlt
  have haccs : acceptedAccs (st.out ++ lvout ++
      [Event.best (st.currentSet.filter (fun x => x != f))
        (evaluateSubset data (st.currentSet.filter (fun x => x != f)))]) =
      acceptedAccs st.out ++ [evaluateSubset data (st.currentSet.filter (fun x => x != f))] := by
    rw [acceptedAccs_append, acceptedAccs_append, hout, List.append_nil]
    rfl
  have hlenf := length_filter_ne st.currentSet f hnodup hfmem
  refine ⟨rfl, rfl, ?_, ?_, ?_, ?_, ?_, ?_, ?_⟩
  · simp [h.used_len]
  · intro g hg
    show (st.used.set f false).getD g false = true ↔
      g ∈ st.currentSet.filter (fun x => x != f)
    rw [getD_set_bool _ _ _ _ (by rw [h.used_len]; exact hf), List.mem_filter]
    by_cases hfg : f = g
    · simp [hfg]
    · rw [if_neg hfg, h.used_iff g hg]
      constructor
      · exact fun hm => ⟨hm, by simpa using fun h' : g = f => hfg h'.symm⟩
      · exact fun hm => hm.1
  · exact (List.filter_sublist _).trans h.sublist
  · show (st.currentSet.filter (fun x => x != f)).length + (acceptedAccs _).length = F
    rw [haccs, List.length_append, List.length_singleton]
    have := h.removed
    omega
  · show List.Chain' _ (base :: acceptedAccs _)
    rw [haccs]; exact hch.1
  · show (base :: acceptedAccs _).getLast? = _
    rw [haccs]; exact hch.2
  · exact le_trans h.mono (le_of_lt hlt)

/-- Induction over the levels of `backwardElimination`. -/
theorem backwardLoop_induct (data : List (Instance K)) (F : Nat) (base : K)
    (P : BackwardState K → Prop)
    (hstop : ∀ st, BackwardInv data F base st → P st →
      P { st with out := st.out ++ (backwardLevel data F st.currentSet st.used).out })
    (hacc : ∀ st f, BackwardInv data F base st → P st → f < F → f ∈ st.currentSet →
      st.bestSoFar < evaluateSubset data (st.currentSet.filter (fun x => x != f)) →
      P { currentSet := st.currentSet.filter (fun x => x != f)
          bestSoFar := evaluateSubset data (st.currentSet.filter (fun x => x != f))
          used := st.used.set f false
          bestSubset := st.currentSet.filter (fun x => x != f)
          out := st.out ++ (backwardLevel data F st.currentSet st.used).out ++
            [Event.best (st.currentSet.filter (fun x => x != f))
              (evaluateSubset data (st.currentSet.filter (fun x => x != f)))] }) :
    ∀ (rem : Nat) (st : BackwardState K), BackwardInv data F base st → P st →
      P (backwardLoop data F rem st) := by
  intro rem
  induction rem with
  | zero => intro st _ hP; exact hP
  | succ rem ih =>
    intro st h hP
    have hout := backwardLevel_out data F st.currentSet st.used
    rcases backwardLevel_spec data F st.currentSet st.used with
      ⟨hnone, _⟩ | ⟨f, hf, hfu, hsome, hset, haccEq, _, _⟩
    · rw [backwardLoop_stop_none data F rem st hnone]
      exact hstop st h hP
    · by_cases hle : (backwardLevel data F st.currentSet st.used).levelBestAcc ≤ st.bestSoFar
      · rw [backwardLoop_stop_le data F rem st f hsome hle]
        exact hstop st h hP
      · rw [backwardLoop_accept data F rem st f hsome hle, haccEq, hset]
        have hfmem : f ∈ st.currentSet := (h.used_iff f hf).mp hfu
        have hlt : st.bestSoFar <
            evaluateSubset data (st.currentSet.filter (fun x => x != f)) := by
          rw [← haccEq]; exact not_le.mp hle
        apply ih
        · exact backwardInv_accept data F base st h f hf hfmem _ hout hlt
        · exact hacc st f h hP hf hfmem hlt

theorem best_mem_acceptedAccs (out : List (Event K)) (s : List Nat) (acc : K)
    (h : Event.best s acc ∈ out) : acc ∈ acceptedAccs out := by
  induction out with
  | nil => exact absurd h (List.not_mem_nil _)
  | cons e rest ih =>
    rcases List.mem_cons.mp h with h1 | h1
    · subst h1
      simp [acceptedAccs]
    · cases e with
      | trial s' a' => simpa [acceptedAccs] using ih h1
      | best s' a' => simpa [acceptedAccs] using Or.inr (ih h1)

theorem mem_trialSubsets (out : List (Event K)) (s : List Nat) :
    s ∈ trialSubsets out ↔ ∃ acc, Event.trial s acc ∈ out := by
  induction out with
  | nil => simp [trialSubsets]
  | cons e rest ih =>
    cases e with
    | trial s' a' =>
      simp only [trialSubsets, List.mem_cons, ih, Event.trial.injEq]
      constructor
      · rintro (h | ⟨acc, h⟩)
        · exact ⟨a', Or.inl ⟨h, rfl⟩⟩
        · exact ⟨acc, Or.inr h⟩
      · rintro ⟨acc, h | h⟩
        · exact Or.inl h.1
        · exact Or.inr ⟨acc, h⟩
    | best s' a' =>
      simp only [trialSubsets, List.mem_cons, ih]
      constructor
      · rintro ⟨acc, h⟩
        exact ⟨acc, Or.inr h⟩
      · rintro ⟨acc, h | h⟩
        · cases h
        · exact ⟨acc, h⟩

/-- Every line of the trace of `forwardSelection` is as `ForwardEventOk` says. -/
theorem forwardSearch_trace (instances : List (Instance K)) (F : Nat) (e : Event K)
    (he : e ∈ (forwardSearch instances F).out) : ForwardEventOk instances F e := by
  have hlevel : ∀ st : ForwardState K, ForwardInv instances F (evaluateSubset instances []) st →
      ∀ e, e ∈ (forwardLevel instances F st.current_set st.feature_used).out →
        ForwardEventOk instances F e := by
    intro st h e he
    obtain ⟨f, hf, hfu, rfl⟩ := forwardLevel_out_mem instances F _ _ e he
    have hfnot : f ∉ st.current_set := (forwardInv_unused instances F _ st h f hf).mp hfu
    refine ⟨?_, ?_, rfl⟩
    · rw [List.nodup_append]
      refine ⟨h.nodup, List.nodup_singleton f, ?_⟩
      intro x hx hx'
      rw [List.mem_singleton] at hx'
      exact hfnot (hx' ▸ hx)
    · intro g hg
      rcases List.mem_append.mp hg with hm | hm
      · exact h.bound g hm
      · rw [List.mem_singleton] at hm
        exact hm ▸ hf
  have hall := forwardLoop_induct instances F (evaluateSubset instances [])
    (fun st => ∀ e, e ∈ st.out → ForwardEventOk instances F e)
    (by
      intro st h hP e he
      rcases List.mem_append.mp he with h1 | h1
      · exact hP e h1
      · exact hlevel st h e h1)
    (by
      intro st f h hP hf hfnot hlt hmax hfirst e he
      rcases List.mem_append.mp he with h1 | h1
      · rcases List.mem_append.mp h1 with h2 | h2
        · exact hP e h2
        · exact hlevel st h e h2
      · rw [List.mem_singleton.mp h1]
        exact ⟨st.current_set, f, rfl, h.nodup, h.bound, hf, hfnot, rfl,
          by rw [← h.acc_eq]; exact hlt, hmax, hfirst⟩)
    F (forwardInit instances F) (forwardInit_inv instances F)
    (by intro e he; exact absurd he (List.not_mem_nil e))
  exact hall e he

/-- Every line of the trace of `backwardElimination` is as `BackwardEventOk` says. -/
theorem backwardSearch_trace (data : List (Instance K)) (F : Nat) (e : Event K)
    (he : e ∈ (backwardSearch data F).out) : BackwardEventOk data F e := by
  have hlevel : ∀ st : BackwardState K,
      BackwardInv data F (evaluateSubset data (List.range F)) st →
      ∀ e, e ∈ (backwardLevel data F st.currentSet st.used).out →
        BackwardEventOk data F e := by
    intro st h e he
    obtain ⟨f, _, _, rfl⟩ := backwardLevel_out_mem data F _ _ e he
    exact ⟨(List.filter_sublist _).trans h.sublist, rfl⟩
  have hall := backwardLoop_induct data F (evaluateSubset data (List.range F))
    (fun st => ∀ e, e ∈ st.out → BackwardEventOk data F e)
    (by
      intro st h hP e he
      rcases List.mem_append.mp he with h1 | h1
      · exact hP e h1
      · exact hlevel st h e h1)
    (by
      intro st f h hP _ _ _ e he
      rcases List.mem_append.mp he with h1 | h1
      · rcases List.mem_append.mp h1 with h2 | h2
        · exact hP e h2
        · exact hlevel st h e h2
      · rw [List.mem_singleton.mp h1]
        exact ⟨(List.filter_sublist _).trans h.sublist, rfl⟩)
    F (backwardInit data F) (backwardInit_inv data F)
    (by intro e he; exact absurd he (List.not_mem_nil e))
  exact hall e he

/-- The first feature of the subset of `forwardSelection` alone beats the empty
subset. -/
theorem forwardSearch_head (instances : List (Instance K)) (F : Nat) (f : Nat)
    (rest : List Nat) (h : (forwardSearch instances F).current_set = f :: rest) :
    evaluateSubset instances [] < evaluateSubset instances [f] := by
  have hall := forwardLoop_induct instances F (evaluateSubset instances [])
    (fun st => ∀ f rest, st.current_set = f :: rest →
      evaluateSubset instances [] < evaluateSubset instances [f])
    (by intro st _ hP; exact hP)
    (by
      intro st g h hP _ _ hlt _ _ f rest heq
      cases hcur : st.current_set with
      | nil =>
        have heq' : st.current_set ++ [g] = f :: rest := heq
        rw [hcur] at heq'
        have hfg : g = f := by
          simp only [List.nil_append, List.cons.injEq] at heq'
          exact heq'.1
        have hb : st.best_accuracy = evaluateSubset instances [] := by
          rw [h.acc_eq, hcur]
        rw [hcur, hb] at hlt
        rw [← hfg]
        exact hlt
      | cons x xs =>
        have heq' : st.current_set ++ [g] = f :: rest := heq
        rw [hcur] at heq'
        have hxf : x = f := by
          simp only [List.cons_append, List.cons.injEq] at heq'
          exact heq'.1
        exact hxf ▸ hP x xs hcur)
    F (forwardInit instances F) (forwardInit_inv instances F)
    (by intro f rest heq; cases heq)
  exact hall f rest h

theorem evaluateSubset_of_constant (instances : List (Instance K)) (subset : List Nat)
    (hconst : ∀ f, f ∈ subset → ∀ a, a ∈ instances → ∀ b, b ∈ instances →
      feat a f = feat b f) :
    evaluateSubset instances subset = evaluateSubset instances [] := by
  unfold evaluateSubset
  rw [countCorrect_congr instances subset [] (fun i j hi hj => by
    rw [sqDist_eq_zero _ _ subset (fun f hf =>
      hconst f hf _ (nth_mem instances i hi) _ (nth_mem instances j hj))]
    rfl)]

/-! ## Properties of the searches read from the trace -/

/-- C11: for every dataset with `N ≥ 2` instances of `F` features in which feature
`c` is constant across all instances, `forwardSelection` never selects `c` alone
as an improvement: no "was best" line announces `[c]`, the returned subset is
neither `[c]` nor a list starting with `c`, and with `F = 1` the returned subset
is empty. -/
theorem forwardSelection_constant (instances : List (Instance K)) (F c : Nat)
    (_hN : 2 ≤ instances.length) (_hwf : WellFormed instances F) (hc : c < F)
    (hconst : ∀ a, a ∈ instances → ∀ b, b ∈ instances → feat a c = feat b c) :
    (∀ acc, Event.best [c] acc ∉ (forwardSearch instances F).out) ∧
    forwardSelection instances F ≠ [c] ∧
    (forwardSelection instances F).head? ≠ some c ∧
    (F = 1 → forwardSelection instances F = []) := by
  have hev : evaluateSubset instances [c] = evaluateSubset instances [] :=
    evaluateSubset_of_constant instances [c] (fun f hf a ha b hb => by
      rw [List.mem_singleton.mp hf]; exact hconst a ha b hb)
  have hinv := (forwardSearch_spec instances F).1
  have hhead : (forwardSelection instances F).head? ≠ some c := by
    intro h
    unfold forwardSelection at h
    rw [hinv.best_eq] at h
    cases hcur : (forwardSearch instances F).current_set with
    | nil => rw [hcur] at h; cases h
    | cons x xs =>
      rw [hcur] at h
      simp only [List.head?_cons, Option.some.injEq] at h
      have hlt := forwardSearch_head instances F x xs hcur
      rw [h, hev] at hlt
      exact lt_irrefl _ hlt
  refine ⟨?_, ?_, hhead, ?_⟩
  · intro acc hmem
    obtain ⟨cur, f, hs, _, _, _, _, hacc, hlt, _, _⟩ := forwardSearch_trace instances F _ hmem
    have hcur : cur = [] ∧ f = c := by
      cases cur with
      | nil =>
        simp only [List.nil_append, List.cons.injEq, and_true] at hs
        exact ⟨rfl, hs.symm⟩
      | cons x xs =>
        have hlen := congrArg List.length hs
        simp at hlen
    rw [hacc, hev, hcur.1] at hlt
    exact lt_irrefl _ hlt
  · intro h
    rw [h] at hhead
    exact hhead rfl
  · intro hF
    cases hS : forwardSelection instances F with
    | nil => rfl
    | cons x xs =>
      exfalso
      have hx : x < F := by
        apply hinv.bound
        rw [← hinv.best_eq]
        show x ∈ forwardSelection instances F
        rw [hS]
        exact List.mem_cons_self x xs
      rw [hS] at hhead
      apply hhead
      have : x = c := by omega
      rw [this]
      rfl

/-- Witness of C11 at the dataset `constantColumn` and its constant feature `0`. -/
theorem forwardSelection_constant_witness :
    2 ≤ constantColumn.length ∧ WellFormed constantColumn 2 ∧
    ((∀ acc, Event.best [0] acc ∉ (forwardSearch constantColumn 2).out) ∧
    forwardSelection constantColumn 2 ≠ [0] ∧
    (forwardSelection constantColumn 2).head? ≠ some 0 ∧
    (2 = 1 → forwardSelection constantColumn 2 = [])) :=
  ⟨by decide, by simp [WellFormed, constantColumn],
    forwardSelection_constant constantColumn 2 0 (by decide)
      (by simp [WellFormed, constantColumn]) (by decide)
      (by simp [feat, constantColumn])⟩

/-- C16: for every non-empty dataset, `forwardSelection` called with `F = 0`
performs no trial (its trace is empty), returns the empty subset, and its final
best accuracy equals `evaluateSubset(dataset, [])`. -/
theorem forwardSelection_no_features (instances : List (Instance K))
    (_hN : 1 ≤ instances.length) :
    trialSubsets (forwardSearch instances 0).out = [] ∧
    (forwardSearch instances 0).out = [] ∧
    forwardSelection instances 0 = [] ∧
    forwardSelectionAccuracy instances 0 = evaluateSubset instances [] :=
  ⟨rfl, rfl, rfl, rfl⟩

/-- Witness of C16 at the dataset `sample`. -/
theorem forwardSelection_no_features_witness :
    1 ≤ sample.length ∧
    (trialSubsets (forwardSearch sample 0).out = [] ∧
    (forwardSearch sample 0).out = [] ∧
    forwardSelection sample 0 = [] ∧
    forwardSelectionAccuracy sample 0 = evaluateSubset sample []) :=
  ⟨by decide, forwardSelection_no_features sample (by decide)⟩

/-- C17: at every level of `forwardSelection` that accepts a feature (every
"was best" line `s`, `acc` of its trace), `s = cur ++ [f]` where `cur` is the
subset before the level and `f` is an unused feature of `[0,F)`; `acc` is the
trial accuracy of `f`, it is maximal over the unused features, strictly above
the trial accuracy of every unused feature of lower index, and strictly above
`evaluateSubset(dataset, cur)`, the value `best_accuracy` holds at that level. -/
theorem forwardSelection_accepts_best (instances : List (Instance K)) (F : Nat)
    (s : List Nat) (acc : K) (h : Event.best s acc ∈ (forwardSearch instances F).out) :
    ∃ cur f, s = cur ++ [f] ∧ f < F ∧ f ∉ cur ∧
      acc = evaluateSubset instances (cur ++ [f]) ∧
      (∀ g, g < F → g ∉ cur →
        evaluateSubset instances (cur ++ [g]) ≤ evaluateSubset instances (cur ++ [f])) ∧
      (∀ g, g < f → g ∉ cur →
        evaluateSubset instances (cur ++ [g]) < evaluateSubset instances (cur ++ [f])) ∧
      evaluateSubset instances cur < evaluateSubset instances (cur ++ [f]) := by
  obtain ⟨cur, f, hs, _, _, hf, hfnot, hacc, hlt, hmax, hfirst⟩ :=
    forwardSearch_trace instances F _ h
  subst hs
  subst hacc
  exact ⟨cur, f, rfl, hf, hfnot, rfl, hmax, hfirst, hlt⟩

theorem sample_forward_out :
    (forwardSearch sample 2).out =
      [Event.trial [0] 1, Event.trial [1] 1, Event.best [0] 1, Event.trial [0, 1] 1] := by
  have hE : evaluateSubset sample [] = 1 / 2 := by
    simp [evaluateSubset, countCorrect, nearestNeighbor, sqDist, nth, feat, List.range_succ,
      DBL_MAX, sample]
    norm_num
  have h0 : evaluateSubset sample [0] = 1 := by
    simp [evaluateSubset, countCorrect, nearestNeighbor, sqDist, nth, feat, List.range_succ,
      DBL_MAX, sample]
    norm_num
  have h1 : evaluateSubset sample [1] = 1 := by
    simp [evaluateSubset, countCorrect, nearestNeighbor, sqDist, nth, feat, List.range_succ,
      DBL_MAX, sample]
    norm_num
  have h01 : evaluateSubset sample [0, 1] = 1 := by
    simp [evaluateSubset, countCorrect, nearestNeighbor, sqDist, nth, feat, List.range_succ,
      DBL_MAX, sample]
    norm_num
  simp [forwardSearch, forwardLoop, forwardInit, forwardLevel, List.range_succ, hE, h0, h1, h01]
  norm_num

/-- Witness of C17 at the dataset `sample`, whose first level accepts feature 0. -/
theorem forwardSelection_accepts_best_witness :
    Event.best [0] 1 ∈ (forwardSearch sample 2).out ∧
    ∃ cur f, [0] = cur ++ [f] ∧ f < 2 ∧ f ∉ cur ∧
      (1 : ℚ) = evaluateSubset sample (cur ++ [f]) ∧
      (∀ g, g < 2 → g ∉ cur →
        evaluateSubset sample (cur ++ [g]) ≤ evaluateSubset sample (cur ++ [f])) ∧
      (∀ g, g < f → g ∉ cur →
        evaluateSubset sample (cur ++ [g]) < evaluateSubset sample (cur ++ [f])) ∧
      evaluateSubset sample cur < evaluateSubset sample (cur ++ [f]) :=
  ⟨by rw [sample_forward_out]; simp,
    forwardSelection_accepts_best sample 2 [0] 1 (by rw [sample_forward_out]; simp)⟩

theorem validSubset_of_bound (instances : List (Instance K)) (F : Nat) (s : List Nat)
    (hwf : WellFormed instances F) (hs : ∀ f, f ∈ s → f < F) : ValidSubset instances s := by
  intro f hf inst hinst
  rw [hwf inst hinst]
  exact hs f hf

/-- C19: for every dataset and every `F`, every trial subset evaluated by
`forwardSelection` and the subset it returns contain only indices of `[0,F)`
without duplicates, and the subset returned by `backwardElimination` is a
strictly increasing sub-list of `[0, ..., F-1]`; hence, when every instance has
`F` features, every subset the oracle is called with (the baseline and every
trial, in both searches) has only valid feature indices. -/
theorem feature_subset_invariant (instances : List (Instance K)) (F : Nat) :
    (∀ s, s ∈ trialSubsets (forwardSearch instances F).out →
      s.Nodup ∧ ∀ f, f ∈ s → f < F) ∧
    ((forwardSelection instances F).Nodup ∧ ∀ f, f ∈ forwardSelection instances F → f < F) ∧
    ((backwardElimination instances F).Sublist (List.range F) ∧
      (backwardElimination instances F).Sorted (fun a b => a < b)) ∧
    (WellFormed instances F →
      (∀ s, s ∈ [] :: trialSubsets (forwardSearch instances F).out →
        ValidSubset instances s) ∧
      (∀ s, s ∈ List.range F :: trialSubsets (backwardSearch instances F).out →
        ValidSubset instances s)) := by
  have hf := (forwardSearch_spec instances F).1
  have hb := (backwardSearch_spec instances F).1
  have htrialF : ∀ s, s ∈ trialSubsets (forwardSearch instances F).out →
      s.Nodup ∧ ∀ f, f ∈ s → f < F := by
    intro s hs
    obtain ⟨acc, hmem⟩ := (mem_trialSubsets _ s).mp hs
    have h := forwardSearch_trace instances F _ hmem
    exact ⟨h.1, h.2.1⟩
  have htrialB : ∀ s, s ∈ trialSubsets (backwardSearch instances F).out →
      s.Sublist (List.range F) := by
    intro s hs
    obtain ⟨acc, hmem⟩ := (mem_trialSubsets _ s).mp hs
    exact (backwardSearch_trace instances F _ hmem).1
  refine ⟨htrialF, ?_, ?_, ?_⟩
  · unfold forwardSelection
    rw [hf.best_eq]
    exact ⟨hf.nodup, hf.bound⟩
  · unfold backwardElimination
    rw [hb.best_eq]
    exact ⟨hb.sublist, (List.sorted_lt_range F).sublist hb.sublist⟩
  · intro hwf
    constructor
    · intro s hs
      rcases List.mem_cons.mp hs with h | h
      · rw [h]
        intro f hf'
        exact absurd hf' (List.not_mem_nil f)
      · exact validSubset_of_bound instances F s hwf (htrialF s h).2
    · intro s hs
      have hsub : s.Sublist (List.range F) := by
        rcases List.mem_cons.mp hs with h | h
        · rw [h]
        · exact htrialB s h
      exact validSubset_of_bound instances F s hwf
        (fun f hf' => List.mem_range.mp (hsub.subset hf'))

/-- Witness of C19 at the dataset `sample` with two features. -/
theorem feature_subset_invariant_witness :
    WellFormed sample 2 ∧
    (∀ s, s ∈ [] :: trialSubsets (forwardSearch sample 2).out → ValidSubset sample s) ∧
    (∀ s, s ∈ List.range 2 :: trialSubsets (backwardSearch sample 2).out →
      ValidSubset sample s) :=
  ⟨by simp [WellFormed, sample],
    (feature_subset_invariant sample 2).2.2.2 (by simp [WellFormed, sample])⟩

/-- C20: in `forwardSelection` and in `backwardElimination` the tracked best
accuracy is the oracle accuracy of the tracked best subset: every "was best"
line announces a subset with its own `evaluateSubset` value, and the accuracy of
the final line is `evaluateSubset` of the returned subset, in its returned
order. -/
theorem tracked_accuracy_exact (instances : List (Instance K)) (F : Nat) :
    (forwardSelectionAccuracy instances F =
        evaluateSubset instances (forwardSelection instances F) ∧
      ∀ s acc, Event.best s acc ∈ (forwardSearch instances F).out →
        acc = evaluateSubset instances s) ∧
    (backwardEliminationAccuracy instances F =
        evaluateSubset instances (backwardElimination instances F) ∧
      ∀ s acc, Event.best s acc ∈ (backwardSearch instances F).out →
        acc = evaluateSubset instances s) := by
  have hf := (forwardSearch_spec instances F).1
  have hb := (backwardSearch_spec instances F).1
  refine ⟨⟨?_, ?_⟩, ⟨?_, ?_⟩⟩
  · unfold forwardSelectionAccuracy forwardSelection
    rw [hf.best_eq]; exact hf.acc_eq
  · intro s acc hmem
    obtain ⟨cur, f, _, _, _, _, _, hacc, _⟩ := forwardSearch_trace instances F _ hmem
    exact hacc
  · unfold backwardEliminationAccuracy backwardElimination
    rw [hb.best_eq]; exact hb.acc_eq
  · intro s acc hmem
    exact (backwardSearch_trace instances F _ hmem).2

/-! ## Order of the subset -/

theorem sqDist_eq_sum (a b : Instance K) (subset : List Nat) :
    sqDist a b subset =
      (subset.map (fun fIdx => (feat a fIdx - feat b fIdx) * (feat a fIdx - feat b fIdx))).sum := by
  unfold sqDist
  have hgen : ∀ (l : List Nat) (d : K),
      l.foldl (fun d2 fIdx =>
        let diff := feat a fIdx - feat b fIdx
        d2 + diff * diff) d =
      d + (l.map (fun fIdx => (feat a fIdx - feat b fIdx) * (feat a fIdx - feat b fIdx))).sum := by
    intro l
    induction l with
    | nil => intro d; simp
    | cons x xs ih =>
      intro d
      rw [List.foldl_cons, ih, List.map_cons, List.sum_cons]
      ring
  rw [hgen, zero_add]

theorem evaluateSubset_perm_eq (instances : List (Instance K)) (s t : List Nat)
    (h : s.Perm t) : evaluateSubset instances s = evaluateSubset instances t := by
  unfold evaluateSubset
  rw [countCorrect_congr instances s t (fun i j _ _ => by
    rw [sqDist_eq_sum, sqDist_eq_sum]
    exact (h.map _).sum_eq)]

/-- C15: the order of a feature subset does not affect evaluation: for every
dataset and every two index lists that are permutations of each other,
`evaluateSubset` returns the same accuracy; hence the accuracy of the trial
`current ++ [f]` of `forwardSelection` is the accuracy of every listing of the
set `current ∪ {f}`. -/
theorem evaluateSubset_perm (instances : List (Instance K)) (s t : List Nat)
    (h : s.Perm t) :
    evaluateSubset instances s = evaluateSubset instances t ∧
    ∀ (current : List Nat) (f : Nat), t.Perm (f :: current) →
      evaluateSubset instances (current ++ [f]) = evaluateSubset instances s := by
  refine ⟨evaluateSubset_perm_eq instances s t h, fun current f ht => ?_⟩
  apply evaluateSubset_perm_eq
  have h1 : (current ++ [f]).Perm (f :: current) := List.perm_append_singleton f current
  exact h1.trans (ht.symm.trans h.symm)

/-- Witness of C15 at the dataset `sample` and the two orders of its features. -/
theorem evaluateSubset_perm_witness :
    [0, 1].Perm [1, 0] ∧
    (evaluateSubset sample [0, 1] = evaluateSubset sample [1, 0] ∧
    ∀ (current : List Nat) (f : Nat), [1, 0].Perm (f :: current) →
      evaluateSubset sample (current ++ [f]) = evaluateSubset sample [0, 1]) :=
  ⟨by decide, evaluateSubset_perm sample [0, 1] [1, 0] (by decide)⟩

/-! ## The default rate -/

theorem count_class1_eq (instances : List (Instance K)) :
    instances.foldl (fun count inst => if inst.label = 1 then count + 1 else count) 0 =
      classCount instances 1 := by
  have hgen : ∀ (l : List (Instance K)) (c : Nat),
      l.foldl (fun count inst => if inst.label = 1 then count + 1 else count) c =
        c + l.countP (fun inst => decide (inst.label = 1)) := by
    intro l
    induction l with
    | nil => intro c; simp
    | cons x xs ih =>
      intro c
      rw [List.foldl_cons, ih, List.countP_cons]
      by_cases hx : x.label = 1
      · simp [hx]; omega
      · simp [hx]
  rw [hgen, zero_add]
  rfl

theorem defaultRate_eq (instances : List (Instance K)) :
    defaultRate instances =
      ((max (classCount instances 1) (instances.length - classCount instances 1) : Nat) : K) /
        (instances.length : K) := by
  unfold defaultRate
  simp only [count_class1_eq]

theorem foldr_max_le (l : List Nat) (b : Nat) (h : ∀ x, x ∈ l → x ≤ b) :
    l.foldr max 0 ≤ b := by
  induction l with
  | nil => exact Nat.zero_le b
  | cons x xs ih =>
    rw [List.foldr_cons]
    exact max_le (h x (List.mem_cons_self x xs)) (ih (fun y hy => h y (List.mem_cons_of_mem x hy)))

theorem le_foldr_max (l : List Nat) (x : Nat) (h : x ∈ l) : x ≤ l.foldr max 0 := by
  induction l with
  | nil => exact absurd h (List.not_mem_nil x)
  | cons y ys ih =>
    rw [List.foldr_cons]
    rcases List.mem_cons.mp h with h1 | h1
    · rw [h1]; exact le_max_left _ _
    · exact le_trans (ih h1) (le_max_right _ _)

theorem classCount_le_majority (instances : List (Instance K)) (l : Int) :
    classCount instances l ≤ majorityClassCount instances := by
  by_cases h0 : classCount instances l = 0
  · rw [h0]; exact Nat.zero_le _
  · have hpos : 0 < instances.countP (fun inst => decide (inst.label = l)) :=
      Nat.pos_of_ne_zero h0
    obtain ⟨inst, hmem, hl⟩ := List.countP_pos_iff.mp hpos
    have hl' : inst.label = l := by simpa using hl
    apply le_foldr_max
    rw [List.mem_map]
    exact ⟨inst, hmem, by rw [hl']⟩

theorem classCount_add_le (instances : List (Instance K)) (l : Int) (hl : l ≠ 1) :
    classCount instances l + classCount instances 1 ≤ instances.length := by
  unfold classCount
  induction instances with
  | nil => simp
  | cons x xs ih =>
    rw [List.countP_cons, List.countP_cons, List.length_cons]
    have hl' : ¬ (1 : Int) = l := fun h => hl h.symm
    by_cases h1 : x.label = 1
    · simp [h1, hl']; omega
    · by_cases h2 : x.label = l
      · simp [h2, hl]; omega
      · simp [h1, h2]; omega

theorem classCount_other (instances : List (Instance K)) (c : Int) (hc : c ≠ 1)
    (h2 : ∀ inst, inst ∈ instances → inst.label = 1 ∨ inst.label = c) :
    classCount instances c + classCount instances 1 = instances.length := by
  unfold classCount
  induction instances with
  | nil => simp
  | cons x xs ih =>
    have ih' := ih (fun inst hinst => h2 inst (List.mem_cons_of_mem x hinst))
    rw [List.countP_cons, List.countP_cons, List.length_cons]
    have hc' : ¬ (1 : Int) = c := fun h => hc h.symm
    rcases h2 x (List.mem_cons_self x xs) with h1 | h1
    · simp [h1, hc']; omega
    · simp [h1, hc]; omega

theorem majorityClassCount_two_classes (instances : List (Instance K)) (c : Int)
    (h2 : ∀ inst, inst ∈ instances → inst.label = 1 ∨ inst.label = c) :
    majorityClassCount instances =
      max (classCount instances 1) (instances.length - classCount instances 1) := by
  apply le_antisymm
  · apply foldr_max_le
    intro x hx
    obtain ⟨inst, hmem, rfl⟩ := List.mem_map.mp hx
    by_cases h1 : inst.label = 1
    · rw [h1]; exact le_max_left _ _
    · have := classCount_add_le instances inst.label h1
      exact le_trans (by omega) (le_max_right _ _)
  · apply max_le (classCount_le_majority instances 1)
    by_cases hc : c = 1
    · have hall : classCount instances 1 = instances.length := by
        unfold classCount
        rw [List.countP_eq_length]
        intro inst hinst
        rcases h2 inst hinst with h | h
        · simp [h]
        · simp [h, hc]
      rw [hall, Nat.sub_self]
      exact Nat.zero_le _
    · have := classCount_other instances c hc h2
      have hle := classCount_le_majority instances c
      omega

/-- C18 (amended): for every non-empty dataset whose labels take at most two
values, one of them being `1` (the class ids `1` and `2` of the intended
datasets), the default rate that `forwardSelection` reports is the empirical
majority-class rate; for every dataset it is
`max(#{label = 1}, N - #{label = 1}) / N`. -/
theorem defaultRate_two_classes (instances : List (Instance K)) (c : Int)
    (_hN : 1 ≤ instances.length)
    (h2 : ∀ inst, inst ∈ instances → inst.label = 1 ∨ inst.label = c) :
    defaultRate instances =
      ((max (classCount instances 1) (instances.length - classCount instances 1) : Nat) : K) /
        (instances.length : K) ∧
    defaultRate instances = majorityRate instances := by
  refine ⟨defaultRate_eq instances, ?_⟩
  rw [defaultRate_eq]
  unfold majorityRate
  rw [majorityClassCount_two_classes instances c h2]

/-- Witness of C18 (amended) at the dataset `sample`, of classes 1 and 2. -/
theorem defaultRate_two_classes_witness :
    1 ≤ sample.length ∧ (∀ inst, inst ∈ sample → inst.label = 1 ∨ inst.label = 2) ∧
    (defaultRate sample =
      ((max (classCount sample 1) (sample.length - classCount sample 1) : Nat) : ℚ) /
        (sample.length : ℚ) ∧
    defaultRate sample = majorityRate sample) :=
  ⟨by decide, by simp [sample],
    defaultRate_two_classes sample 2 (by decide) (by simp [sample])⟩

/-- C18 (counterexample): on the dataset `threeClasses`, one instance of each of
the classes 1, 2 and 3, the most frequent class has one instance, so the
majority-class rate is `1/3`, while the reported default rate is
`max(1, 3 - 1) / 3 = 2/3`. -/
theorem defaultRate_threeClasses :
    1 ≤ threeClasses.length ∧ majorityRate threeClasses = 1 / 3 ∧
    defaultRate threeClasses = 2 / 3 ∧
    defaultRate threeClasses ≠ majorityRate threeClasses := by
  have h1 : majorityRate threeClasses = 1 / 3 := by
    simp [majorityRate, majorityClassCount, classCount, threeClasses]
  have h2 : defaultRate threeClasses = 2 / 3 := by
    simp [defaultRate, threeClasses]
  refine ⟨by decide, h1, h2, ?_⟩
  rw [h1, h2]
  norm_num

/-! ## The normaliser -/

theorem columnStd_eq (sqrt : K → K) (raw_data : List (List K)) (j : Nat) :
    columnStd sqrt raw_data j =
      if columnStdComputed sqrt raw_data j = 0 then 1 else columnStdComputed sqrt raw_data j :=
  rfl

theorem foldl_add_eq_sum {α : Type} (g : α → K) (l : List α) (c : K) :
    l.foldl (fun s x => s + g x) c = c + (l.map g).sum := by
  induction l generalizing c with
  | nil => simp
  | cons x xs ih =>
    rw [List.foldl_cons, ih, List.map_cons, List.sum_cons, add_assoc]

theorem sum_map_sub_const (col : List K) (m : K) :
    (col.map (fun x => x - m)).sum = col.sum - (col.length : K) * m := by
  induction col with
  | nil => simp
  | cons x xs ih =>
    rw [List.map_cons, List.sum_cons, ih, List.sum_cons, List.length_cons]
    push_cast
    ring

theorem sum_map_div_const {α : Type} (g : α → K) (l : List α) (s : K) :
    (l.map (fun x => g x / s)).sum = (l.map g).sum / s := by
  induction l with
  | nil => simp
  | cons x xs ih =>
    rw [List.map_cons, List.sum_cons, ih, List.map_cons, List.sum_cons, add_div]

theorem centered_sum_zero (col : List K) (hne : col ≠ []) :
    (col.map (fun x => x - sampleMean col)).sum = 0 := by
  have hlen : (col.length : K) ≠ 0 := by
    have : 0 < col.length := List.length_pos.mpr hne
    exact_mod_cast this.ne'
  rw [sum_map_sub_const]
  unfold sampleMean
  field_simp

theorem sampleMean_normalized (col : List K) (s : K) (hne : col ≠ []) :
    sampleMean (col.map (fun x => (x - sampleMean col) / s)) = 0 := by
  unfold sampleMean
  rw [sum_map_div_const (fun x => x - col.sum / (col.length : K)) col s]
  have h := centered_sum_zero col hne
  unfold sampleMean at h
  rw [h]
  simp

theorem sampleVariance_normalized (col : List K) (s : K) (hne : col ≠ []) :
    sampleVariance (col.map (fun x => (x - sampleMean col) / s)) =
      sampleVariance col / (s * s) := by
  have hm := sampleMean_normalized col s hne
  unfold sampleVariance
  rw [hm, List.map_map, List.length_map]
  have hfun : ((fun x : K => (x - 0) * (x - 0)) ∘ fun x => (x - sampleMean col) / s) =
      fun x => (x - sampleMean col) * (x - sampleMean col) / (s * s) := by
    funext x
    simp only [Function.comp, sub_zero]
    rw [div_mul_div_comm]
  rw [hfun, sum_map_div_const (fun x => (x - sampleMean col) * (x - sampleMean col)) col (s * s)]
  rw [div_div, div_div, mul_comm]

theorem sum_pos_of_exists (l : List K) (hnn : ∀ y, y ∈ l → 0 ≤ y)
    (hex : ∃ y, y ∈ l ∧ 0 < y) : 0 < l.sum := by
  induction l with
  | nil =>
    obtain ⟨y, hy, _⟩ := hex
    exact absurd hy (List.not_mem_nil y)
  | cons x xs ih =>
    rw [List.sum_cons]
    have hxs : 0 ≤ xs.sum := List.sum_nonneg (fun y hy => hnn y (List.mem_cons_of_mem x hy))
    have hx : 0 ≤ x := hnn x (List.mem_cons_self x xs)
    obtain ⟨y, hy, hpos⟩ := hex
    rcases List.mem_cons.mp hy with h | h
    · rw [h] at hpos
      linarith
    · have := ih (fun y hy => hnn y (List.mem_cons_of_mem x hy)) ⟨y, h, hpos⟩
      linarith

theorem sampleVariance_pos (col : List K) (hlen : 2 ≤ col.length)
    (hex : ∃ x, x ∈ col ∧ ∃ y, y ∈ col ∧ x ≠ y) : 0 < sampleVariance col := by
  unfold sampleVariance
  have hden : (0 : K) < (col.length : K) - 1 := by
    have : (2 : K) ≤ (col.length : K) := by exact_mod_cast hlen
    linarith
  apply div_pos _ hden
  apply sum_pos_of_exists
  · intro y hy
    obtain ⟨x, _, rfl⟩ := List.mem_map.mp hy
    exact mul_self_nonneg _
  · obtain ⟨x, hx, y, hy, hxy⟩ := hex
    by_cases hxm : x = sampleMean col
    · have hym : y ≠ sampleMean col := fun h => hxy (hxm.trans h.symm)
      exact ⟨_, List.mem_map.mpr ⟨y, hy, rfl⟩, mul_self_pos.mpr (sub_ne_zero.mpr hym)⟩
    · exact ⟨_, List.mem_map.mpr ⟨x, hx, rfl⟩, mul_self_pos.mpr (sub_ne_zero.mpr hxm)⟩

theorem sum_of_constant (col : List K) (c : K) (h : ∀ x, x ∈ col → x = c) :
    col.sum = (col.length : K) * c := by
  induction col with
  | nil => simp
  | cons x xs ih =>
    rw [List.sum_cons, ih (fun y hy => h y (List.mem_cons_of_mem x hy)),
      h x (List.mem_cons_self x xs), List.length_cons]
    push_cast
    ring

theorem sampleMean_of_constant (col : List K) (c : K) (hne : col ≠ [])
    (h : ∀ x, x ∈ col → x = c) : sampleMean col = c := by
  have hlen : (col.length : K) ≠ 0 := by
    have : 0 < col.length := List.length_pos.mpr hne
    exact_mod_cast this.ne'
  unfold sampleMean
  rw [sum_of_constant col c h]
  field_simp

theorem sampleVariance_of_constant (col : List K) (c : K) (hne : col ≠ [])
    (h : ∀ x, x ∈ col → x = c) : sampleVariance col = 0 := by
  unfold sampleVariance
  have hz : (col.map (fun x => (x - sampleMean col) * (x - sampleMean col))).sum = 0 := by
    apply List.sum_eq_zero
    intro y hy
    obtain ⟨x, hx, rfl⟩ := List.mem_map.mp hy
    rw [sampleMean_of_constant col c hne h, h x hx, sub_self, mul_zero]
  rw [hz, zero_div]

theorem columnMean_eq (raw_data : List (List K)) (j : Nat) :
    columnMean raw_data j = sampleMean (raw_data.map (fun row => row.getD j 0)) := by
  unfold columnMean sampleMean
  rw [foldl_add_eq_sum (fun row : List K => row.getD j 0) raw_data 0, zero_add,
    List.length_map]

theorem columnStdComputed_eq (sqrt : K → K) (raw_data : List (List K)) (j : Nat)
    (hne : raw_data ≠ []) :
    columnStdComputed sqrt raw_data j =
      sqrt (sampleVariance (raw_data.map (fun row => row.getD j 0))) := by
  have hpos : 1 ≤ raw_data.length := List.length_pos.mpr hne
  unfold columnStdComputed sampleVariance
  have hfold := foldl_add_eq_sum
    (fun row : List K =>
      (row.getD j 0 - columnMean raw_data j) * (row.getD j 0 - columnMean raw_data j))
    raw_data 0
  have hfold' : raw_data.foldl
      (fun s row =>
        let diff := row.getD j 0 - columnMean raw_data j
        s + diff * diff) 0 =
      (raw_data.map (fun row : List K =>
        (row.getD j 0 - columnMean raw_data j) * (row.getD j 0 - columnMean raw_data j))).sum := by
    rw [← zero_add (List.sum _)]
    exact hfold
  rw [hfold', columnMean_eq, List.map_map, List.length_map, Nat.cast_sub hpos, Nat.cast_one]
  rfl

theorem rawColumn_eq (rows : List (Int × List K)) (j : Nat) :
    (rows.map Prod.snd).map (fun row => row.getD j 0) = rawColumn rows j := by
  unfold rawColumn
  rw [List.map_map]
  rfl

theorem rawColumn_toRows (instances : List (Instance K)) (j : Nat) :
    rawColumn (toRows instances) j = dataColumn instances j := by
  unfold rawColumn toRows dataColumn
  rw [List.map_map]
  rfl

theorem loadAndNormalize_cons (sqrt : K → K) (r0 : Int × List K) (rest : List (Int × List K)) :
    loadAndNormalize sqrt (r0 :: rest) =
      some (r0.2.length,
        (r0 :: rest).map (fun r =>
          { label := r.1
            features := (List.range r0.2.length).map (fun j =>
              (r.2.getD j 0 - columnMean ((r0 :: rest).map Prod.snd) j) /
                columnStd sqrt ((r0 :: rest).map Prod.snd) j) })) :=
  rfl

theorem getD_map_range (F j : Nat) (g : Nat → K) (d : K) (hj : j < F) :
    ((List.range F).map g).getD j d = g j := by
  rw [List.getD_eq_getElem _ _ (by simpa using hj)]
  simp

/-- Column `j` of the normalised dataset is the raw column, centred on its sample
mean and divided by `columnStd`. -/
theorem dataColumn_normalized (sqrt : K → K) (rows : List (Int × List K)) (F j : Nat)
    (hj : j < F) :
    dataColumn
        (rows.map (fun r =>
          ({ label := r.1
             features := (List.range F).map (fun j =>
              (r.2.getD j 0 - columnMean (rows.map Prod.snd) j) /
                columnStd sqrt (rows.map Prod.snd) j) } : Instance K))) j =
      (rawColumn rows j).map (fun x =>
        (x - sampleMean (rawColumn rows j)) / columnStd sqrt (rows.map Prod.snd) j) := by
  unfold dataColumn rawColumn
  rw [List.map_map, List.map_map]
  apply List.map_congr_left
  intro r _
  simp only [Function.comp, feat]
  rw [getD_map_range F j _ 0 hj, columnMean_eq, rawColumn_eq]
  rfl

theorem rawColumn_ne_nil (rows : List (Int × List K)) (j : Nat) (hne : rows ≠ []) :
    rawColumn rows j ≠ [] := by
  unfold rawColumn
  intro h
  exact hne (List.map_eq_nil_iff.mp h)

theorem columnStd_ne_zero (sqrt : K → K) (raw_data : List (List K)) (j : Nat) :
    columnStd sqrt raw_data j ≠ 0 := by
  rw [columnStd_eq]
  by_cases h : columnStdComputed sqrt raw_data j = 0
  · rw [if_pos h]; exact one_ne_zero
  · rw [if_neg h]; exact h

/-- A constant column: the computed standard deviation is `0`, the divisor is
`1`, and every value equals the column mean. -/
theorem std_of_constant (rows : List (Int × List ℝ)) (j : Nat) (hne : rows ≠ [])
    (hconst : ColumnConstant rows j) :
    columnStdComputed Real.sqrt (rows.map Prod.snd) j = 0 ∧
    columnStd Real.sqrt (rows.map Prod.snd) j = 1 ∧
    ∀ x, x ∈ rawColumn rows j → x = sampleMean (rawColumn rows j) := by
  obtain ⟨r0, hr0⟩ := List.exists_mem_of_ne_nil rows hne
  have hall : ∀ x, x ∈ rawColumn rows j → x = r0.2.getD j 0 := by
    intro x hx
    obtain ⟨r, hr, rfl⟩ := List.mem_map.mp hx
    exact hconst r hr r0 hr0
  have hcne := rawColumn_ne_nil rows j hne
  have hcomp : columnStdComputed Real.sqrt (rows.map Prod.snd) j = 0 := by
    rw [columnStdComputed_eq Real.sqrt _ j (by simpa using hne), rawColumn_eq,
      sampleVariance_of_constant _ _ hcne hall, Real.sqrt_zero]
  refine ⟨hcomp, ?_, ?_⟩
  · rw [columnStd_eq, if_pos hcomp]
  · intro x hx
    rw [sampleMean_of_constant _ _ hcne hall]
    exact hall x hx

/-- A column that is not constant: the divisor is the square root of the
positive sample variance. -/
theorem std_of_nonconstant (rows : List (Int × List ℝ)) (j : Nat) (hN : 2 ≤ rows.length)
    (hnc : ¬ ColumnConstant rows j) :
    0 < sampleVariance (rawColumn rows j) ∧
    columnStd Real.sqrt (rows.map Prod.snd) j *
      columnStd Real.sqrt (rows.map Prod.snd) j = sampleVariance (rawColumn rows j) := by
  have hne : rows ≠ [] := by
    intro h; rw [h] at hN; simp at hN
  have hex : ∃ x, x ∈ rawColumn rows j ∧ ∃ y, y ∈ rawColumn rows j ∧ x ≠ y := by
    unfold ColumnConstant at hnc
    push_neg at hnc
    obtain ⟨r, hr, r', hr', hne'⟩ := hnc
    exact ⟨_, List.mem_map.mpr ⟨r, hr, rfl⟩, _, List.mem_map.mpr ⟨r', hr', rfl⟩, hne'⟩
  have hpos : 0 < sampleVariance (rawColumn rows j) :=
    sampleVariance_pos _ (by unfold rawColumn; simpa using hN) hex
  refine ⟨hpos, ?_⟩
  have hcomp : columnStdComputed Real.sqrt (rows.map Prod.snd) j =
      Real.sqrt (sampleVariance (rawColumn rows j)) := by
    rw [columnStdComputed_eq Real.sqrt _ j (by simpa using hne), rawColumn_eq]
  have hnz : Real.sqrt (sampleVariance (rawColumn rows j)) ≠ 0 :=
    (Real.sqrt_pos.mpr hpos).ne'
  rw [columnStd_eq, hcomp, if_neg hnz]
  exact Real.mul_self_sqrt (le_of_lt hpos)

theorem loadAndNormalize_eq (sqrt : K → K) (rows : List (Int × List K)) (F : Nat)
    (hne : rows ≠ []) (hF : ∀ r, r ∈ rows → r.2.length = F) :
    loadAndNormalize sqrt rows = some (F, normalizedData sqrt rows F) := by
  cases rows with
  | nil => exact absurd rfl hne
  | cons r0 rest =>
    rw [loadAndNormalize_cons, hF r0 (List.mem_cons_self r0 rest)]
    rfl

theorem range_map_getD (l : List K) (F : Nat) (hl : l.length = F) :
    (List.range F).map (fun j => l.getD j 0) = l := by
  apply List.ext_getElem
  · simp [hl]
  · intro n h1 h2
    simp only [List.getElem_map, List.getElem_range]
    exact List.getD_eq_getElem _ _ h2

theorem normalizedData_mean (sqrt : K → K) (rows : List (Int × List K)) (F j : Nat)
    (hne : rows ≠ []) (hj : j < F) :
    sampleMean (dataColumn (normalizedData sqrt rows F) j) = 0 := by
  unfold normalizedData
  rw [dataColumn_normalized sqrt rows F j hj]
  exact sampleMean_normalized _ _ (rawColumn_ne_nil rows j hne)

theorem normalizedData_variance (rows : List (Int × List ℝ)) (F j : Nat)
    (hN : 2 ≤ rows.length) (hj : j < F) (hnc : ¬ ColumnConstant rows j) :
    sampleVariance (dataColumn (normalizedData Real.sqrt rows F) j) = 1 := by
  have hne : rows ≠ [] := by
    intro h; rw [h] at hN; simp at hN
  obtain ⟨hpos, hsq⟩ := std_of_nonconstant rows j hN hnc
  unfold normalizedData
  rw [dataColumn_normalized Real.sqrt rows F j hj,
    sampleVariance_normalized _ _ (rawColumn_ne_nil rows j hne), hsq]
  exact div_self hpos.ne'

theorem normalizedData_constant (rows : List (Int × List ℝ)) (F j : Nat)
    (hne : rows ≠ []) (hj : j < F) (hconst : ColumnConstant rows j) :
    ∀ x, x ∈ dataColumn (normalizedData Real.sqrt rows F) j → x = 0 := by
  obtain ⟨_, _, hall⟩ := std_of_constant rows j hne hconst
  unfold normalizedData
  rw [dataColumn_normalized Real.sqrt rows F j hj]
  intro x hx
  obtain ⟨y, hy, rfl⟩ := List.mem_map.mp hx
  rw [hall y hy, sub_self, zero_div]

theorem normalizedData_length (sqrt : K → K) (rows : List (Int × List K)) (F : Nat) :
    (normalizedData sqrt rows F).length = rows.length := by
  unfold normalizedData
  rw [List.length_map]

theorem normalizedData_features (sqrt : K → K) (rows : List (Int × List K)) (F : Nat) :
    ∀ inst, inst ∈ normalizedData sqrt rows F → inst.features.length = F := by
  intro inst hinst
  unfold normalizedData at hinst
  obtain ⟨r, _, rfl⟩ := List.mem_map.mp hinst
  simp

theorem ne_nil_of_two_le {α : Type} (l : List α) (h : 2 ≤ l.length) : l ≠ [] := by
  intro h0
  rw [h0] at h
  simp at h

/-- C12: over the reals, for every dataset with `N ≥ 2` rows of `F` features the
normaliser returns `F` and `N` instances with the same labels in the same order
and `F` features each; the mean of every normalised column is `0`, and every
column that is not constant in the input has sample standard deviation (with
the `N - 1` denominator) exactly `1` after normalisation. -/
theorem normalize_standardizes (rows : List (Int × List ℝ)) (F : Nat)
    (hN : 2 ≤ rows.length) (hF : ∀ r, r ∈ rows → r.2.length = F) :
    ∃ data, loadAndNormalize Real.sqrt rows = some (F, data) ∧
      data.length = rows.length ∧
      data.map (fun inst => inst.label) = rows.map Prod.fst ∧
      (∀ inst, inst ∈ data → inst.features.length = F) ∧
      ∀ j, j < F →
        sampleMean (dataColumn data j) = 0 ∧
        (¬ ColumnConstant rows j → Real.sqrt (sampleVariance (dataColumn data j)) = 1) := by
  have hne := ne_nil_of_two_le rows hN
  refine ⟨normalizedData Real.sqrt rows F, loadAndNormalize_eq Real.sqrt rows F hne hF,
    normalizedData_length Real.sqrt rows F, ?_, normalizedData_features Real.sqrt rows F, ?_⟩
  · unfold normalizedData
    rw [List.map_map]
    rfl
  · intro j hj
    refine ⟨normalizedData_mean Real.sqrt rows F j hne hj, fun hnc => ?_⟩
    rw [normalizedData_variance rows F j hN hj hnc, Real.sqrt_one]

/-- Witness of C12 at the rows of the end-to-end scenario. -/
theorem normalize_standardizes_witness :
    2 ≤ (scenarioRows ℝ).length ∧ (∀ r, r ∈ scenarioRows ℝ → r.2.length = 2) ∧
    ∃ data, loadAndNormalize Real.sqrt (scenarioRows ℝ) = some (2, data) ∧
      data.length = (scenarioRows ℝ).length ∧
      data.map (fun inst => inst.label) = (scenarioRows ℝ).map Prod.fst ∧
      (∀ inst, inst ∈ data → inst.features.length = 2) ∧
      ∀ j, j < 2 →
        sampleMean (dataColumn data j) = 0 ∧
        (¬ ColumnConstant (scenarioRows ℝ) j →
          Real.sqrt (sampleVariance (dataColumn data j)) = 1) :=
  ⟨by simp [scenarioRows], by simp [scenarioRows],
    normalize_standardizes (scenarioRows ℝ) 2 (by simp [scenarioRows])
      (by simp [scenarioRows])⟩

/-- C13: over the reals, for every dataset with `N ≥ 2` rows of `F` features, if
column `j` is constant in the input then its computed standard deviation is `0`,
the divisor is replaced by `1` (the divisor of a column is never `0`), and every
normalised value of column `j` equals `0`. -/
theorem normalize_constant_column (rows : List (Int × List ℝ)) (F j : Nat)
    (hN : 2 ≤ rows.length) (hF : ∀ r, r ∈ rows → r.2.length = F) (hj : j < F)
    (hconst : ColumnConstant rows j) :
    columnStdComputed Real.sqrt (rows.map Prod.snd) j = 0 ∧
    columnStd Real.sqrt (rows.map Prod.snd) j = 1 ∧
    (∀ k, columnStd Real.sqrt (rows.map Prod.snd) k ≠ 0) ∧
    ∃ data, loadAndNormalize Real.sqrt rows = some (F, data) ∧
      ∀ inst, inst ∈ data → feat inst j = 0 := by
  have hne := ne_nil_of_two_le rows hN
  obtain ⟨h0, h1, _⟩ := std_of_constant rows j hne hconst
  refine ⟨h0, h1, fun k => columnStd_ne_zero Real.sqrt _ k,
    normalizedData Real.sqrt rows F, loadAndNormalize_eq Real.sqrt rows F hne hF, ?_⟩
  intro inst hinst
  apply normalizedData_constant rows F j hne hj hconst
  exact List.mem_map.mpr ⟨inst, hinst, rfl⟩

/-- Witness of C13 at the rows `constantRows` and their constant column `0`. -/
theorem normalize_constant_column_witness :
    2 ≤ (constantRows ℝ).length ∧ (∀ r, r ∈ constantRows ℝ → r.2.length = 2) ∧
    ColumnConstant (constantRows ℝ) 0 ∧
    (columnStdComputed Real.sqrt ((constantRows ℝ).map Prod.snd) 0 = 0 ∧
    columnStd Real.sqrt ((constantRows ℝ).map Prod.snd) 0 = 1 ∧
    (∀ k, columnStd Real.sqrt ((constantRows ℝ).map Prod.snd) k ≠ 0) ∧
    ∃ data, loadAndNormalize Real.sqrt (constantRows ℝ) = some (2, data) ∧
      ∀ inst, inst ∈ data → feat inst 0 = 0) :=
  ⟨by simp [constantRows], by simp [constantRows], by simp [ColumnConstant, constantRows],
    normalize_constant_column (constantRows ℝ) 2 0 (by simp [constantRows])
      (by simp [constantRows]) (by decide) (by simp [ColumnConstant, constantRows])⟩

/-- The second pass of the normaliser sees mean `0` and divisor `1` in every
column. -/
theorem second_pass (rows : List (Int × List ℝ)) (F j : Nat) (hN : 2 ≤ rows.length)
    (hj : j < F) :
    columnMean ((toRows (normalizedData Real.sqrt rows F)).map Prod.snd) j = 0 ∧
    columnStd Real.sqrt ((toRows (normalizedData Real.sqrt rows F)).map Prod.snd) j = 1 := by
  have hne := ne_nil_of_two_le rows hN
  have hne' : (toRows (normalizedData Real.sqrt rows F)).map Prod.snd ≠ [] := by
    intro h
    have hlen := congrArg List.length h
    simp only [List.length_map, toRows, normalizedData_length, List.length_nil] at hlen
    omega
  have hcne : dataColumn (normalizedData Real.sqrt rows F) j ≠ [] := by
    intro h
    have hlen := congrArg List.length h
    simp only [dataColumn, List.length_map, normalizedData_length, List.length_nil] at hlen
    omega
  constructor
  · rw [columnMean_eq, rawColumn_eq, rawColumn_toRows]
    exact normalizedData_mean Real.sqrt rows F j hne hj
  · rw [columnStd_eq, columnStdComputed_eq Real.sqrt _ j hne', rawColumn_eq, rawColumn_toRows]
    by_cases hconst : ColumnConstant rows j
    · rw [sampleVariance_of_constant _ 0 hcne (normalizedData_constant rows F j hne hj hconst),
        Real.sqrt_zero, if_pos rfl]
    · rw [normalizedData_variance rows F j hN hj hconst, Real.sqrt_one,
        if_neg (one_ne_zero)]

/-- C14: over the reals, for every dataset with `N ≥ 2` rows of `F` features,
normalising the already normalised dataset a second time returns exactly the
same feature values and labels. -/
theorem normalize_idempotent (rows : List (Int × List ℝ)) (F : Nat)
    (hN : 2 ≤ rows.length) (hF : ∀ r, r ∈ rows → r.2.length = F) :
    ∃ data, loadAndNormalize Real.sqrt rows = some (F, data) ∧
      loadAndNormalize Real.sqrt (toRows data) = some (F, data) := by
  have hne := ne_nil_of_two_le rows hN
  refine ⟨normalizedData Real.sqrt rows F, loadAndNormalize_eq Real.sqrt rows F hne hF, ?_⟩
  have hne' : toRows (normalizedData Real.sqrt rows F) ≠ [] := by
    intro h
    have hlen := congrArg List.length h
    simp only [List.length_map, toRows, normalizedData_length, List.length_nil] at hlen
    omega
  have hF' : ∀ r, r ∈ toRows (normalizedData Real.sqrt rows F) → r.2.length = F := by
    intro r hr
    obtain ⟨inst, hinst, rfl⟩ := List.mem_map.mp hr
    exact normalizedData_features Real.sqrt rows F inst hinst
  rw [loadAndNormalize_eq Real.sqrt _ F hne' hF']
  congr 2
  have hmap : normalizedData Real.sqrt (toRows (normalizedData Real.sqrt rows F)) F =
      (normalizedData Real.sqrt rows F).map
        (fun inst =>
          ({ label := inst.label
             features := (List.range F).map (fun j =>
              (inst.features.getD j 0 -
                  columnMean ((toRows (normalizedData Real.sqrt rows F)).map Prod.snd) j) /
                columnStd Real.sqrt
                  ((toRows (normalizedData Real.sqrt rows F)).map Prod.snd) j) } :
            Instance ℝ)) := by
    conv_lhs => unfold normalizedData
    conv_lhs => arg 2; unfold toRows
    rw [List.map_map]
    rfl
  rw [hmap]
  conv_rhs => rw [← List.map_id (normalizedData Real.sqrt rows F)]
  apply List.map_congr_left
  intro inst hinst
  have hfeat : (List.range F).map (fun j =>
      (inst.features.getD j 0 -
          columnMean ((toRows (normalizedData Real.sqrt rows F)).map Prod.snd) j) /
        columnStd Real.sqrt ((toRows (normalizedData Real.sqrt rows F)).map Prod.snd) j) =
      inst.features := by
    have hcongr : (List.range F).map (fun j =>
        (inst.features.getD j 0 -
            columnMean ((toRows (normalizedData Real.sqrt rows F)).map Prod.snd) j) /
          columnStd Real.sqrt ((toRows (normalizedData Real.sqrt rows F)).map Prod.snd) j) =
        (List.range F).map (fun j => inst.features.getD j 0) := by
      apply List.map_congr_left
      intro j hj
      obtain ⟨hm, hs⟩ := second_pass rows F j hN (List.mem_range.mp hj)
      rw [hm, hs, sub_zero, div_one]
    rw [hcongr]
    exact range_map_getD inst.features F (normalizedData_features Real.sqrt rows F inst hinst)
  show ({ label := inst.label, features := _ } : Instance ℝ) = id inst
  rw [hfeat]
  rfl

/-- Witness of C14 at the rows of the end-to-end scenario. -/
theorem normalize_idempotent_witness :
    2 ≤ (scenarioRows ℝ).length ∧ (∀ r, r ∈ scenarioRows ℝ → r.2.length = 2) ∧
    ∃ data, loadAndNormalize Real.sqrt (scenarioRows ℝ) = some (2, data) ∧
      loadAndNormalize Real.sqrt (toRows data) = some (2, data) :=
  ⟨by simp [scenarioRows], by simp [scenarioRows],
    normalize_idempotent (scenarioRows ℝ) 2 (by simp [scenarioRows])
      (by simp [scenarioRows])⟩

/-! ## Double arithmetic: rounding -/

theorem roundHalfEven_eq_of_near (q : ℚ) (k : ℤ) (h1 : (k : ℚ) - 1 / 2 < q)
    (h2 : q < (k : ℚ) + 1 / 2) : roundHalfEven q = k := by
  unfold roundHalfEven
  by_cases hq : (k : ℚ) ≤ q
  · have hf : ⌊q⌋ = k := by
      rw [Int.floor_eq_iff]
      constructor
      · exact hq
      · linarith
    simp only [hf]
    rw [if_pos (by linarith)]
  · have hf : ⌊q⌋ = k - 1 := by
      rw [Int.floor_eq_iff]
      push_cast
      constructor
      · linarith
      · linarith
    simp only [hf]
    push_cast
    rw [if_neg (by linarith), if_pos (by linarith)]
    ring

theorem roundHalfEven_le_floor_add_one (q : ℚ) : roundHalfEven q ≤ ⌊q⌋ + 1 := by
  unfold roundHalfEven
  dsimp only
  split_ifs <;> omega

theorem floor_le_roundHalfEven (q : ℚ) : ⌊q⌋ ≤ roundHalfEven q := by
  unfold roundHalfEven
  dsimp only
  split_ifs <;> omega

theorem roundHalfEven_nonneg (q : ℚ) (h : 0 ≤ q) : 0 ≤ roundHalfEven q :=
  le_trans (Int.floor_nonneg.mpr h) (floor_le_roundHalfEven q)

theorem roundHalfEven_le_of_le (q : ℚ) (M : ℤ) (h : q ≤ (M : ℚ)) : roundHalfEven q ≤ M := by
  by_cases hq : q = (⌊q⌋ : ℚ)
  · have h0 : roundHalfEven q = ⌊q⌋ := by
      unfold roundHalfEven
      dsimp only
      rw [if_pos (by rw [← hq, sub_self]; norm_num)]
    rw [h0]
    have : (⌊q⌋ : ℚ) ≤ (M : ℚ) := le_trans (Int.floor_le q) h
    exact_mod_cast this
  · have hlt : (⌊q⌋ : ℚ) < q := lt_of_le_of_ne (Int.floor_le q) (fun h' => hq h'.symm)
    have hfl : ⌊q⌋ < M := by
      have : (⌊q⌋ : ℚ) < (M : ℚ) := lt_of_lt_of_le hlt h
      exact_mod_cast this
    have := roundHalfEven_le_floor_add_one q
    omega

theorem ulpOf_eq (x : ℚ) (e : ℤ) (he : -1022 ≤ e + 52) (hlo : (2 : ℚ) ^ (e + 52) ≤ |x|)
    (hhi : |x| < (2 : ℚ) ^ (e + 53)) : ulpOf x = (2 : ℚ) ^ e := by
  have hpos : 0 < |x| := lt_of_lt_of_le (by positivity) hlo
  have h1 : e + 52 ≤ Int.log 2 |x| := by
    rw [← Int.zpow_le_iff_le_log (by norm_num) hpos]
    exact_mod_cast hlo
  have h2 : Int.log 2 |x| < e + 53 := by
    rw [← Int.lt_zpow_iff_log_lt (by norm_num) hpos]
    exact_mod_cast hhi
  have hlog : Int.log 2 |x| = e + 52 := by omega
  unfold ulpOf
  rw [hlog, max_eq_left he]
  congr 1
  ring

theorem roundToDouble_eq (x : ℚ) (k e : ℤ) (he : -1022 ≤ e + 52)
    (hlo : (2 : ℚ) ^ (e + 52) ≤ |x|) (hhi : |x| < (2 : ℚ) ^ (e + 53))
    (h1 : ((k : ℚ) - 1 / 2) * (2 : ℚ) ^ e < x) (h2 : x < ((k : ℚ) + 1 / 2) * (2 : ℚ) ^ e) :
    roundToDouble x = (k : ℚ) * (2 : ℚ) ^ e := by
  have hu : (0 : ℚ) < (2 : ℚ) ^ e := by positivity
  unfold roundToDouble
  rw [ulpOf_eq x e he hlo hhi,
    roundHalfEven_eq_of_near (x / (2 : ℚ) ^ e) k
      (by rw [lt_div_iff₀ hu]; exact h1) (by rw [div_lt_iff₀ hu]; exact h2)]

theorem roundToDouble_zero : roundToDouble 0 = 0 := by
  unfold roundToDouble
  rw [zero_div]
  have h0 : roundHalfEven 0 = 0 := by
    unfold roundHalfEven
    simp
  rw [h0]
  simp

theorem ulpOf_pos (x : ℚ) : 0 < ulpOf x := by
  unfold ulpOf
  positivity

/-- Rounding keeps a value of `[0,1]` in `[0,1]`. -/
theorem roundToDouble_mem_unit (x : ℚ) (h0 : 0 ≤ x) (h1 : x ≤ 1) :
    0 ≤ roundToDouble x ∧ roundToDouble x ≤ 1 := by
  have hu := ulpOf_pos x
  constructor
  · unfold roundToDouble
    apply mul_nonneg _ (le_of_lt hu)
    exact_mod_cast roundHalfEven_nonneg _ (div_nonneg h0 (le_of_lt hu))
  · have hexp : max (Int.log 2 |x|) (-1022) ≤ 0 := by
      apply max_le _ (by norm_num)
      rcases eq_or_lt_of_le h0 with h | h
      · rw [← h, abs_zero]
        simp [Int.log]
      · have hlt : Int.log 2 |x| < 1 := by
          rw [← Int.lt_zpow_iff_log_lt (by norm_num) (abs_pos.mpr h.ne')]
          rw [abs_of_pos h]
          norm_num
          linarith
        omega
    obtain ⟨n, hn⟩ : ∃ n : ℕ, (n : ℤ) = 52 - max (Int.log 2 |x|) (-1022) :=
      ⟨(52 - max (Int.log 2 |x|) (-1022)).toNat, by omega⟩
    have hulp : ulpOf x = ((2 : ℚ) ^ n)⁻¹ := by
      unfold ulpOf
      rw [← zpow_natCast, hn, ← zpow_neg]
      congr 1
      ring
    have hM : x / ulpOf x ≤ (((2 : ℤ) ^ n : ℤ) : ℚ) := by
      rw [hulp, div_inv_eq_mul]
      push_cast
      have : (0 : ℚ) < (2 : ℚ) ^ n := by positivity
      nlinarith
    have hr := roundHalfEven_le_of_le _ _ hM
    have hr' : (roundHalfEven (x / ulpOf x) : ℚ) ≤ (2 : ℚ) ^ n := by exact_mod_cast hr
    unfold roundToDouble
    calc (roundHalfEven (x / ulpOf x) : ℚ) * ulpOf x
        ≤ (2 : ℚ) ^ n * ulpOf x := mul_le_mul_of_nonneg_right hr' (le_of_lt hu)
      _ = 1 := by rw [hulp]; field_simp

theorem dadd_eq (a b : ℚ) : dadd a b = roundToDouble (a + b) := by
  unfold dadd
  rfl

theorem dsub_eq (a b : ℚ) : dsub a b = roundToDouble (a - b) := by
  unfold dsub
  rfl

theorem dmul_eq (a b : ℚ) : dmul a b = roundToDouble (a * b) := by
  unfold dmul
  rfl

theorem ddiv_eq (a b : ℚ) : ddiv a b = roundToDouble (a / b) := by
  unfold ddiv
  rfl

theorem dsqrt_zero : dsqrt 0 = 0 := by
  unfold dsqrt
  rw [if_pos (le_refl 0)]

/-- The tie that rounding creates: in `double` arithmetic instance 2 is at the same
squared distance from instance 0 and from instance 3, while the squared
distance of the stored values is strictly smaller to instance 3. -/
theorem roundingData_tie :
    sqDistD (nth roundingData 2) (nth roundingData 0) [0] =
      sqDistD (nth roundingData 2) (nth roundingData 3) [0] ∧
    sqDist (nth roundingData 2) (nth roundingData 3) [0] <
      sqDist (nth roundingData 2) (nth roundingData 0) [0] := by
  have h1 : dsub (4703856398973661 / 18014398509481984) (-1763946149615123 / 2251799813685248) = (4703856398973661 / 4503599627370496) := by
    rw [dsub_eq, roundToDouble_eq ((4703856398973661 / 18014398509481984) - (-1763946149615123 / 2251799813685248)) (4703856398973661) (-52) (by norm_num)
      (by rw [abs_of_pos (by norm_num)]; norm_num) (by rw [abs_of_pos (by norm_num)]; norm_num)
      (by norm_num) (by norm_num)]
    norm_num
  have h2 : dmul (4703856398973661 / 4503599627370496) (4703856398973661 / 4503599627370496) = (1228254443828317 / 1125899906842624) := by
    rw [dmul_eq, roundToDouble_eq ((4703856398973661 / 4503599627370496) * (4703856398973661 / 4503599627370496)) (4913017775313268) (-52) (by norm_num)
      (by rw [abs_of_pos (by norm_num)]; norm_num) (by rw [abs_of_pos (by norm_num)]; norm_num)
      (by norm_num) (by norm_num)]
    norm_num
  have h3 : dadd 0 (1228254443828317 / 1125899906842624) = (1228254443828317 / 1125899906842624) := by
    rw [dadd_eq, roundToDouble_eq (0 + (1228254443828317 / 1125899906842624)) (4913017775313268) (-52) (by norm_num)
      (by rw [abs_of_pos (by norm_num)]; norm_num) (by rw [abs_of_pos (by norm_num)]; norm_num)
      (by norm_num) (by norm_num)]
    norm_num
  have h4 : dsub (4703856398973661 / 18014398509481984) (1469955124679269 / 1125899906842624) = (-4703856398973661 / 4503599627370496) := by
    rw [dsub_eq, roundToDouble_eq ((4703856398973661 / 18014398509481984) - (1469955124679269 / 1125899906842624)) (-4703856398973661) (-52) (by norm_num)
      (by rw [abs_of_neg (by norm_num)]; norm_num) (by rw [abs_of_neg (by norm_num)]; norm_num)
      (by norm_num) (by norm_num)]
    norm_num
  have h5 : dmul (-4703856398973661 / 4503599627370496) (-4703856398973661 / 4503599627370496) = (1228254443828317 / 1125899906842624) := by
    rw [dmul_eq, roundToDouble_eq ((-4703856398973661 / 4503599627370496) * (-4703856398973661 / 4503599627370496)) (4913017775313268) (-52) (by norm_num)
      (by rw [abs_of_pos (by norm_num)]; norm_num) (by rw [abs_of_pos (by norm_num)]; norm_num)
      (by norm_num) (by norm_num)]
    norm_num
  have hd0 : sqDistD (nth roundingData 2) (nth roundingData 0) [0] = (1228254443828317 / 1125899906842624) := by
    show dadd 0 (dmul (dsub (4703856398973661 / 18014398509481984) (-1763946149615123 / 2251799813685248)) (dsub (4703856398973661 / 18014398509481984) (-1763946149615123 / 2251799813685248))) = (1228254443828317 / 1125899906842624)
    simp only [h1, h2, h3, h4, h5]
  have hd3 : sqDistD (nth roundingData 2) (nth roundingData 3) [0] = (1228254443828317 / 1125899906842624) := by
    show dadd 0 (dmul (dsub (4703856398973661 / 18014398509481984) (1469955124679269 / 1125899906842624)) (dsub (4703856398973661 / 18014398509481984) (1469955124679269 / 1125899906842624))) = (1228254443828317 / 1125899906842624)
    simp only [h1, h2, h3, h4, h5]
  refine ⟨by rw [hd0, hd3], ?_⟩
  norm_num [sqDist, nth, feat, roundingData]

/-! ## The division scenario: 22 rows with the feature `0`, 15 of class 1 -/

theorem zeroRows_mean : columnMeanD (List.map Prod.snd zeroRows) 0 = 0 := by
  have h1 : dadd 0 0 = 0 := by
    rw [dadd_eq, show (0 + 0 : ℚ) = 0 by norm_num, roundToDouble_zero]
  have h2 : ddiv 0 22 = 0 := by
    rw [ddiv_eq, show (0 / 22 : ℚ) = 0 by norm_num, roundToDouble_zero]
  show ddiv (dadd (dadd (dadd (dadd (dadd (dadd (dadd (dadd (dadd (dadd (dadd (dadd (dadd (dadd (dadd (dadd (dadd (dadd (dadd (dadd (dadd (dadd 0 0) 0) 0) 0) 0) 0) 0) 0) 0) 0) 0) 0) 0) 0) 0) 0) 0) 0) 0) 0) 0) 0) 22 = 0
  simp only [h1, h2]

theorem zeroRows_std : columnStdD (List.map Prod.snd zeroRows) 0 = 1 := by
  have h1 : dsub 0 0 = 0 := by
    rw [dsub_eq, show (0 - 0 : ℚ) = 0 by norm_num, roundToDouble_zero]
  have h2 : dmul 0 0 = 0 := by
    rw [dmul_eq, show (0 * 0 : ℚ) = 0 by norm_num, roundToDouble_zero]
  have h3 : dadd 0 0 = 0 := by
    rw [dadd_eq, show (0 + 0 : ℚ) = 0 by norm_num, roundToDouble_zero]
  have h4 : ddiv 0 21 = 0 := by
    rw [ddiv_eq, show (0 / 21 : ℚ) = 0 by norm_num, roundToDouble_zero]
  have h5 : dsqrt 0 = 0 := dsqrt_zero
  show (if dsqrt (ddiv (dadd (dadd (dadd (dadd (dadd (dadd (dadd (dadd (dadd (dadd (dadd (dadd (dadd (dadd (dadd (dadd (dadd (dadd (dadd (dadd (dadd (dadd 0 (dmul (dsub 0 (columnMeanD (List.map Prod.snd zeroRows) 0)) (dsub 0 (columnMeanD (List.map Prod.snd zeroRows) 0)))) (dmul (dsub 0 (columnMeanD (List.map Prod.snd zeroRows) 0)) (dsub 0 (columnMeanD (List.map Prod.snd zeroRows) 0)))) (dmul (dsub 0 (columnMeanD (List.map Prod.snd zeroRows) 0)) (dsub 0 (columnMeanD (List.map Prod.snd zeroRows) 0)))) (dmul (dsub 0 (columnMeanD (List.map Prod.snd zeroRows) 0)) (dsub 0 (columnMeanD (List.map Prod.snd zeroRows) 0)))) (dmul (dsub 0 (columnMeanD (List.map Prod.snd zeroRows) 0)) (dsub 0 (columnMeanD (List.map Prod.snd zeroRows) 0)))) (dmul (dsub 0 (columnMeanD (List.map Prod.snd zeroRows) 0)) (dsub 0 (columnMeanD (List.map Prod.snd zeroRows) 0)))) (dmul (dsub 0 (columnMeanD (List.map Prod.snd zeroRows) 0)) (dsub 0 (columnMeanD (List.map Prod.snd zeroRows) 0)))) (dmul (dsub 0 (columnMeanD (List.map Prod.snd zeroRows) 0)) (dsub 0 (columnMeanD (List.map Prod.snd zeroRows) 0)))) (dmul (dsub 0 (columnMeanD (List.map Prod.snd zeroRows) 0)) (dsub 0 (columnMeanD (List.map Prod.snd zeroRows) 0)))) (dmul (dsub 0 (columnMeanD (List.map Prod.snd zeroRows) 0)) (dsub 0 (columnMeanD (List.map Prod.snd zeroRows) 0)))) (dmul (dsub 0 (columnMeanD (List.map Prod.snd zeroRows) 0)) (dsub 0 (columnMeanD (List.map Prod.snd zeroRows) 0)))) (dmul (dsub 0 (columnMeanD (List.map Prod.snd zeroRows) 0)) (dsub 0 (columnMeanD (List.map Prod.snd zeroRows) 0)))) (dmul (dsub 0 (columnMeanD (List.map Prod.snd zeroRows) 0)) (dsub 0 (columnMeanD (List.map Prod.snd zeroRows) 0)))) (dmul (dsub 0 (columnMeanD (List.map Prod.snd zeroRows) 0)) (dsub 0 (columnMeanD (List.map Prod.snd zeroRows) 0)))) (dmul (dsub 0 (columnMeanD (List.map Prod.snd zeroRows) 0)) (dsub 0 (columnMeanD (List.map Prod.snd zeroRows) 0)))) (dmul (dsub 0 (columnMeanD (List.map Prod.snd zeroRows) 0)) (dsub 0 (columnMeanD (List.map Prod.snd zeroRows) 0)))) (dmul (dsub 0 (columnMeanD (List.map Prod.snd zeroRows) 0)) (dsub 0 (columnMeanD (List.map Prod.snd zeroRows) 0)))) (dmul (dsub 0 (columnMeanD (List.map Prod.snd zeroRows) 0)) (dsub 0 (columnMeanD (List.map Prod.snd zeroRows) 0)))) (dmul (dsub 0 (columnMeanD (List.map Prod.snd zeroRows) 0)) (dsub 0 (columnMeanD (List.map Prod.snd zeroRows) 0)))) (dmul (dsub 0 (columnMeanD (List.map Prod.snd zeroRows) 0)) (dsub 0 (columnMeanD (List.map Prod.snd zeroRows) 0)))) (dmul (dsub 0 (columnMeanD (List.map Prod.snd zeroRows) 0)) (dsub 0 (columnMeanD (List.map Prod.snd zeroRows) 0)))) (dmul (dsub 0 (columnMeanD (List.map Prod.snd zeroRows) 0)) (dsub 0 (columnMeanD (List.map Prod.snd zeroRows) 0)))) 21) = 0 then 1 else dsqrt (ddiv (dadd (dadd (dadd (dadd (dadd (dadd (dadd (dadd (dadd (dadd (dadd (dadd (dadd (dadd (dadd (dadd (dadd (dadd (dadd (dadd (dadd (dadd 0 (dmul (dsub 0 (columnMeanD (List.map Prod.snd zeroRows) 0)) (dsub 0 (columnMeanD (List.map Prod.snd zeroRows) 0)))) (dmul (dsub 0 (columnMeanD (List.map Prod.snd zeroRows) 0)) (dsub 0 (columnMeanD (List.map Prod.snd zeroRows) 0)))) (dmul (dsub 0 (columnMeanD (List.map Prod.snd zeroRows) 0)) (dsub 0 (columnMeanD (List.map Prod.snd zeroRows) 0)))) (dmul (dsub 0 (columnMeanD (List.map Prod.snd zeroRows) 0)) (dsub 0 (columnMeanD (List.map Prod.snd zeroRows) 0)))) (dmul (dsub 0 (columnMeanD (List.map Prod.snd zeroRows) 0)) (dsub 0 (columnMeanD (List.map Prod.snd zeroRows) 0)))) (dmul (dsub 0 (columnMeanD (List.map Prod.snd zeroRows) 0)) (dsub 0 (columnMeanD (List.map Prod.snd zeroRows) 0)))) (dmul (dsub 0 (columnMeanD (List.map Prod.snd zeroRows) 0)) (dsub 0 (columnMeanD (List.map Prod.snd zeroRows) 0)))) (dmul (dsub 0 (columnMeanD (List.map Prod.snd zeroRows) 0)) (dsub 0 (columnMeanD (List.map Prod.snd zeroRows) 0)))) (dmul (dsub 0 (columnMeanD (List.map Prod.snd zeroRows) 0)) (dsub 0 (columnMeanD (List.map Prod.snd zeroRows) 0)))) (dmul (dsub 0 (columnMeanD (List.map Prod.snd zeroRows) 0)) (dsub 0 (columnMeanD (List.map Prod.snd zeroRows) 0)))) (dmul (dsub 0 (columnMeanD (List.map Prod.snd zeroRows) 0)) (dsub 0 (columnMeanD (List.map Prod.snd zeroRows) 0)))) (dmul (dsub 0 (columnMeanD (List.map Prod.snd zeroRows) 0)) (dsub 0 (columnMeanD (List.map Prod.snd zeroRows) 0)))) (dmul (dsub 0 (columnMeanD (List.map Prod.snd zeroRows) 0)) (dsub 0 (columnMeanD (List.map Prod.snd zeroRows) 0)))) (dmul (dsub 0 (columnMeanD (List.map Prod.snd zeroRows) 0)) (dsub 0 (columnMeanD (List.map Prod.snd zeroRows) 0)))) (dmul (dsub 0 (columnMeanD (List.map Prod.snd zeroRows) 0)) (dsub 0 (columnMeanD (List.map Prod.snd zeroRows) 0)))) (dmul (dsub 0 (columnMeanD (List.map Prod.snd zeroRows) 0)) (dsub 0 (columnMeanD (List.map Prod.snd zeroRows) 0)))) (dmul (dsub 0 (columnMeanD (List.map Prod.snd zeroRows) 0)) (dsub 0 (columnMeanD (List.map Prod.snd zeroRows) 0)))) (dmul (dsub 0 (columnMeanD (List.map Prod.snd zeroRows) 0)) (dsub 0 (columnMeanD (List.map Prod.snd zeroRows) 0)))) (dmul (dsub 0 (columnMeanD (List.map Prod.snd zeroRows) 0)) (dsub 0 (columnMeanD (List.map Prod.snd zeroRows) 0)))) (dmul (dsub 0 (columnMeanD (List.map Prod.snd zeroRows) 0)) (dsub 0 (columnMeanD (List.map Prod.snd zeroRows) 0)))) (dmul (dsub 0 (columnMeanD (List.map Prod.snd zeroRows) 0)) (dsub 0 (columnMeanD (List.map Prod.snd zeroRows) 0)))) (dmul (dsub 0 (columnMeanD (List.map Prod.snd zeroRows) 0)) (dsub 0 (columnMeanD (List.map Prod.snd zeroRows) 0)))) 21)) = 1
  simp only [zeroRows_mean, h1, h2, h3, h4, h5]
  rw [if_pos trivial]

/-- The normaliser in `double` arithmetic turns the rows `zeroRows` into the
dataset `zeroData`. -/
theorem zeroRows_normalized : loadAndNormalizeD zeroRows = some (1, zeroData) := by
  have h1 : dsub 0 0 = 0 := by
    rw [dsub_eq, show (0 - 0 : ℚ) = 0 by norm_num, roundToDouble_zero]
  have h2 : ddiv 0 1 = 0 := by
    rw [ddiv_eq, show (0 / 1 : ℚ) = 0 by norm_num, roundToDouble_zero]
  show some (1, [({ label := 1, features := [ddiv (dsub 0 (columnMeanD (List.map Prod.snd zeroRows) 0)) (columnStdD (List.map Prod.snd zeroRows) 0)] } : Instance ℚ),
    ({ label := 1, features := [ddiv (dsub 0 (columnMeanD (List.map Prod.snd zeroRows) 0)) (columnStdD (List.map Prod.snd zeroRows) 0)] } : Instance ℚ),
    ({ label := 1, features := [ddiv (dsub 0 (columnMeanD (List.map Prod.snd zeroRows) 0)) (columnStdD (List.map Prod.snd zeroRows) 0)] } : Instance ℚ),
    ({ label := 1, features := [ddiv (dsub 0 (columnMeanD (List.map Prod.snd zeroRows) 0)) (columnStdD (List.map Prod.snd zeroRows) 0)] } : Instance ℚ),
    ({ label := 1, features := [ddiv (dsub 0 (columnMeanD (List.map Prod.snd zeroRows) 0)) (columnStdD (List.map Prod.snd zeroRows) 0)] } : Instance ℚ),
    ({ label := 1, features := [ddiv (dsub 0 (columnMeanD (List.map Prod.snd zeroRows) 0)) (columnStdD (List.map Prod.snd zeroRows) 0)] } : Instance ℚ),
    ({ label := 1, features := [ddiv (dsub 0 (columnMeanD (List.map Prod.snd zeroRows) 0)) (columnStdD (List.map Prod.snd zeroRows) 0)] } : Instance ℚ),
    ({ label := 1, features := [ddiv (dsub 0 (columnMeanD (List.map Prod.snd zeroRows) 0)) (columnStdD (List.map Prod.snd zeroRows) 0)] } : Instance ℚ),
    ({ label := 1, features := [ddiv (dsub 0 (columnMeanD (List.map Prod.snd zeroRows) 0)) (columnStdD (List.map Prod.snd zeroRows) 0)] } : Instance ℚ),
    ({ label := 1, features := [ddiv (dsub 0 (columnMeanD (List.map Prod.snd zeroRows) 0)) (columnStdD (List.map Prod.snd zeroRows) 0)] } : Instance ℚ),
    ({ label := 1, features := [ddiv (dsub 0 (columnMeanD (List.map Prod.snd zeroRows) 0)) (columnStdD (List.map Prod.snd zeroRows) 0)] } : Instance ℚ),
    ({ label := 1, features := [ddiv (dsub 0 (columnMeanD (List.map Prod.snd zeroRows) 0)) (columnStdD (List.map Prod.snd zeroRows) 0)] } : Instance ℚ),
    ({ label := 1, features := [ddiv (dsub 0 (columnMeanD (List.map Prod.snd zeroRows) 0)) (columnStdD (List.map Prod.snd zeroRows) 0)] } : Instance ℚ),
    ({ label := 1, features := [ddiv (dsub 0 (columnMeanD (List.map Prod.snd zeroRows) 0)) (columnStdD (List.map Prod.snd zeroRows) 0)] } : Instance ℚ),
    ({ label := 1, features := [ddiv (dsub 0 (columnMeanD (List.map Prod.snd zeroRows) 0)) (columnStdD (List.map Prod.snd zeroRows) 0)] } : Instance ℚ),
    ({ label := 2, features := [ddiv (dsub 0 (columnMeanD (List.map Prod.snd zeroRows) 0)) (columnStdD (List.map Prod.snd zeroRows) 0)] } : Instance ℚ),
    ({ label := 2, features := [ddiv (dsub 0 (columnMeanD (List.map Prod.snd zeroRows) 0)) (columnStdD (List.map Prod.snd zeroRows) 0)] } : Instance ℚ),
    ({ label := 2, features := [ddiv (dsub 0 (columnMeanD (List.map Prod.snd zeroRows) 0)) (columnStdD (List.map Prod.snd zeroRows) 0)] } : Instance ℚ),
    ({ label := 2, features := [ddiv (dsub 0 (columnMeanD (List.map Prod.snd zeroRows) 0)) (columnStdD (List.map Prod.snd zeroRows) 0)] } : Instance ℚ),
    ({ label := 2, features := [ddiv (dsub 0 (columnMeanD (List.map Prod.snd zeroRows) 0)) (columnStdD (List.map Prod.snd zeroRows) 0)] } : Instance ℚ),
    ({ label := 2, features := [ddiv (dsub 0 (columnMeanD (List.map Prod.snd zeroRows) 0)) (columnStdD (List.map Prod.snd zeroRows) 0)] } : Instance ℚ),
    ({ label := 2, features := [ddiv (dsub 0 (columnMeanD (List.map Prod.snd zeroRows) 0)) (columnStdD (List.map Prod.snd zeroRows) 0)] } : Instance ℚ)]) = some (1, zeroData)
  simp only [zeroRows_mean, zeroRows_std, h1, h2]
  rfl

theorem zeroData_count : countCorrectD zeroData [] = 15 := by
  have hrange : List.range zeroData.length =
      [0, 1, 2, 3, 4, 5, 6, 7, 8, 9, 10, 11, 12, 13, 14, 15, 16, 17, 18, 19, 20, 21] := rfl
  simp only [countCorrectD, nearestNeighborD, sqDistD, hrange, List.foldl_cons, List.foldl_nil]
  norm_num [DBL_MAX, nth, zeroData]

/-- C8 (counterexample): the file of 22 rows with the feature `0`, 15 of class 1 and
then 7 of class 2, is normalised to `zeroData`; on it the first call of
`forwardSelection`, `evaluateSubset(instances, [])`, counts 15 correct queries
and returns the `double` nearest to `15/22`, which lies in `[0,1]`; `22` times
this result is not an integer, neither as an exact product nor as the `double`
product `14.999999999999998`. -/
theorem evaluateSubsetD_zeroData :
    loadAndNormalizeD zeroRows = some (1, zeroData) ∧
    1 ≤ zeroData.length ∧ ValidSubset zeroData [] ∧
    evaluateSubsetD zeroData [] = (6141272219141585 / 9007199254740992) ∧
    (∀ c : ℤ, ((zeroData.length : ℕ) : ℚ) * evaluateSubsetD zeroData [] ≠ (c : ℚ)) ∧
    dmul ((zeroData.length : ℕ) : ℚ) (evaluateSubsetD zeroData []) = (8444249301319679 / 562949953421312) ∧
    (∀ c : ℤ, dmul ((zeroData.length : ℕ) : ℚ) (evaluateSubsetD zeroData []) ≠ (c : ℚ)) := by
  have h1 : ddiv 15 22 = (6141272219141585 / 9007199254740992) := by
    rw [ddiv_eq, roundToDouble_eq (15 / 22) (6141272219141585) (-53) (by norm_num)
      (by rw [abs_of_pos (by norm_num)]; norm_num) (by rw [abs_of_pos (by norm_num)]; norm_num)
      (by norm_num) (by norm_num)]
    norm_num
  have h2 : dmul 22 (6141272219141585 / 9007199254740992) = (8444249301319679 / 562949953421312) := by
    rw [dmul_eq, roundToDouble_eq (22 * (6141272219141585 / 9007199254740992)) (8444249301319679) (-49) (by norm_num)
      (by rw [abs_of_pos (by norm_num)]; norm_num) (by rw [abs_of_pos (by norm_num)]; norm_num)
      (by norm_num) (by norm_num)]
    norm_num
  have hlen : ((zeroData.length : ℕ) : ℚ) = 22 := by
    have : zeroData.length = 22 := rfl
    rw [this]
    norm_num
  have hev : evaluateSubsetD zeroData [] = (6141272219141585 / 9007199254740992) := by
    unfold evaluateSubsetD
    rw [zeroData_count, hlen]
    show ddiv 15 22 = (6141272219141585 / 9007199254740992)
    exact h1
  have hnot : ∀ (v : ℚ), 14 < v → v < 15 → ∀ c : ℤ, v ≠ (c : ℚ) := by
    intro v h14 h15 c hc
    rw [hc] at h14 h15
    have h14' : (14 : ℤ) < c := by exact_mod_cast h14
    have h15' : c < (15 : ℤ) := by exact_mod_cast h15
    omega
  refine ⟨zeroRows_normalized, by decide, ?_, hev, ?_, ?_, ?_⟩
  · intro f hf
    exact absurd hf (List.not_mem_nil f)
  · rw [hev, hlen]
    exact hnot _ (by norm_num) (by norm_num)
  · rw [hev, hlen]
    exact h2
  · rw [hev, hlen, h2]
    exact hnot _ (by norm_num) (by norm_num)

theorem countCorrectD_le (instances : List (Instance ℚ)) (subset : List Nat) :
    countCorrectD instances subset ≤ instances.length := by
  unfold countCorrectD
  rw [count_foldl
    (fun i => (nearestNeighborD instances subset i).2 = (nth instances i).label)]
  rw [zero_add]
  exact le_trans (List.countP_le_length _) (by simp)

/-- C8 (amended): for every non-empty dataset and every subset of valid feature
indices, `evaluateSubset` returns an accuracy in the closed interval `[0,1]`:
the `double` nearest to `c / N` for an integer `c` between `0` and `N`, the
number of queries counted correct. -/
theorem evaluateSubsetD_mem_unit (instances : List (Instance ℚ)) (subset : List Nat)
    (hN : 1 ≤ instances.length) (_hvalid : ValidSubset instances subset) :
    0 ≤ evaluateSubsetD instances subset ∧ evaluateSubsetD instances subset ≤ 1 ∧
    ∃ c : Nat, c ≤ instances.length ∧
      evaluateSubsetD instances subset =
        roundToDouble ((c : ℚ) / (instances.length : ℚ)) := by
  have hpos : (0 : ℚ) < (instances.length : ℚ) := by exact_mod_cast hN
  have hle : (countCorrectD instances subset : ℚ) ≤ (instances.length : ℚ) := by
    exact_mod_cast countCorrectD_le instances subset
  have hq0 : (0 : ℚ) ≤ (countCorrectD instances subset : ℚ) / (instances.length : ℚ) :=
    div_nonneg (Nat.cast_nonneg _) (le_of_lt hpos)
  have hq1 : (countCorrectD instances subset : ℚ) / (instances.length : ℚ) ≤ 1 :=
    (div_le_one hpos).mpr hle
  have hunit := roundToDouble_mem_unit _ hq0 hq1
  unfold evaluateSubsetD
  rw [ddiv_eq]
  exact ⟨hunit.1, hunit.2, countCorrectD instances subset,
    countCorrectD_le instances subset, rfl⟩

/-- Witness of C8 (amended) at the dataset `roundingData` with its feature. -/
theorem evaluateSubsetD_mem_unit_witness :
    1 ≤ roundingData.length ∧ ValidSubset roundingData [0] ∧
    (0 ≤ evaluateSubsetD roundingData [0] ∧ evaluateSubsetD roundingData [0] ≤ 1 ∧
    ∃ c : Nat, c ≤ roundingData.length ∧
      evaluateSubsetD roundingData [0] =
        roundToDouble ((c : ℚ) / (roundingData.length : ℚ))) :=
  ⟨by decide, by simp [ValidSubset, roundingData],
    evaluateSubsetD_mem_unit roundingData [0] (by decide)
      (by simp [ValidSubset, roundingData])⟩

/-! ## Distances of a normalised dataset -/

/-- Every value of a normalised column has a square of at most `N - 1`. -/
theorem normalizedData_sq_le (rows : List (Int × List ℝ)) (F j : Nat)
    (hN : 2 ≤ rows.length) (hj : j < F) (x : ℝ)
    (hx : x ∈ dataColumn (normalizedData Real.sqrt rows F) j) :
    x * x ≤ (rows.length : ℝ) - 1 := by
  have hne := ne_nil_of_two_le rows hN
  have hN' : (2 : ℝ) ≤ (rows.length : ℝ) := by exact_mod_cast hN
  by_cases hconst : ColumnConstant rows j
  · rw [normalizedData_constant rows F j hne hj hconst x hx]
    linarith
  · have hv := normalizedData_variance rows F j hN hj hconst
    have hm := normalizedData_mean Real.sqrt rows F j hne hj
    have hlen : (dataColumn (normalizedData Real.sqrt rows F) j).length = rows.length := by
      unfold dataColumn
      rw [List.length_map, normalizedData_length]
    unfold sampleVariance at hv
    rw [hm, hlen] at hv
    have hden : ((rows.length : ℝ) - 1) ≠ 0 := by linarith
    rw [div_eq_one_iff_eq hden] at hv
    rw [← hv]
    have hmem : x * x ∈ (dataColumn (normalizedData Real.sqrt rows F) j).map
        (fun y => (y - 0) * (y - 0)) :=
      List.mem_map.mpr ⟨x, hx, by ring⟩
    apply List.single_le_sum _ _ hmem
    intro y hy
    obtain ⟨w, _, rfl⟩ := List.mem_map.mp hy
    exact mul_self_nonneg _

/-- Over the reals, in a dataset produced by the normaliser from `N ≥ 2` rows,
with `N` and the length of the subset below `2^31`, every restricted squared
distance is below the initial `best_distance`. -/
theorem normalizedData_sqDist_lt (rows : List (Int × List ℝ)) (F : Nat) (subset : List Nat)
    (i k : Nat) (hN : 2 ≤ rows.length) (hN' : rows.length < 2 ^ 31)
    (hsub : ∀ f, f ∈ subset → f < F) (hlen : subset.length < 2 ^ 31)
    (hi : i < rows.length) (hk : k < rows.length) :
    sqDist (nth (normalizedData Real.sqrt rows F) i) (nth (normalizedData Real.sqrt rows F) k)
      subset < DBL_MAX ℝ := by
  have hi' : i < (normalizedData Real.sqrt rows F).length := by
    rw [normalizedData_length]; exact hi
  have hk' : k < (normalizedData Real.sqrt rows F).length := by
    rw [normalizedData_length]; exact hk
  have hNr : (2 : ℝ) ≤ (rows.length : ℝ) := by exact_mod_cast hN
  have hNr' : (rows.length : ℝ) ≤ 2 ^ 31 := by exact_mod_cast hN'.le
  have hlenr : (subset.length : ℝ) ≤ 2 ^ 31 := by exact_mod_cast hlen.le
  have hterm : ∀ y, y ∈ subset.map (fun fIdx =>
      (feat (nth (normalizedData Real.sqrt rows F) i) fIdx -
          feat (nth (normalizedData Real.sqrt rows F) k) fIdx) *
        (feat (nth (normalizedData Real.sqrt rows F) i) fIdx -
          feat (nth (normalizedData Real.sqrt rows F) k) fIdx)) →
      y ≤ 4 * ((rows.length : ℝ) - 1) := by
    intro y hy
    obtain ⟨f, hf, rfl⟩ := List.mem_map.mp hy
    have ha := normalizedData_sq_le rows F f hN (hsub f hf) _
      (List.mem_map.mpr ⟨_, nth_mem _ i hi', rfl⟩)
    have hb := normalizedData_sq_le rows F f hN (hsub f hf) _
      (List.mem_map.mpr ⟨_, nth_mem _ k hk', rfl⟩)
    nlinarith [sq_nonneg (feat (nth (normalizedData Real.sqrt rows F) i) f +
      feat (nth (normalizedData Real.sqrt rows F) k) f)]
  rw [sqDist_eq_sum]
  have hsum := List.sum_le_card_nsmul _ _ hterm
  rw [List.length_map, nsmul_eq_mul] at hsum
  have hbound : (subset.length : ℝ) * (4 * ((rows.length : ℝ) - 1)) ≤ 2 ^ 31 * (4 * 2 ^ 31) := by
    apply mul_le_mul hlenr (by linarith) (by linarith) (by positivity)
  have hmax : (2 : ℝ) ^ 31 * (4 * 2 ^ 31) < DBL_MAX ℝ := by
    unfold DBL_MAX
    norm_num
  exact lt_of_le_of_lt (le_trans hsum hbound) hmax

/-- Over the reals, on every dataset produced by the normaliser from `N ≥ 2` rows
(with `N` and the length of the subset below `2^31`), for a subset of indices
below `F`: every query has a nearest neighbour in the sense of the
specification, and `evaluateSubset` returns the number of queries whose nearest
neighbour carries the query's label, divided by `N`. -/
theorem evaluateSubset_normalized (rows : List (Int × List ℝ)) (F : Nat) (subset : List Nat)
    (hN : 2 ≤ rows.length) (hN' : rows.length < 2 ^ 31)
    (hsub : ∀ f, f ∈ subset → f < F) (hlen : subset.length < 2 ^ 31) :
    (∃ nn : Nat → Nat, ∀ i, i < (normalizedData Real.sqrt rows F).length →
      IsNearest (normalizedData Real.sqrt rows F) subset i (nn i)) ∧
    ∀ nn : Nat → Nat,
      (∀ i, i < (normalizedData Real.sqrt rows F).length →
        IsNearest (normalizedData Real.sqrt rows F) subset i (nn i)) →
      evaluateSubset (normalizedData Real.sqrt rows F) subset =
        looAccuracy (normalizedData Real.sqrt rows F) nn := by
  have hlenD : (normalizedData Real.sqrt rows F).length = rows.length :=
    normalizedData_length Real.sqrt rows F
  have hfin : ∀ i j, i < (normalizedData Real.sqrt rows F).length →
      j < (normalizedData Real.sqrt rows F).length →
      sqDist (nth (normalizedData Real.sqrt rows F) i) (nth (normalizedData Real.sqrt rows F) j)
        subset < DBL_MAX ℝ := by
    intro i j hi hj
    rw [hlenD] at hi hj
    exact normalizedData_sqDist_lt rows F subset i j hN hN' hsub hlen hi hj
  have hex : ∀ i, i < (normalizedData Real.sqrt rows F).length →
      ∃ j, IsNearest (normalizedData Real.sqrt rows F) subset i j := by
    intro i hi
    rcases nearestNeighbor_spec (normalizedData Real.sqrt rows F) subset i with
      ⟨_, h2⟩ | ⟨j, hj, _, _⟩
    · obtain ⟨k, hk, hki⟩ := exists_other (normalizedData Real.sqrt rows F).length i
        (by rw [hlenD]; exact hN)
      exact absurd (hfin i k hi hk) (not_lt.mpr (h2 k hk hki))
    · exact ⟨j, hj⟩
  refine ⟨?_, ?_⟩
  · classical
    refine ⟨fun i =>
      if h : ∃ j, IsNearest (normalizedData Real.sqrt rows F) subset i j
      then Classical.choose h else 0, fun i hi => ?_⟩
    beta_reduce
    rw [dif_pos (hex i hi)]
    exact Classical.choose_spec (hex i hi)
  · intro nn hnn
    unfold evaluateSubset looAccuracy
    rw [countCorrect_eq_countP]
    congr 2
    apply List.countP_congr
    intro i hi
    have hi' : i < (normalizedData Real.sqrt rows F).length := List.mem_range.mp hi
    have hlab := nearestNeighbor_label (normalizedData Real.sqrt rows F) subset i (nn i)
      (hnn i hi') (hfin i (nn i) hi' (hnn i hi').1)
    simp [hlab]
end FeatureSelection
